import Mathlib

/-!
# goDNS: a shallow embedding of the DNS wire codec

Source files embedded here: `coding.go` (bounds-checked big-endian integer
codec) and `protocol_dns.go` (header, domain name, question, record and
message codec, and the resolution stub).

Modelling conventions.

* A Go `[]byte` is a `List Nat`; a Go `string` is the list of its bytes
  (so `'.'` is `46`).  A byte stored in a buffer is written exactly as the
  source writes it: where the source converts (`byte(x)`) the model reduces
  modulo `256`, where it stores a `uint8` unchanged the model stores the value
  unchanged.
* `uint16`/`uint32`/`uint64` values are naturals; every conversion or
  wrapping operation of the source is an explicit `% 2^w`.
* Offsets (`int` in Go) are naturals in the codec: every caller starts at
  offset `0` and offsets never exceed the buffer length by more than one, so
  they are far from the end of the 64-bit range.  The eight primitives of
  `coding.go` are also given on the whole range of `int`, with the wrapping
  sum of the guard and the panics of indexing and slicing
  (`decodeUint8Int`, ...); the two sets agree as long as `off + w` does not
  exceed the largest `int`.
* A Go function that writes into a slice returns the updated buffer together
  with its Go results (slices alias their backing array).
* `Option.none` as an outcome of an encoder is a Go run-time panic (index or
  slice bound out of range).  For the decoders, whose only loop is the
  unbounded `for` of `decodeDomainName`, `Option.none` is fuel exhaustion;
  `decodeDomainNameLoop_total` shows that it never happens.
-/

namespace GoDNS

/-! ## Errors -/

/-- The error values created with `errors.New` in the two source files, one
constructor per message text. -/
inductive DnsError where
  /-- "Overflow in decoding uint8" -/
  | overflowDecodingUint8
  /-- "Overflow in decoding uint16" -/
  | overflowDecodingUint16
  /-- "Overflow in decoding uint32" -/
  | overflowDecodingUint32
  /-- "Overflow in decoding uint64" -/
  | overflowDecodingUint64
  /-- "Overflow in encoding uint8": the text used by all four encoders -/
  | overflowEncodingUint8
  /-- "Data is too small" -/
  | dataTooSmall
  /-- "Data is unknown" -/
  | dataUnknown
  /-- "Invalid domain name" -/
  | invalidDomainName
  /-- "Unknown domain: " followed by the queried name -/
  | unknownDomain (domain : List Nat)
  /-- "Unsupport record type" -/
  | unsupportRecordType
  deriving DecidableEq, Repr

/-! ## coding.go -/

/-- Result of an encoder: the buffer after the call, the returned offset and
the returned error (`none` is Go's `nil`). -/
structure EncRes where
  buff : List Nat
  off : Nat
  err : Option DnsError
  deriving DecidableEq, Repr

/-- `binary.BigEndian.Uint16(b)` on the slice `msg[off:]`. -/
def beUint16 (msg : List Nat) (off : Nat) : Nat :=
  msg.getD off 0 * 256 + msg.getD (off + 1) 0

/-- `binary.BigEndian.Uint32(b)` on the slice `msg[off:]`. -/
def beUint32 (msg : List Nat) (off : Nat) : Nat :=
  msg.getD off 0 * 16777216 + msg.getD (off + 1) 0 * 65536
    + msg.getD (off + 2) 0 * 256 + msg.getD (off + 3) 0

/-- `binary.BigEndian.Uint64(b)` on the slice `msg[off:]`. -/
def beUint64 (msg : List Nat) (off : Nat) : Nat :=
  beUint32 msg off * 4294967296 + beUint32 msg (off + 4)

/-- `binary.BigEndian.PutUint16(msg[off:], v)`: `b[0] = byte(v >> 8)`,
`b[1] = byte(v)`. -/
def bePutUint16 (msg : List Nat) (off : Nat) (v : Nat) : List Nat :=
  (msg.set off (v / 256 % 256)).set (off + 1) (v % 256)

/-- `binary.BigEndian.PutUint32(msg[off:], v)`. -/
def bePutUint32 (msg : List Nat) (off : Nat) (v : Nat) : List Nat :=
  (((msg.set off (v / 16777216 % 256)).set (off + 1) (v / 65536 % 256)).set
    (off + 2) (v / 256 % 256)).set (off + 3) (v % 256)

/-- `binary.BigEndian.PutUint64(msg[off:], v)`. -/
def bePutUint64 (msg : List Nat) (off : Nat) (v : Nat) : List Nat :=
  bePutUint32 (bePutUint32 msg off (v / 4294967296 % 4294967296)) (off + 4) (v % 4294967296)

def decodeUint8 (msg : List Nat) (off : Nat) : Nat × Nat × Option DnsError :=
  if off + 1 > msg.length then (0, msg.length, some .overflowDecodingUint8)
  else (msg.getD off 0, off + 1, none)

def encodeUint8 (val : Nat) (msg : List Nat) (off : Nat) : EncRes :=
  if off + 1 > msg.length then ⟨msg, msg.length, some .overflowEncodingUint8⟩
  else ⟨msg.set off val, off + 1, none⟩

def decodeUint16 (msg : List Nat) (off : Nat) : Nat × Nat × Option DnsError :=
  if off + 2 > msg.length then (0, msg.length, some .overflowDecodingUint16)
  else (beUint16 msg off, off + 2, none)

def encodeUint16 (val : Nat) (msg : List Nat) (off : Nat) : EncRes :=
  if off + 2 > msg.length then ⟨msg, msg.length, some .overflowEncodingUint8⟩
  else ⟨bePutUint16 msg off val, off + 2, none⟩

def decodeUint32 (msg : List Nat) (off : Nat) : Nat × Nat × Option DnsError :=
  if off + 4 > msg.length then (0, msg.length, some .overflowDecodingUint32)
  else (beUint32 msg off, off + 4, none)

def encodeUint32 (val : Nat) (msg : List Nat) (off : Nat) : EncRes :=
  if off + 4 > msg.length then ⟨msg, msg.length, some .overflowEncodingUint8⟩
  else ⟨bePutUint32 msg off val, off + 4, none⟩

def decodeUint64 (msg : List Nat) (off : Nat) : Nat × Nat × Option DnsError :=
  if off + 8 > msg.length then (0, msg.length, some .overflowDecodingUint64)
  else (beUint64 msg off, off + 8, none)

def encodeUint64 (val : Nat) (msg : List Nat) (off : Nat) : EncRes :=
  if off + 8 > msg.length then ⟨msg, msg.length, some .overflowEncodingUint8⟩
  else ⟨bePutUint64 msg off val, off + 8, none⟩

/-! ### The primitives on the whole range of `int`

The definitions above take the offset as a natural number and form `off + w`
exactly.  Go's `int` is a signed machine integer, taken here with 64 bits (as
on amd64 and arm64), and the sum in the guard is formed in that type: it wraps
when `off + w` exceeds the largest `int`.  The definitions below follow the
source on every `int` offset, with the three ways a call can end: an error
return, a normal return, or a run-time panic (`none`), raised by `msg[off]`,
by `msg[off:]` or inside `binary.BigEndian` when the slice is too short.
`decodeUint8Int_eq` and its seven companions show that both sets of
definitions agree as long as `off + w` does not exceed the largest `int`. -/

/-- The largest value of Go's `int` on a 64-bit target, `2^63 - 1`. -/
def maxInt : Int := 9223372036854775807

/-- Go's `a + b` on `int` (64 bits, two's complement): the exact sum when it
lies in `-2^63 .. 2^63 - 1`, and otherwise the sum wrapped into that range. -/
def intAdd (a b : Int) : Int :=
  (a + b + 9223372036854775808) % 18446744073709551616 - 9223372036854775808

/-- The function `decodeUint8` on an `int` offset: `msg[off]` panics unless
`0 ≤ off < len(msg)`. -/
def decodeUint8Int (msg : List Nat) (off : Int) : Option (Nat × Int × Option DnsError) :=
  if intAdd off 1 > msg.length then some (0, msg.length, some .overflowDecodingUint8)
  else if 0 ≤ off ∧ off < msg.length then some (msg.getD off.toNat 0, intAdd off 1, none)
  else none

/-- The function `encodeUint8` on an `int` offset; the result is the buffer
after the call, the returned offset and the returned error. -/
def encodeUint8Int (val : Nat) (msg : List Nat) (off : Int) :
    Option (List Nat × Int × Option DnsError) :=
  if intAdd off 1 > msg.length then some (msg, msg.length, some .overflowEncodingUint8)
  else if 0 ≤ off ∧ off < msg.length then some (msg.set off.toNat val, intAdd off 1, none)
  else none

/-- The function `decodeUint16` on an `int` offset: `msg[off:]` panics unless
`0 ≤ off ≤ len(msg)`, and `binary.BigEndian.Uint16` panics on a slice of fewer
than 2 bytes (the slice has `len(msg) - off` bytes).  The wider primitives
follow the same pattern. -/
def decodeUint16Int (msg : List Nat) (off : Int) : Option (Nat × Int × Option DnsError) :=
  if intAdd off 2 > msg.length then some (0, msg.length, some .overflowDecodingUint16)
  else if 0 ≤ off ∧ off ≤ msg.length ∧ 2 ≤ msg.length - off then
    some (beUint16 msg off.toNat, intAdd off 2, none)
  else none

def encodeUint16Int (val : Nat) (msg : List Nat) (off : Int) :
    Option (List Nat × Int × Option DnsError) :=
  if intAdd off 2 > msg.length then some (msg, msg.length, some .overflowEncodingUint8)
  else if 0 ≤ off ∧ off ≤ msg.length ∧ 2 ≤ msg.length - off then
    some (bePutUint16 msg off.toNat val, intAdd off 2, none)
  else none

def decodeUint32Int (msg : List Nat) (off : Int) : Option (Nat × Int × Option DnsError) :=
  if intAdd off 4 > msg.length then some (0, msg.length, some .overflowDecodingUint32)
  else if 0 ≤ off ∧ off ≤ msg.length ∧ 4 ≤ msg.length - off then
    some (beUint32 msg off.toNat, intAdd off 4, none)
  else none

def encodeUint32Int (val : Nat) (msg : List Nat) (off : Int) :
    Option (List Nat × Int × Option DnsError) :=
  if intAdd off 4 > msg.length then some (msg, msg.length, some .overflowEncodingUint8)
  else if 0 ≤ off ∧ off ≤ msg.length ∧ 4 ≤ msg.length - off then
    some (bePutUint32 msg off.toNat val, intAdd off 4, none)
  else none

def decodeUint64Int (msg : List Nat) (off : Int) : Option (Nat × Int × Option DnsError) :=
  if intAdd off 8 > msg.length then some (0, msg.length, some .overflowDecodingUint64)
  else if 0 ≤ off ∧ off ≤ msg.length ∧ 8 ≤ msg.length - off then
    some (beUint64 msg off.toNat, intAdd off 8, none)
  else none

def encodeUint64Int (val : Nat) (msg : List Nat) (off : Int) :
    Option (List Nat × Int × Option DnsError) :=
  if intAdd off 8 > msg.length then some (msg, msg.length, some .overflowEncodingUint8)
  else if 0 ≤ off ∧ off ≤ msg.length ∧ 8 ≤ msg.length - off then
    some (bePutUint64 msg off.toNat val, intAdd off 8, none)
  else none

/-! ## protocol_dns.go: data model -/

structure dnsHeader where
  id : Nat
  flags : Nat
  qdCount : Nat
  anCount : Nat
  nsCount : Nat
  arCount : Nat
  deriving DecidableEq, Repr

structure dnsQuestion where
  qName : List Nat
  qType : Nat
  qClass : Nat
  deriving DecidableEq, Repr

structure dnsRecord where
  rdName : List Nat
  rdType : Nat
  rdClass : Nat
  rdTTL : Nat
  rdLength : Nat
  rdData : List Nat
  deriving DecidableEq, Repr

structure dnsMsg where
  id : Nat
  qr : Bool
  opcode : Nat
  aa : Bool
  tc : Bool
  rd : Bool
  ra : Bool
  rcode : Nat
  qdCount : Nat
  anCount : Nat
  nsCount : Nat
  arCount : Nat
  questions : List dnsQuestion
  answers : List dnsRecord
  authorities : List dnsRecord
  additionals : List dnsRecord
  deriving DecidableEq, Repr

/-- The zero value of `dnsMsg`, as produced by `new(dnsMsg)`. -/
def dnsMsg.fresh : dnsMsg :=
  ⟨0, false, 0, false, false, false, false, 0, 0, 0, 0, 0, [], [], [], []⟩

/-- The zero value of `dnsRecord` (`var record dnsRecord`). -/
def dnsRecord.zero : dnsRecord := ⟨[], 0, 0, 0, 0, []⟩

def QR_MASK : Nat := 1 <<< 15
def OPCODE_MASK : Nat := 1 <<< 11
def AA_MASK : Nat := 1 <<< 10
def TC_MASK : Nat := 1 <<< 9
def RD_MASK : Nat := 1 <<< 8
def RA_MASK : Nat := 1 <<< 7
def RCODE_MASK : Nat := 0xf

def RESP_OK : Nat := 0
def RESP_FORMAT_ERROR : Nat := 1
def RESP_SERVER_FAILURE : Nat := 2
def RESP_NAME_ERROR : Nat := 3
def RESP_NOT_IMPLEMENTED : Nat := 4
def RESP_REFUSED : Nat := 5

def RESOURCE_RECORD_A : Nat := 1
def RESOURCE_RECORD_NS : Nat := 2
def RESOURCE_RECORD_CNAME : Nat := 5
def RESOURCE_RECORD_SOA : Nat := 6
def RESOURCE_RECORD_PTR : Nat := 12
def RESOURCE_RECORD_MX : Nat := 15
def RESOURCE_RECORD_TXT : Nat := 16
def RESOURCE_RECORD_AAAA : Nat := 28
def RESOURCE_RECORD_SRV : Nat := 33

/-! ## protocol_dns.go: decoding -/

/-- The header is filled field by field; on an error the fields read so far
are returned with the failing offset. -/
def decodeDnsHdr (buff : List Nat) (off : Nat) : dnsHeader × Nat × Option DnsError :=
  let hdr : dnsHeader := ⟨0, 0, 0, 0, 0, 0⟩
  match decodeUint16 buff off with
  | (_, off, some e) => (hdr, off, some e)
  | (v, off, none) =>
    let hdr := { hdr with id := v }
    match decodeUint16 buff off with
    | (_, off, some e) => (hdr, off, some e)
    | (v, off, none) =>
      let hdr := { hdr with flags := v }
      match decodeUint16 buff off with
      | (_, off, some e) => (hdr, off, some e)
      | (v, off, none) =>
        let hdr := { hdr with qdCount := v }
        match decodeUint16 buff off with
        | (_, off, some e) => (hdr, off, some e)
        | (v, off, none) =>
          let hdr := { hdr with anCount := v }
          match decodeUint16 buff off with
          | (_, off, some e) => (hdr, off, some e)
          | (v, off, none) =>
            let hdr := { hdr with nsCount := v }
            match decodeUint16 buff off with
            | (_, off, some e) => (hdr, off, some e)
            | (v, off, none) => ({ hdr with arCount := v }, off, none)

/-- The `for` loop of `decodeDomainName`.  `fuel` bounds the number of
iterations; `none` is returned only when it runs out. -/
def decodeDomainNameLoop (buff : List Nat) :
    Nat → Nat → List Nat → Option (List Nat × Nat × Option DnsError)
  | 0, _, _ => none
  | fuel + 1, off, domain =>
    if off ≥ buff.length then some ([], buff.length, some .dataTooSmall)
    else
      let len := buff.getD off 0
      let off := off + 1
      if len &&& 0xC0 = 0 then
        if len = 0 then
          some (if domain.length = 0 then [46] else domain, off, none)
        else if off + len > buff.length then some ([], buff.length, some .dataTooSmall)
        else
          decodeDomainNameLoop buff fuel (off + len)
            (domain ++ (buff.drop off).take len ++ [46])
      else if len &&& 0xC0 = 0xC0 then
        decodeDomainNameLoop buff fuel off domain
      else some ([], buff.length, some .dataUnknown)

/-- Every iteration of the loop consumes at least one byte and the loop
stops once `off ≥ len(buff)`, so `len(buff) + 1` iterations are enough. -/
def decodeDomainName (buff : List Nat) (off : Nat) :
    Option (List Nat × Nat × Option DnsError) :=
  decodeDomainNameLoop buff (buff.length + 1) off []

def decodeQuestion (buff : List Nat) (off : Nat) :
    Option (dnsQuestion × Nat × Option DnsError) :=
  let question : dnsQuestion := ⟨[], 0, 0⟩
  match decodeDomainName buff off with
  | none => none
  | some (name, off, some e) => some ({ question with qName := name }, off, some e)
  | some (name, off, none) =>
    let question := { question with qName := name }
    if off = buff.length then some (question, off, none)
    else
      match decodeUint16 buff off with
      | (v, off, some e) => some ({ question with qType := v }, off, some e)
      | (v, off, none) =>
        let question := { question with qType := v }
        if off = buff.length then some (question, off, none)
        else
          match decodeUint16 buff off with
          | (v, off, err) =>
            let question := { question with qClass := v }
            if off = buff.length then some (question, off, none)
            else some (question, off, err)

/-- The question loop of `decodeBody`: `n` iterations remain, `i` is the loop
counter. -/
def decodeBodyLoop (buff : List Nat) :
    Nat → Nat → dnsMsg → Nat → Option (dnsMsg × Option DnsError)
  | 0, _, dns, _ =>
    some ({ dns with qdCount := dns.questions.length % 65536 }, none)
  | n + 1, i, dns, off =>
    match decodeQuestion buff off with
    | none => none
    | some (_, _, some e) => some (dns, some e)
    | some (q, off1, none) =>
      if off = off1 then
        let dns := { dns with qdCount := i % 65536 }
        some ({ dns with qdCount := dns.questions.length % 65536 }, none)
      else
        decodeBodyLoop buff n (i + 1) { dns with questions := dns.questions ++ [q] } off1

def decodeBody (dns : dnsMsg) (hdr : dnsHeader) (buff : List Nat) (off : Nat) :
    Option (dnsMsg × Option DnsError) :=
  if off = buff.length then
    some ({ dns with questions := [], answers := [], authorities := [], additionals := [] }, none)
  else
    decodeBodyLoop buff hdr.qdCount 0 { dns with questions := [] } off

def parseDnsHdr (dns : dnsMsg) (hdr : dnsHeader) : dnsMsg :=
  { dns with
    id := hdr.id
    qr := (hdr.flags &&& QR_MASK) != 0
    opcode := (hdr.flags &&& OPCODE_MASK) &&& 0xff
    aa := (hdr.flags &&& AA_MASK) != 0
    tc := (hdr.flags &&& TC_MASK) != 0
    rd := (hdr.flags &&& RD_MASK) != 0
    ra := (hdr.flags &&& RA_MASK) != 0
    rcode := (hdr.flags &&& RCODE_MASK) &&& 0xff }

def decodeMsg (dns : dnsMsg) (buffer : List Nat) : Option (dnsMsg × Option DnsError) :=
  match decodeDnsHdr buffer 0 with
  | (_, _, some e) => some (dns, some e)
  | (hdr, off, none) => decodeBody (parseDnsHdr dns hdr) hdr buffer off

/-! ## protocol_dns.go: the resolution stub -/

/-- The bytes of the string "www.baidu.com.". -/
def wwwBaiduCom : List Nat :=
  [119, 119, 119, 46, 98, 97, 105, 100, 117, 46, 99, 111, 109, 46]

def queryARecord (rd : dnsRecord) (domain : List Nat) : dnsRecord × Option DnsError :=
  if domain = wwwBaiduCom then
    ({ rd with rdLength := 4, rdData := [10, 10, 0, 1] }, none)
  else (rd, some (.unknownDomain domain))

def queryAAAARecord (rd : dnsRecord) (domain : List Nat) : dnsRecord × Option DnsError :=
  if domain = wwwBaiduCom then
    ({ rd with rdLength := 16,
               rdData := [0xfe, 0x80, 0, 0, 0, 0, 0, 0, 0, 0, 0, 0, 0, 0, 0, 1] }, none)
  else (rd, some (.unknownDomain domain))

/-- The bytes of the string "Hello World". -/
def helloWorld : List Nat := [72, 101, 108, 108, 111, 32, 87, 111, 114, 108, 100]

def queryTXTRecord (rd : dnsRecord) (domain : List Nat) : dnsRecord × Option DnsError :=
  if domain = wwwBaiduCom then ({ rd with rdData := helloWorld }, none)
  else (rd, some (.unknownDomain domain))

/-- The `range dns.questions` loop of `resolveMsg`; `record` is the variable
declared before the loop and reused by every iteration; `sw` is the outcome of
the `switch` (`none` for its `default` branch). -/
def resolveMsgLoop : List dnsQuestion → dnsRecord → dnsMsg → dnsMsg × Option DnsError
  | [], _, dns => (dns, none)
  | question :: rest, record, dns =>
    let record := { record with
      rdName := question.qName
      rdType := question.qType
      rdClass := question.qClass
      rdTTL := 60 * 60 }
    let sw : Option (dnsRecord × Option DnsError) :=
      if record.rdType = RESOURCE_RECORD_A then some (queryARecord record record.rdName)
      else if record.rdType = RESOURCE_RECORD_AAAA then
        some (queryAAAARecord record record.rdName)
      else if record.rdType = RESOURCE_RECORD_TXT then
        some (queryTXTRecord record record.rdName)
      else none
    match sw with
    | none => resolveMsgLoop rest record { dns with rcode := RESP_NOT_IMPLEMENTED }
    | some (_, some e) => (dns, some e)
    | some (record, none) =>
      resolveMsgLoop rest record
        { dns with answers := dns.answers ++ [record], anCount := (dns.anCount + 1) % 65536 }

def resolveMsg (dns : dnsMsg) : dnsMsg × Option DnsError :=
  let dns := { dns with
    qr := true
    aa := true
    ra := false
    rcode := RESP_OK
    anCount := 0
    nsCount := 0
    arCount := 0
    answers := [] }
  resolveMsgLoop dns.questions dnsRecord.zero dns

/-! ## protocol_dns.go: encoding -/

/-- The `flags` word assembled in `encodeDnsHdr`. -/
def encodeDnsHdr.flags (dns : dnsMsg) : Nat :=
  let flags := ((dns.rcode &&& RCODE_MASK) % 65536) ||| ((dns.opcode <<< 11) % 65536)
  let flags := if dns.qr then flags ||| QR_MASK else flags
  let flags := if dns.aa then flags ||| AA_MASK else flags
  let flags := if dns.tc then flags ||| TC_MASK else flags
  let flags := if dns.rd then flags ||| RD_MASK else flags
  let flags := if dns.ra then flags ||| RA_MASK else flags
  flags

def encodeDnsHdr (dns : dnsMsg) (buff : List Nat) (off : Nat) : EncRes :=
  let r := encodeUint16 dns.id buff off
  if r.err.isSome then r else
  let r := encodeUint16 (encodeDnsHdr.flags dns) r.buff r.off
  if r.err.isSome then r else
  let r := encodeUint16 dns.qdCount r.buff r.off
  if r.err.isSome then r else
  let r := encodeUint16 dns.anCount r.buff r.off
  if r.err.isSome then r else
  let r := encodeUint16 dns.nsCount r.buff r.off
  if r.err.isSome then r else
  let r := encodeUint16 dns.arCount r.buff r.off
  if r.err.isSome then r else
  ⟨r.buff, r.off, none⟩

/-- Go's `copy(buff[off:], src)`: bytes are stored while the destination has
room; the rest of `src` is dropped silently. -/
def copyAt : List Nat → Nat → List Nat → List Nat
  | buff, _, [] => buff
  | buff, off, b :: bs => copyAt (buff.set off b) (off + 1) bs

/-- The `for i := 0; i < size; i++` loop of `encodeDomainName`; the first list
is the whole string `s`, the second the characters `s[i:]` still to visit.
`none` is the index-out-of-range panic of `buff[off] = byte(sectionLen)`. -/
def encodeDomainNameLoop (s : List Nat) :
    List Nat → Nat → Bool → Nat → List Nat → Nat → Option EncRes
  | [], _, _, _, buff, off =>
    some ⟨if off < buff.length then buff.set off 0 else buff, off + 1, none⟩
  | c :: rest, i, isDot, ptr, buff, off =>
    if c = 46 then
      if isDot then some ⟨buff, buff.length, some .invalidDomainName⟩
      else
        let sectionLen := i - ptr
        if off < buff.length then
          let buff := buff.set off (sectionLen % 256)
          let buff := copyAt buff (off + 1) ((s.drop ptr).take (i - ptr))
          encodeDomainNameLoop s rest (i + 1) true (i + 1) buff (off + (sectionLen + 1))
        else none
    else encodeDomainNameLoop s rest (i + 1) false ptr buff off

def encodeDomainName (s : List Nat) (buff : List Nat) (off : Nat) : Option EncRes :=
  if s.length = 0 then some ⟨buff, off, none⟩
  else encodeDomainNameLoop s s 0 false 0 buff off

def encodeQuestion (q : dnsQuestion) (buff : List Nat) (off : Nat) : Option EncRes :=
  match encodeDomainName q.qName buff off with
  | none => none
  | some r =>
    if r.err.isSome then some r else
    let r := encodeUint16 q.qType r.buff r.off
    if r.err.isSome then some r else
    let r := encodeUint16 q.qClass r.buff r.off
    if r.err.isSome then some r else
    some ⟨r.buff, r.off, none⟩

/-- The `for i := 0; i < int(r.rdLength); i++` loop of `encodeRecord`: `n`
iterations remain.  `none` is the index-out-of-range panic of `r.rdData[i]`. -/
def encodeRdataLoop (rdData : List Nat) : Nat → Nat → List Nat → Nat → Option EncRes
  | 0, _, buff, off => some ⟨buff, off, none⟩
  | n + 1, i, buff, off =>
    if i < rdData.length then
      let r := encodeUint8 (rdData.getD i 0) buff off
      if r.err.isSome then some r
      else encodeRdataLoop rdData n (i + 1) r.buff r.off
    else none

def encodeRecord (r : dnsRecord) (buff : List Nat) (off : Nat) : Option EncRes :=
  match encodeDomainName r.rdName buff off with
  | none => none
  | some e =>
    if e.err.isSome then some e else
    let e := encodeUint16 r.rdType e.buff e.off
    if e.err.isSome then some e else
    let e := encodeUint16 r.rdClass e.buff e.off
    if e.err.isSome then some e else
    let e := encodeUint32 r.rdTTL e.buff e.off
    if e.err.isSome then some e else
    let e := encodeUint16 r.rdLength e.buff e.off
    if e.err.isSome then some e else
    if r.rdType = RESOURCE_RECORD_A ∨ r.rdType = RESOURCE_RECORD_AAAA
        ∨ r.rdType = RESOURCE_RECORD_TXT then
      encodeRdataLoop r.rdData r.rdLength 0 e.buff e.off
    else some ⟨e.buff, e.off, some .unsupportRecordType⟩

/-- One `for _, q := range dns.questions` loop of `encodeMsg`. -/
def encodeQuestions : List dnsQuestion → List Nat → Nat → Option EncRes
  | [], buff, off => some ⟨buff, off, none⟩
  | q :: qs, buff, off =>
    match encodeQuestion q buff off with
    | none => none
    | some r => if r.err.isSome then some r else encodeQuestions qs r.buff r.off

/-- One `for _, r := range ...` record loop of `encodeMsg`. -/
def encodeRecords : List dnsRecord → List Nat → Nat → Option EncRes
  | [], buff, off => some ⟨buff, off, none⟩
  | r :: rs, buff, off =>
    match encodeRecord r buff off with
    | none => none
    | some e => if e.err.isSome then some e else encodeRecords rs e.buff e.off

/-- Returns `(buf, err)`; on an error `buf` is `nil`.  The final `buf[:off]`
panics when `off` exceeds the capacity of the 1024-byte scratch buffer. -/
def encodeMsg (dns : dnsMsg) : Option (List Nat × Option DnsError) :=
  let buf := List.replicate 1024 0
  let r := encodeDnsHdr dns buf 0
  if r.err.isSome then some ([], r.err) else
  match encodeQuestions dns.questions r.buff r.off with
  | none => none
  | some r =>
    if r.err.isSome then some ([], r.err) else
    match encodeRecords dns.answers r.buff r.off with
    | none => none
    | some r =>
      if r.err.isSome then some ([], r.err) else
      match encodeRecords dns.authorities r.buff r.off with
      | none => none
      | some r =>
        if r.err.isSome then some ([], r.err) else
        match encodeRecords dns.additionals r.buff r.off with
        | none => none
        | some r =>
          if r.err.isSome then some ([], r.err) else
          if r.off ≤ 1024 then some (r.buff.take r.off, none) else none

/-! ## Specification-side definitions

The wire layout as the specification words it; the theorems below compare the
embedded code with these. -/

/-- A 16-bit integer in big-endian byte order. -/
def u16be (v : Nat) : List Nat := [v / 256 % 256, v % 256]

/-- A 32-bit integer in big-endian byte order. -/
def u32be (v : Nat) : List Nat :=
  [v / 16777216 % 256, v / 65536 % 256, v / 256 % 256, v % 256]

/-- The flags word of the specification: bit 15 response flag, bits 14-11
opcode, bit 10 authoritative, bit 9 truncated, bit 8 recursion desired, bit 7
recursion available, bits 3-0 response code. -/
def flagsLayout (dns : dnsMsg) : Nat :=
  dns.qr.toNat * 2 ^ 15 + dns.opcode * 2 ^ 11 + dns.aa.toNat * 2 ^ 10
    + dns.tc.toNat * 2 ^ 9 + dns.rd.toNat * 2 ^ 8 + dns.ra.toNat * 2 ^ 7
    + dns.rcode % 16

/-- The 12-byte header: id, flags, then the four counts. -/
def headerLayout (dns : dnsMsg) : List Nat :=
  u16be dns.id ++ u16be (flagsLayout dns) ++ u16be dns.qdCount ++ u16be dns.anCount
    ++ u16be dns.nsCount ++ u16be dns.arCount

/-- The dot-terminated name with the given segments: every segment is
followed by a '.'. -/
def dottedName : List (List Nat) → List Nat
  | [] => []
  | seg :: segs => seg ++ 46 :: dottedName segs

/-- The wire labels of the given segments: for each segment its length
followed by the bytes of the segment.  The length is the true length of the
segment, so it is a length byte only for a segment of at most 255 bytes. -/
def labelBytes : List (List Nat) → List Nat
  | [] => []
  | seg :: segs => (seg.length :: seg) ++ labelBytes segs

/-- A well-formed name: one or more segments, each non-empty, of at most 63
bytes and without a '.', each followed by a '.'. -/
def WellFormedName (name : List Nat) : Prop :=
  ∃ segs : List (List Nat), segs ≠ []
    ∧ (∀ seg ∈ segs, seg ≠ [] ∧ seg.length ≤ 63 ∧ 46 ∉ seg) ∧ name = dottedName segs

/-- Splitting a name on '.', as `strings.Split(name, ".")` does: "a.b." gives
"a", "b" and the empty string, and the empty name gives one empty string. -/
def splitOnDot : List Nat → List (List Nat)
  | [] => [[]]
  | c :: cs =>
    if c = 46 then [] :: splitOnDot cs
    else (c :: (splitOnDot cs).headD []) :: (splitOnDot cs).tail

/-- The name has two consecutive dots. -/
def hasTwoDots : List Nat → Bool
  | [] => false
  | c :: cs => (c == 46 && cs.head? == some 46) || hasTwoDots cs

/-- The reference encoding of a name: nothing for the empty name; otherwise,
for each non-empty segment obtained by splitting the name on '.', one length
byte (the length of the segment) followed by the bytes of the segment, and
then one zero byte. -/
def nameLayout (name : List Nat) : List Nat :=
  if name = [] then []
  else labelBytes ((splitOnDot name).filter (fun seg => !seg.isEmpty)) ++ [0]

/-- A question on the wire: name, type (u16), class (u16). -/
def questionLayout (q : dnsQuestion) : List Nat :=
  nameLayout q.qName ++ u16be q.qType ++ u16be q.qClass

/-- A record on the wire: name, type (u16), class (u16), TTL (u32), declared
RDATA length (u16), then the RDATA bytes. -/
def recordLayout (r : dnsRecord) : List Nat :=
  nameLayout r.rdName ++ u16be r.rdType ++ u16be r.rdClass ++ u32be r.rdTTL
    ++ u16be r.rdLength ++ r.rdData

/-- The questions of a section, in sequence order. -/
def questionsLayout : List dnsQuestion → List Nat
  | [] => []
  | q :: qs => questionLayout q ++ questionsLayout qs

/-- The records of a section, in sequence order. -/
def recordsLayout : List dnsRecord → List Nat
  | [] => []
  | r :: rs => recordLayout r ++ recordsLayout rs

/-- What follows the header: questions, answers, authorities, additionals. -/
def bodyLayout (dns : dnsMsg) : List Nat :=
  questionsLayout dns.questions ++ recordsLayout dns.answers
    ++ recordsLayout dns.authorities ++ recordsLayout dns.additionals

/-- The record types with an RDATA encoding: A, AAAA and TXT. -/
def SupportedType (t : Nat) : Prop :=
  t = RESOURCE_RECORD_A ∨ t = RESOURCE_RECORD_AAAA ∨ t = RESOURCE_RECORD_TXT

instance (t : Nat) : Decidable (SupportedType t) := by
  unfold SupportedType; infer_instance

/-- A record that `encodeRecord` accepts: a well-formed name, type A, AAAA
or TXT, and a declared length equal to the length of the data. -/
def WellFormedRecord (r : dnsRecord) : Prop :=
  WellFormedName r.rdName ∧ SupportedType r.rdType ∧ r.rdLength = r.rdData.length

/-- Well-formed names in every question and well-formed records in every
record section. -/
def WellFormedSections (dns : dnsMsg) : Prop :=
  (∀ q ∈ dns.questions, WellFormedName q.qName)
    ∧ (∀ r ∈ dns.answers, WellFormedRecord r)
    ∧ (∀ r ∈ dns.authorities, WellFormedRecord r)
    ∧ (∀ r ∈ dns.additionals, WellFormedRecord r)

/-- The 12 header bytes with the flags word as `encodeDnsHdr` packs it; for
an opcode of four bits this is `headerLayout`. -/
def headerBytes (dns : dnsMsg) : List Nat :=
  u16be dns.id ++ u16be (encodeDnsHdr.flags dns) ++ u16be dns.qdCount ++ u16be dns.anCount
    ++ u16be dns.nsCount ++ u16be dns.arCount

/-- The message that `decodeMsg` rebuilds on a fresh `dnsMsg` from the
encoding of `m`: the id, the five flags, the response code and the questions
of `m`, opcode 0, the question count, and no records. -/
def decodedView (m : dnsMsg) : dnsMsg :=
  ⟨m.id, m.qr, 0, m.aa, m.tc, m.rd, m.ra, m.rcode, m.questions.length, 0, 0, 0,
    m.questions, [], [], []⟩

/-- The fields of a message are in the range of their Go types, the opcode
and the response code have four bits, and the stored question count is the
number of questions. -/
def WellTyped (m : dnsMsg) : Prop :=
  m.id < 65536 ∧ m.opcode < 16 ∧ m.rcode < 16 ∧ m.qdCount = m.questions.length
    ∧ ∀ q ∈ m.questions, q.qType < 65536 ∧ q.qClass < 65536

/-- Every question has a well-formed name, and every record has a
well-formed name and a declared length equal to the length of its data
(whatever its type). -/
def WellFormedEntries (dns : dnsMsg) : Prop :=
  (∀ q ∈ dns.questions, WellFormedName q.qName)
    ∧ (∀ r ∈ dns.answers, WellFormedName r.rdName ∧ r.rdLength = r.rdData.length)
    ∧ (∀ r ∈ dns.authorities, WellFormedName r.rdName ∧ r.rdLength = r.rdData.length)
    ∧ (∀ r ∈ dns.additionals, WellFormedName r.rdName ∧ r.rdLength = r.rdData.length)

/-- An encoder called at `off` on `buff` with outcome `r` keeps the length of
the buffer and the bytes before `off`, and on success does not move the
offset backwards. -/
def Frame (buff : List Nat) (off : Nat) (r : EncRes) : Prop :=
  r.buff.length = buff.length ∧ r.buff.take off = buff.take off
    ∧ (r.err = none → off ≤ r.off)

/-- What the specification says of an answer record: its name, type, class
and TTL. -/
def answerKey (r : dnsRecord) : List Nat × Nat × Nat × Nat :=
  (r.rdName, r.rdType, r.rdClass, r.rdTTL)

/-- What the answer to a question carries: the name, type and class of the
question and the TTL 3600. -/
def expectedKey (q : dnsQuestion) : List Nat × Nat × Nat × Nat :=
  (q.qName, q.qType, q.qClass, 3600)

/-- The questions that get an answer: those of type A, AAAA or TXT. -/
def answeredQuestions (qs : List dnsQuestion) : List dnsQuestion :=
  qs.filter (fun q => decide (SupportedType q.qType))

/-! ## The query scenario of the specification -/

/-- The wire form of the question for "www.baidu.com.", type A, class 1:
`03 'www' 05 'baidu' 03 'com' 00`, `00 01`, `00 01` (19 bytes). -/
def scenarioQuestionBytes : List Nat :=
  [3, 119, 119, 119, 5, 98, 97, 105, 100, 117, 3, 99, 111, 109, 0, 0, 1, 0, 1]

/-- The 31-byte query datagram: header (id, flags 0x0100, qdCount 1, other
counts 0) followed by the question. -/
def scenarioQuery (id : Nat) : List Nat :=
  [id / 256 % 256, id % 256, 0x01, 0x00, 0, 1, 0, 0, 0, 0, 0, 0] ++ scenarioQuestionBytes

/-- The decoded query: qr=false, rd=true, qdCount=1 and the single question
("www.baidu.com.", 1, 1). -/
def scenarioQueryMsg (id : Nat) : dnsMsg :=
  ⟨id, false, 0, false, false, true, false, 0, 1, 0, 0, 0, [⟨wwwBaiduCom, 1, 1⟩], [], [], []⟩

/-- The answer record: name "www.baidu.com.", type 1, class 1, TTL 3600,
rdLength 4, rdData 10.10.0.1. -/
def scenarioAnswer : dnsRecord := ⟨wwwBaiduCom, 1, 1, 3600, 4, [10, 10, 0, 1]⟩

/-- The resolved message: qr=true, aa=true, rcode=0 and one answer. -/
def scenarioResponseMsg (id : Nat) : dnsMsg :=
  ⟨id, true, 0, true, false, true, false, 0, 1, 1, 0, 0, [⟨wwwBaiduCom, 1, 1⟩],
    [scenarioAnswer], [], []⟩

/-- The wire form of the answer record: name, `00 01`, `00 01`,
`00 00 0E 10`, `00 04`, `0A 0A 00 01` (29 bytes). -/
def scenarioAnswerBytes : List Nat :=
  [3, 119, 119, 119, 5, 98, 97, 105, 100, 117, 3, 99, 111, 109, 0,
    0x00, 0x01, 0x00, 0x01, 0x00, 0x00, 0x0E, 0x10, 0x00, 0x04, 0x0A, 0x0A, 0x00, 0x01]

/-- The 60-byte response datagram: header (id, flags 0x8500, counts 1,1,0,0),
the 19 question bytes, and the 29 record bytes. -/
def scenarioResponse (id : Nat) : List Nat :=
  [id / 256 % 256, id % 256, 0x85, 0x00, 0, 1, 0, 1, 0, 0, 0, 0] ++ scenarioQuestionBytes
    ++ scenarioAnswerBytes

end GoDNS

/-! ## Theorems -/

namespace GoDNS

/-! ### Writing into a buffer -/

@[simp] theorem copyAt_nil (buff : List Nat) (off : Nat) : copyAt buff off [] = buff := rfl

@[simp] theorem length_copyAt (bs : List Nat) :
    ∀ (buff : List Nat) (off : Nat), (copyAt buff off bs).length = buff.length := by
  induction bs with
  | nil => intro buff off; rfl
  | cons b bs ih => intro buff off; simp [copyAt, ih]

theorem copyAt_append (xs ys : List Nat) :
    ∀ (buff : List Nat) (off : Nat),
      copyAt buff off (xs ++ ys) = copyAt (copyAt buff off xs) (off + xs.length) ys := by
  induction xs with
  | nil => intro buff off; simp
  | cons x xs ih =>
    intro buff off
    have e : off + (xs.length + 1) = off + 1 + xs.length := by omega
    simp only [List.cons_append, copyAt, List.length_cons, e]
    exact ih _ _

/-- Two consecutive writes are one write of the concatenation. -/
theorem copyAt_copyAt (buff : List Nat) (off off2 : Nat) (xs ys : List Nat)
    (h : off2 = off + xs.length) :
    copyAt (copyAt buff off xs) off2 ys = copyAt buff off (xs ++ ys) := by
  subst h
  exact (copyAt_append xs ys buff off).symm

/-- A write that fits replaces exactly the bytes at `off ..< off + len`. -/
theorem copyAt_eq_splice (bs : List Nat) :
    ∀ (buff : List Nat) (off : Nat), off + bs.length ≤ buff.length →
      copyAt buff off bs = buff.take off ++ bs ++ buff.drop (off + bs.length) := by
  induction bs with
  | nil => intro buff off _; simp
  | cons b bs ih =>
    intro buff off h
    simp only [List.length_cons] at h
    have hlt : off < buff.length := by omega
    have hP : (buff.take off).length = off := by simp; omega
    rw [copyAt, ih _ _ (by simp; omega), List.set_eq_take_append_cons_drop, if_pos hlt]
    have e1 : off + 1 + bs.length = (buff.take off).length + (1 + bs.length) := by omega
    have e2 : List.take (off + 1) (buff.take off ++ b :: buff.drop (off + 1))
        = buff.take off ++ [b] := by
      rw [List.take_append_eq_append_take, hP]
      simp
    rw [e2]
    conv => lhs; rw [e1, ← List.drop_drop, List.drop_left]
    have e3 : off + (bs.length + 1) = (off + 1) + bs.length := by omega
    simp [List.drop_drop, e3, Nat.add_comm]

/-! ### The primitive codec -/

theorem encodeUint8_ok (v : Nat) (buff : List Nat) (off : Nat) (h : off + 1 ≤ buff.length) :
    encodeUint8 v buff off = ⟨copyAt buff off [v], off + 1, none⟩ := by
  have h2 : ¬ (off + 1 > buff.length) := by omega
  simp [encodeUint8, h2, copyAt]

theorem encodeUint16_ok (v : Nat) (buff : List Nat) (off : Nat) (h : off + 2 ≤ buff.length) :
    encodeUint16 v buff off = ⟨copyAt buff off (u16be v), off + 2, none⟩ := by
  have h2 : ¬ (off + 2 > buff.length) := by omega
  simp [encodeUint16, h2, copyAt, u16be, bePutUint16]

theorem encodeUint32_ok (v : Nat) (buff : List Nat) (off : Nat) (h : off + 4 ≤ buff.length) :
    encodeUint32 v buff off = ⟨copyAt buff off (u32be v), off + 4, none⟩ := by
  have h2 : ¬ (off + 4 > buff.length) := by omega
  simp [encodeUint32, h2, copyAt, u32be, bePutUint32]

/-! ### The primitives on 64-bit offsets -/

/-- The sum of two `int`s is exact when it lies in the range of `int`. -/
theorem intAdd_exact (a b : Int) (hlo : -9223372036854775808 ≤ a + b) (hhi : a + b ≤ maxInt) :
    intAdd a b = a + b := by
  unfold maxInt at hhi
  unfold intAdd
  omega

theorem decodeUint8Int_eq (msg : List Nat) (off : Nat) (h : (off : Int) + 1 ≤ maxInt) :
    decodeUint8Int msg off
      = some ((decodeUint8 msg off).1, ((decodeUint8 msg off).2.1 : Int),
          (decodeUint8 msg off).2.2) := by
  have e : intAdd off 1 = off + 1 := intAdd_exact _ _ (by omega) h
  unfold decodeUint8Int decodeUint8
  rw [e]
  by_cases hg : off + 1 > msg.length
  · have hg2 : (off : Int) + 1 > msg.length := by omega
    simp [hg, hg2]
  · have hg2 : ¬ ((off : Int) + 1 > msg.length) := by omega
    have hi : (0 : Int) ≤ off ∧ (off : Int) < msg.length := by omega
    simp [hg, hg2, hi]

theorem encodeUint8Int_eq (val : Nat) (msg : List Nat) (off : Nat)
    (h : (off : Int) + 1 ≤ maxInt) :
    encodeUint8Int val msg off
      = some ((encodeUint8 val msg off).buff, ((encodeUint8 val msg off).off : Int),
          (encodeUint8 val msg off).err) := by
  have e : intAdd off 1 = off + 1 := intAdd_exact _ _ (by omega) h
  unfold encodeUint8Int encodeUint8
  rw [e]
  by_cases hg : off + 1 > msg.length
  · have hg2 : (off : Int) + 1 > msg.length := by omega
    simp [hg, hg2]
  · have hg2 : ¬ ((off : Int) + 1 > msg.length) := by omega
    have hi : (0 : Int) ≤ off ∧ (off : Int) < msg.length := by omega
    simp [hg, hg2, hi]

theorem decodeUint16Int_eq (msg : List Nat) (off : Nat) (h : (off : Int) + 2 ≤ maxInt) :
    decodeUint16Int msg off
      = some ((decodeUint16 msg off).1, ((decodeUint16 msg off).2.1 : Int),
          (decodeUint16 msg off).2.2) := by
  have e : intAdd off 2 = off + 2 := intAdd_exact _ _ (by omega) h
  unfold decodeUint16Int decodeUint16
  rw [e]
  by_cases hg : off + 2 > msg.length
  · have hg2 : (off : Int) + 2 > msg.length := by omega
    simp [hg, hg2]
  · have hg2 : ¬ ((off : Int) + 2 > msg.length) := by omega
    have hi : (0 : Int) ≤ off ∧ (off : Int) ≤ msg.length ∧ (2 : Int) ≤ msg.length - off := by
      omega
    simp [hg, hg2, hi]

theorem encodeUint16Int_eq (val : Nat) (msg : List Nat) (off : Nat)
    (h : (off : Int) + 2 ≤ maxInt) :
    encodeUint16Int val msg off
      = some ((encodeUint16 val msg off).buff, ((encodeUint16 val msg off).off : Int),
          (encodeUint16 val msg off).err) := by
  have e : intAdd off 2 = off + 2 := intAdd_exact _ _ (by omega) h
  unfold encodeUint16Int encodeUint16
  rw [e]
  by_cases hg : off + 2 > msg.length
  · have hg2 : (off : Int) + 2 > msg.length := by omega
    simp [hg, hg2]
  · have hg2 : ¬ ((off : Int) + 2 > msg.length) := by omega
    have hi : (0 : Int) ≤ off ∧ (off : Int) ≤ msg.length ∧ (2 : Int) ≤ msg.length - off := by
      omega
    simp [hg, hg2, hi]

theorem decodeUint32Int_eq (msg : List Nat) (off : Nat) (h : (off : Int) + 4 ≤ maxInt) :
    decodeUint32Int msg off
      = some ((decodeUint32 msg off).1, ((decodeUint32 msg off).2.1 : Int),
          (decodeUint32 msg off).2.2) := by
  have e : intAdd off 4 = off + 4 := intAdd_exact _ _ (by omega) h
  unfold decodeUint32Int decodeUint32
  rw [e]
  by_cases hg : off + 4 > msg.length
  · have hg2 : (off : Int) + 4 > msg.length := by omega
    simp [hg, hg2]
  · have hg2 : ¬ ((off : Int) + 4 > msg.length) := by omega
    have hi : (0 : Int) ≤ off ∧ (off : Int) ≤ msg.length ∧ (4 : Int) ≤ msg.length - off := by
      omega
    simp [hg, hg2, hi]

theorem encodeUint32Int_eq (val : Nat) (msg : List Nat) (off : Nat)
    (h : (off : Int) + 4 ≤ maxInt) :
    encodeUint32Int val msg off
      = some ((encodeUint32 val msg off).buff, ((encodeUint32 val msg off).off : Int),
          (encodeUint32 val msg off).err) := by
  have e : intAdd off 4 = off + 4 := intAdd_exact _ _ (by omega) h
  unfold encodeUint32Int encodeUint32
  rw [e]
  by_cases hg : off + 4 > msg.length
  · have hg2 : (off : Int) + 4 > msg.length := by omega
    simp [hg, hg2]
  · have hg2 : ¬ ((off : Int) + 4 > msg.length) := by omega
    have hi : (0 : Int) ≤ off ∧ (off : Int) ≤ msg.length ∧ (4 : Int) ≤ msg.length - off := by
      omega
    simp [hg, hg2, hi]

theorem decodeUint64Int_eq (msg : List Nat) (off : Nat) (h : (off : Int) + 8 ≤ maxInt) :
    decodeUint64Int msg off
      = some ((decodeUint64 msg off).1, ((decodeUint64 msg off).2.1 : Int),
          (decodeUint64 msg off).2.2) := by
  have e : intAdd off 8 = off + 8 := intAdd_exact _ _ (by omega) h
  unfold decodeUint64Int decodeUint64
  rw [e]
  by_cases hg : off + 8 > msg.length
  · have hg2 : (off : Int) + 8 > msg.length := by omega
    simp [hg, hg2]
  · have hg2 : ¬ ((off : Int) + 8 > msg.length) := by omega
    have hi : (0 : Int) ≤ off ∧ (off : Int) ≤ msg.length ∧ (8 : Int) ≤ msg.length - off := by
      omega
    simp [hg, hg2, hi]

theorem encodeUint64Int_eq (val : Nat) (msg : List Nat) (off : Nat)
    (h : (off : Int) + 8 ≤ maxInt) :
    encodeUint64Int val msg off
      = some ((encodeUint64 val msg off).buff, ((encodeUint64 val msg off).off : Int),
          (encodeUint64 val msg off).err) := by
  have e : intAdd off 8 = off + 8 := intAdd_exact _ _ (by omega) h
  unfold encodeUint64Int encodeUint64
  rw [e]
  by_cases hg : off + 8 > msg.length
  · have hg2 : (off : Int) + 8 > msg.length := by omega
    simp [hg, hg2]
  · have hg2 : ¬ ((off : Int) + 8 > msg.length) := by omega
    have hi : (0 : Int) ≤ off ∧ (off : Int) ≤ msg.length ∧ (8 : Int) ≤ msg.length - off := by
      omega
    simp [hg, hg2, hi]

/-- C5 as stated fails.  The largest `int` is a non-negative offset with
`off + 1 > len(buffer)` for the 3-byte buffer `[1, 2, 3]`, yet the sum
`off + 1` formed by the guard of `decodeUint8` and `encodeUint8` wraps to the
smallest `int`, the guard does not fire and `msg[off]` panics: neither call
returns a value, an offset or an error.  The same happens to the 16-, 32- and
64-bit primitives at the offsets `MaxInt - 1`, `MaxInt - 3` and `MaxInt - 7`,
where `msg[off:]` panics. -/
theorem primitive_overflow_wraps :
    (0 ≤ maxInt ∧ maxInt + 1 > (([1, 2, 3] : List Nat).length : Int)
      ∧ intAdd maxInt 1 = -9223372036854775808
      ∧ decodeUint8Int [1, 2, 3] maxInt = none
      ∧ encodeUint8Int 9 [1, 2, 3] maxInt = none)
    ∧ (0 ≤ maxInt - 1 ∧ (maxInt - 1) + 2 > (([1, 2, 3] : List Nat).length : Int)
      ∧ decodeUint16Int [1, 2, 3] (maxInt - 1) = none
      ∧ encodeUint16Int 9 [1, 2, 3] (maxInt - 1) = none)
    ∧ (0 ≤ maxInt - 3 ∧ (maxInt - 3) + 4 > (([1, 2, 3] : List Nat).length : Int)
      ∧ decodeUint32Int [1, 2, 3] (maxInt - 3) = none
      ∧ encodeUint32Int 9 [1, 2, 3] (maxInt - 3) = none)
    ∧ (0 ≤ maxInt - 7 ∧ (maxInt - 7) + 8 > (([1, 2, 3] : List Nat).length : Int)
      ∧ decodeUint64Int [1, 2, 3] (maxInt - 7) = none
      ∧ encodeUint64Int 9 [1, 2, 3] (maxInt - 7) = none) := by
  refine ⟨⟨?_, ?_, ?_, ?_, ?_⟩, ⟨?_, ?_, ?_, ?_⟩, ⟨?_, ?_, ?_, ?_⟩, ⟨?_, ?_, ?_, ?_⟩⟩ <;> decide

/-- C5, amended.  For every buffer, every offset `off ≥ 0` and every width `w`
in 1, 2, 4, 8 with `off + w` not above the largest `int`: when
`off + w > len(buffer)` the decoder of width `w` returns value 0, offset
`len(buffer)` and its overflow error, and the encoder of width `w` returns
offset `len(buffer)` and an overflow error with the buffer unchanged; when
`off + w ≤ len(buffer)` neither fails: the decoder returns the big-endian
value at `off` and the encoder the buffer with the value written at `off`,
both with offset `off + w` and no error. -/
theorem primitive_overflow (msg : List Nat) (off : Int) (val : Nat) (hoff : 0 ≤ off) :
    (off + 1 ≤ maxInt →
      (off + 1 > msg.length →
        decodeUint8Int msg off = some (0, (msg.length : Int), some DnsError.overflowDecodingUint8)
        ∧ encodeUint8Int val msg off = some (msg, (msg.length : Int), some DnsError.overflowEncodingUint8))
      ∧ (off + 1 ≤ msg.length →
        decodeUint8Int msg off = some (msg.getD off.toNat 0, off + 1, none)
        ∧ encodeUint8Int val msg off = some (msg.set off.toNat val, off + 1, none)))
    ∧ (off + 2 ≤ maxInt →
      (off + 2 > msg.length →
        decodeUint16Int msg off = some (0, (msg.length : Int), some DnsError.overflowDecodingUint16)
        ∧ encodeUint16Int val msg off = some (msg, (msg.length : Int), some DnsError.overflowEncodingUint8))
      ∧ (off + 2 ≤ msg.length →
        decodeUint16Int msg off = some (beUint16 msg off.toNat, off + 2, none)
        ∧ encodeUint16Int val msg off = some (bePutUint16 msg off.toNat val, off + 2, none)))
    ∧ (off + 4 ≤ maxInt →
      (off + 4 > msg.length →
        decodeUint32Int msg off = some (0, (msg.length : Int), some DnsError.overflowDecodingUint32)
        ∧ encodeUint32Int val msg off = some (msg, (msg.length : Int), some DnsError.overflowEncodingUint8))
      ∧ (off + 4 ≤ msg.length →
        decodeUint32Int msg off = some (beUint32 msg off.toNat, off + 4, none)
        ∧ encodeUint32Int val msg off = some (bePutUint32 msg off.toNat val, off + 4, none)))
    ∧ (off + 8 ≤ maxInt →
      (off + 8 > msg.length →
        decodeUint64Int msg off = some (0, (msg.length : Int), some DnsError.overflowDecodingUint64)
        ∧ encodeUint64Int val msg off = some (msg, (msg.length : Int), some DnsError.overflowEncodingUint8))
      ∧ (off + 8 ≤ msg.length →
        decodeUint64Int msg off = some (beUint64 msg off.toNat, off + 8, none)
        ∧ encodeUint64Int val msg off
            = some (bePutUint64 msg off.toNat val, off + 8, none))) := by
  refine ⟨fun hb => ?_, fun hb => ?_, fun hb => ?_, fun hb => ?_⟩
  · have e : intAdd off 1 = off + 1 := intAdd_exact _ _ (by omega) hb
    refine ⟨fun h => ?_, fun h => ?_⟩
    · simp [decodeUint8Int, encodeUint8Int, e, h]
    · have h2 : ¬ (off + 1 > msg.length) := by omega
      have h3 : 0 ≤ off ∧ off < msg.length := by omega
      simp [decodeUint8Int, encodeUint8Int, e, h2, h3]
  · have e : intAdd off 2 = off + 2 := intAdd_exact _ _ (by omega) hb
    refine ⟨fun h => ?_, fun h => ?_⟩
    · simp [decodeUint16Int, encodeUint16Int, e, h]
    · have h2 : ¬ (off + 2 > msg.length) := by omega
      have h3 : 0 ≤ off ∧ off ≤ msg.length ∧ 2 ≤ msg.length - off := by omega
      simp [decodeUint16Int, encodeUint16Int, e, h2, h3]
  · have e : intAdd off 4 = off + 4 := intAdd_exact _ _ (by omega) hb
    refine ⟨fun h => ?_, fun h => ?_⟩
    · simp [decodeUint32Int, encodeUint32Int, e, h]
    · have h2 : ¬ (off + 4 > msg.length) := by omega
      have h3 : 0 ≤ off ∧ off ≤ msg.length ∧ 4 ≤ msg.length - off := by omega
      simp [decodeUint32Int, encodeUint32Int, e, h2, h3]
  · have e : intAdd off 8 = off + 8 := intAdd_exact _ _ (by omega) hb
    refine ⟨fun h => ?_, fun h => ?_⟩
    · simp [decodeUint64Int, encodeUint64Int, e, h]
    · have h2 : ¬ (off + 8 > msg.length) := by omega
      have h3 : 0 ≤ off ∧ off ≤ msg.length ∧ 8 ≤ msg.length - off := by omega
      simp [decodeUint64Int, encodeUint64Int, e, h2, h3]

/-- C5, amended, at the buffer `[1, 2, 3]` and offset 2: one byte fits, two
bytes do not. -/
theorem primitive_overflow_witness :
    (decodeUint8Int [1, 2, 3] 2 = some (3, 3, none)
      ∧ encodeUint8Int 9 [1, 2, 3] 2 = some ([1, 2, 9], 3, none))
    ∧ (decodeUint16Int [1, 2, 3] 2 = some (0, 3, some .overflowDecodingUint16)
      ∧ encodeUint16Int 9 [1, 2, 3] 2 = some ([1, 2, 3], 3, some .overflowEncodingUint8)) :=
  ⟨((primitive_overflow [1, 2, 3] 2 9 (by decide)).1 (by decide)).2 (by decide),
   ((primitive_overflow [1, 2, 3] 2 9 (by decide)).2.1 (by decide)).1 (by decide)⟩

/-! ### The header codec -/

theorem flags_eq_layout_aux : ∀ op < 16, ∀ rc < 16, ∀ qr aa tc rd ra : Bool,
    encodeDnsHdr.flags ⟨0, qr, op, aa, tc, rd, ra, rc, 0, 0, 0, 0, [], [], [], []⟩
      = flagsLayout ⟨0, qr, op, aa, tc, rd, ra, rc, 0, 0, 0, 0, [], [], [], []⟩ := by
  decide

theorem and_RCODE_MASK (rc : Nat) : rc &&& RCODE_MASK = rc % 16 :=
  Nat.and_pow_two_sub_one_eq_mod rc 4

/-- The flags word packed by `encodeDnsHdr` is the one of the specification
whenever the opcode has four bits. -/
theorem flags_eq_layout (dns : dnsMsg) (hop : dns.opcode < 16) :
    encodeDnsHdr.flags dns = flagsLayout dns := by
  have h := flags_eq_layout_aux dns.opcode hop (dns.rcode % 16) (Nat.mod_lt _ (by decide))
    dns.qr dns.aa dns.tc dns.rd dns.ra
  have hm : dns.rcode % 16 % 16 = dns.rcode % 16 := Nat.mod_mod _ _
  simp only [encodeDnsHdr.flags, flagsLayout, and_RCODE_MASK, hm] at h ⊢
  exact h

theorem land_two_pow_bne (x k : Nat) : ((x &&& 2 ^ k) != 0) = decide (x / 2 ^ k % 2 = 1) := by
  rw [← Nat.testBit_to_div_mod]
  cases h : x.testBit k
  · have h0 : x &&& 2 ^ k = 0 := by
      apply Nat.eq_of_testBit_eq
      intro i
      rw [Nat.testBit_and, Nat.testBit_two_pow, Nat.zero_testBit]
      by_cases hk : k = i
      · subst hk; simp [h]
      · simp [hk]
    simp [h0]
  · have h0 : x &&& 2 ^ k ≠ 0 := by
      intro h0
      have h1 : (x &&& 2 ^ k).testBit k = true := by
        rw [Nat.testBit_and, Nat.testBit_two_pow_self, h]; rfl
      rw [h0, Nat.zero_testBit] at h1
      exact Bool.noConfusion h1
    simp [h0]

/-- The flags word of the specification, bit by bit. -/
theorem flagsLayout_bits (m : dnsMsg) (hop : m.opcode < 16) :
    flagsLayout m < 65536
    ∧ decide (flagsLayout m / 2 ^ 15 % 2 = 1) = m.qr
    ∧ decide (flagsLayout m / 2 ^ 10 % 2 = 1) = m.aa
    ∧ decide (flagsLayout m / 2 ^ 9 % 2 = 1) = m.tc
    ∧ decide (flagsLayout m / 2 ^ 8 % 2 = 1) = m.rd
    ∧ decide (flagsLayout m / 2 ^ 7 % 2 = 1) = m.ra
    ∧ flagsLayout m % 16 % 256 = m.rcode % 16
    ∧ flagsLayout m / 16 % 8 = 0 := by
  obtain ⟨id, qr, op, aa, tc, rd, ra, rc, _, _, _, _, _, _, _, _⟩ := m
  simp only at hop
  simp only [flagsLayout]
  cases qr <;> cases aa <;> cases tc <;> cases rd <;> cases ra <;>
    simp only [Bool.toNat_true, Bool.toNat_false, decide_eq_true_eq, decide_eq_false_iff_not] <;>
    omega

theorem encodeDnsHdr_ok (dns : dnsMsg) (buff : List Nat) (off : Nat)
    (hroom : off + 12 ≤ buff.length) :
    encodeDnsHdr dns buff off =
      ⟨copyAt buff off (u16be dns.id ++ u16be (encodeDnsHdr.flags dns) ++ u16be dns.qdCount
          ++ u16be dns.anCount ++ u16be dns.nsCount ++ u16be dns.arCount),
        off + 12, none⟩ := by
  unfold encodeDnsHdr
  simp only [encodeUint16_ok _ _ _ (show off + 2 ≤ buff.length by omega), Option.isSome_none,
    Bool.false_eq_true, if_false]
  rw [encodeUint16_ok _ _ _ (show off + 2 + 2 ≤ (copyAt buff off _).length by simp; omega)]
  simp only [Option.isSome_none, Bool.false_eq_true, if_false]
  rw [encodeUint16_ok _ _ _ (by simp; omega)]
  simp only [Option.isSome_none, Bool.false_eq_true, if_false]
  rw [encodeUint16_ok _ _ _ (by simp; omega)]
  simp only [Option.isSome_none, Bool.false_eq_true, if_false]
  rw [encodeUint16_ok _ _ _ (by simp; omega)]
  simp only [Option.isSome_none, Bool.false_eq_true, if_false]
  rw [encodeUint16_ok _ _ _ (by simp; omega)]
  simp only [Option.isSome_none, Bool.false_eq_true, if_false]
  rw [copyAt_copyAt _ _ _ _ _ (by simp [u16be]), copyAt_copyAt _ _ _ _ _ (by simp [u16be]),
    copyAt_copyAt _ _ _ _ _ (by simp [u16be]), copyAt_copyAt _ _ _ _ _ (by simp [u16be]),
    copyAt_copyAt _ _ _ _ _ (by simp [u16be])]
  simp [List.append_assoc]

/-- C7 (flags bit layout on encode).  For every message whose opcode is in
0..15 (any rcode, any booleans) and every buffer with room for 12 bytes at
`off`, `encodeDnsHdr` succeeds, returns `off + 12`, and replaces exactly the
12 bytes at `off` by id, flags, qdCount, anCount, nsCount, arCount, each a
big-endian 16-bit integer, where the flags word is `flagsLayout`, that is
`qr*2^15 + opcode*2^11 + aa*2^10 + tc*2^9 + rd*2^8 + ra*2^7 + rcode mod 16`;
that word fits 16 bits and its bits 6..4 are zero. -/
theorem encodeDnsHdr_flags_layout (dns : dnsMsg) (buff : List Nat) (off : Nat)
    (hop : dns.opcode < 16) (hroom : off + 12 ≤ buff.length) :
    encodeDnsHdr dns buff off =
      ⟨buff.take off ++ (u16be dns.id ++ u16be (flagsLayout dns) ++ u16be dns.qdCount
          ++ u16be dns.anCount ++ u16be dns.nsCount ++ u16be dns.arCount)
        ++ buff.drop (off + 12), off + 12, none⟩
    ∧ encodeDnsHdr.flags dns = flagsLayout dns
    ∧ flagsLayout dns < 65536
    ∧ flagsLayout dns / 16 % 8 = 0 := by
  obtain ⟨hlt, _, _, _, _, _, _, hres⟩ := flagsLayout_bits dns hop
  refine ⟨?_, flags_eq_layout dns hop, hlt, hres⟩
  rw [encodeDnsHdr_ok dns buff off hroom, flags_eq_layout dns hop,
    copyAt_eq_splice _ _ _ (by simp [u16be]; omega)]
  simp [u16be]

/-- C7 at id 0x1234, qr, opcode 2, aa, rd, rcode 3, counts 1,1,0,0 and a
12-byte buffer: the flags word is 0x9503. -/
theorem encodeDnsHdr_flags_layout_witness :
    encodeDnsHdr ⟨0x1234, true, 2, true, false, true, false, 3, 1, 1, 0, 0, [], [], [], []⟩
        (List.replicate 12 0) 0
      = ⟨[0x12, 0x34, 0x95, 0x03, 0, 1, 0, 1, 0, 0, 0, 0], 12, none⟩ :=
  (encodeDnsHdr_flags_layout
    ⟨0x1234, true, 2, true, false, true, false, 3, 1, 1, 0, 0, [], [], [], []⟩
    (List.replicate 12 0) 0 (by decide) (by decide)).1

/-- Whatever the flags word, `parseDnsHdr` stores opcode 0: the mask
`OPCODE_MASK` is the single bit 11, and the result is cut to its low 8 bits
without a shift. -/
theorem parseDnsHdr_opcode (dns : dnsMsg) (hdr : dnsHeader) :
    (parseDnsHdr dns hdr).opcode = 0 := by
  show (hdr.flags &&& OPCODE_MASK) &&& 0xff = 0
  rw [Nat.and_assoc]
  have h : OPCODE_MASK &&& 0xff = 0 := by decide
  rw [h, Nat.and_zero]

/-- C3 (header flags round trip), evaluated at id 1, opcode 1 and all other
fields zero: the header written by `encodeDnsHdr` into a 12-byte buffer
carries the flags word 0x0800, and `decodeDnsHdr` followed by `parseDnsHdr`
reads back opcode 0, not 1. -/
theorem header_roundtrip_opcode_lost :
    (encodeDnsHdr ⟨1, false, 1, false, false, false, false, 0, 0, 0, 0, 0, [], [], [], []⟩
        (List.replicate 12 0) 0)
      = ⟨[0, 1, 8, 0, 0, 0, 0, 0, 0, 0, 0, 0], 12, none⟩
    ∧ decodeDnsHdr [0, 1, 8, 0, 0, 0, 0, 0, 0, 0, 0, 0] 0 = (⟨1, 0x0800, 0, 0, 0, 0⟩, 12, none)
    ∧ (parseDnsHdr dnsMsg.fresh ⟨1, 0x0800, 0, 0, 0, 0⟩).opcode = 0
    ∧ (parseDnsHdr dnsMsg.fresh ⟨1, 0x0800, 0, 0, 0, 0⟩).id = 1 := by
  decide

/-! ### Decoding domain names -/

/-- The loop of `decodeDomainName` stops before its fuel runs out. -/
theorem decodeDomainNameLoop_total (buff : List Nat) :
    ∀ (fuel off : Nat) (domain : List Nat), buff.length + 1 ≤ fuel + off → 0 < fuel →
      (decodeDomainNameLoop buff fuel off domain).isSome = true := by
  intro fuel
  induction fuel with
  | zero => intro off domain _ h0; omega
  | succ n ih =>
    intro off domain h _
    unfold decodeDomainNameLoop
    by_cases h1 : off ≥ buff.length
    · simp [h1]
    · simp only [h1, if_false]
      split
      · split
        · simp
        · split
          · simp
          · exact ih _ _ (by omega) (by omega)
      · split
        · exact ih _ _ (by omega) (by omega)
        · simp

theorem decodeDomainName_total (buff : List Nat) (off : Nat) :
    (decodeDomainName buff off).isSome = true :=
  decodeDomainNameLoop_total buff _ _ _ (by omega) (by omega)

/-- C10 (compression pointers), evaluated on two buffers.  In `[0xC0, 0x00]`
the first length byte has its top two bits set: `decodeDomainName` skips it,
reads the zero byte and returns the root name "." at offset 2 with no error.
In `[1, 'a', 0xC0, 0x00]` the pointer byte after the label "a" is skipped as
well and the name "a." is returned with no error. -/
theorem decodeDomainName_skips_pointer :
    decodeDomainName [0xC0, 0x00] 0 = some ([46], 2, none)
    ∧ decodeDomainName [1, 97, 0xC0, 0x00] 0 = some ([97, 46], 4, none) := by
  decide

/-! ### Encoding domain names -/

theorem length_labelBytes (segs : List (List Nat)) :
    (labelBytes segs).length = (dottedName segs).length := by
  induction segs with
  | nil => rfl
  | cons seg segs ih => simp [labelBytes, dottedName, ih]; omega

/-- Scanning a run of characters without a '.' only moves the index. -/
theorem encodeDomainNameLoop_scan (s : List Nat) (seg : List Nat) (hseg : 46 ∉ seg) :
    ∀ (tail : List Nat) (i : Nat) (isDot : Bool) (ptr : Nat) (buff : List Nat) (off : Nat),
      encodeDomainNameLoop s (seg ++ tail) i isDot ptr buff off
        = encodeDomainNameLoop s tail (i + seg.length) (if seg = [] then isDot else false)
            ptr buff off := by
  induction seg with
  | nil => intro tail i isDot ptr buff off; simp
  | cons c seg ih =>
    intro tail i isDot ptr buff off
    have hc : c ≠ 46 := fun h => hseg (by simp [h])
    have hseg2 : 46 ∉ seg := fun h => hseg (by simp [h])
    rw [List.cons_append, encodeDomainNameLoop, if_neg hc, ih hseg2]
    have e : i + 1 + seg.length = i + (c :: seg).length := by simp; omega
    rw [e]
    simp

/-- The loop of `encodeDomainName` on a name made of non-empty dot-free
segments of at most 255 bytes, started at a segment boundary, with room for
the whole encoding. -/
theorem encodeDomainNameLoop_dotted (segs : List (List Nat)) :
    (∀ seg ∈ segs, seg ≠ [] ∧ 46 ∉ seg) → (∀ seg ∈ segs, seg.length < 256) →
    ∀ (s p : List Nat) (isDot : Bool) (buff : List Nat) (off : Nat),
      s = p ++ dottedName segs → off + (dottedName segs).length + 1 ≤ buff.length →
      encodeDomainNameLoop s (dottedName segs) p.length isDot p.length buff off
        = some ⟨copyAt buff off (labelBytes segs ++ [0]),
            off + (dottedName segs).length + 1, none⟩ := by
  induction segs with
  | nil =>
    intro _ _ s p isDot buff off _ hroom
    simp only [dottedName, List.length_nil, Nat.add_zero] at hroom ⊢
    have h : off < buff.length := by omega
    simp [encodeDomainNameLoop, h, labelBytes, copyAt]
  | cons seg segs ih =>
    intro hsegs hlens s p isDot buff off hs hroom
    have hseg := hsegs seg (by simp)
    have hrest : ∀ x ∈ segs, x ≠ [] ∧ 46 ∉ x := fun x hx => hsegs x (by simp [hx])
    have hlrest : ∀ x ∈ segs, x.length < 256 := fun x hx => hlens x (by simp [hx])
    have hmod : seg.length % 256 = seg.length := Nat.mod_eq_of_lt (hlens seg (by simp))
    simp only [dottedName, List.length_append, List.length_cons] at hroom
    have hlt : off < buff.length := by omega
    have hslice : (s.drop p.length).take (p.length + seg.length - p.length) = seg := by
      rw [hs, List.drop_left, Nat.add_sub_cancel_left, dottedName, List.take_left]
    rw [dottedName, encodeDomainNameLoop_scan s seg hseg.2, if_neg hseg.1, encodeDomainNameLoop]
    simp only [if_true, Bool.false_eq_true, if_false, hlt, hslice]
    have hp : p.length + seg.length + 1 = (p ++ seg ++ [46]).length := by simp; omega
    have hbuf : copyAt (buff.set off ((p.length + seg.length - p.length) % 256)) (off + 1) seg
        = copyAt buff off (seg.length :: seg) := by
      rw [Nat.add_sub_cancel_left, hmod]; rfl
    rw [hbuf, hp, ih hrest hlrest s (p ++ seg ++ [46]) true _ _ (by rw [hs, dottedName]; simp)
      (by simp; omega)]
    rw [copyAt_copyAt _ _ _ _ _ (by simp)]
    simp [labelBytes, dottedName]
    omega

theorem dottedName_ne_nil (segs : List (List Nat)) (h : segs ≠ []) : dottedName segs ≠ [] := by
  cases segs with
  | nil => exact absurd rfl h
  | cons seg segs => simp [dottedName]

/-- `encodeDomainName` on a name made of non-empty dot-free segments of at
most 255 bytes, with room for the whole encoding: the labels and the closing
zero byte are written at `off` and the offset just past the zero byte is
returned. -/
theorem encodeDomainName_dotted (segs : List (List Nat)) (hne : segs ≠ [])
    (hsegs : ∀ seg ∈ segs, seg ≠ [] ∧ 46 ∉ seg) (hlens : ∀ seg ∈ segs, seg.length < 256)
    (buff : List Nat) (off : Nat)
    (hroom : off + (dottedName segs).length + 1 ≤ buff.length) :
    encodeDomainName (dottedName segs) buff off
      = some ⟨copyAt buff off (labelBytes segs ++ [0]),
          off + (dottedName segs).length + 1, none⟩ := by
  have hlen : ¬ ((dottedName segs).length = 0) := by
    intro h
    exact dottedName_ne_nil segs hne (List.length_eq_zero.mp h)
  rw [encodeDomainName, if_neg hlen]
  exact encodeDomainNameLoop_dotted segs hsegs hlens (dottedName segs) [] false buff off rfl
    hroom

/-! ### Decoding what the name encoder wrote -/

theorem land_C0_of_le_63 : ∀ n < 64, n &&& 0xC0 = 0 := by decide

theorem getD_append_length (pre : List Nat) (a : Nat) (rest : List Nat) :
    (pre ++ a :: rest).getD pre.length 0 = a := by
  rw [List.getD_eq_getElem?_getD, List.getElem?_append_right (Nat.le_refl _), Nat.sub_self]
  simp

/-- The loop of `decodeDomainName` on the labels of non-empty segments of at
most 63 bytes followed by a zero byte. -/
theorem decodeDomainNameLoop_labels (segs : List (List Nat)) :
    (∀ seg ∈ segs, seg ≠ [] ∧ seg.length ≤ 63) →
    ∀ (pre post domain : List Nat) (fuel : Nat), segs.length + 1 ≤ fuel →
      decodeDomainNameLoop (pre ++ (labelBytes segs ++ 0 :: post)) fuel pre.length domain
        = some (if (domain ++ dottedName segs).length = 0 then [46]
                else domain ++ dottedName segs,
            pre.length + (labelBytes segs).length + 1, none) := by
  induction segs with
  | nil =>
    intro _ pre post domain fuel hfuel
    obtain ⟨f, rfl⟩ : ∃ f, fuel = f + 1 := ⟨fuel - 1, by simp at hfuel; omega⟩
    show decodeDomainNameLoop (pre ++ 0 :: post) (f + 1) pre.length domain = _
    rw [decodeDomainNameLoop]
    simp only [getD_append_length]
    simp [labelBytes, dottedName]
  | cons seg segs ih =>
    intro hsegs pre post domain fuel hfuel
    obtain ⟨f, rfl⟩ : ∃ f, fuel = f + 1 := ⟨fuel - 1, by simp at hfuel; omega⟩
    have hseg := hsegs seg (by simp)
    have hrest : ∀ x ∈ segs, x ≠ [] ∧ x.length ≤ 63 := fun x hx => hsegs x (by simp [hx])
    have hpos : 0 < seg.length := List.length_pos.mpr hseg.1
    have hmod : seg.length % 256 = seg.length := Nat.mod_eq_of_lt (by omega)
    have hland : seg.length &&& 0xC0 = 0 := land_C0_of_le_63 _ (by omega)
    have hB : pre ++ (labelBytes (seg :: segs) ++ 0 :: post)
        = pre ++ seg.length :: (seg ++ (labelBytes segs ++ 0 :: post)) := by
      simp [labelBytes, hmod]
    have hB2 : pre ++ seg.length :: (seg ++ (labelBytes segs ++ 0 :: post))
        = (pre ++ seg.length :: seg) ++ (labelBytes segs ++ 0 :: post) := by
      simp
    rw [hB, decodeDomainNameLoop]
    have h1 : ¬ (pre.length ≥ (pre ++ seg.length :: (seg ++ (labelBytes segs ++ 0 :: post))).length) := by
      simp
    have h2 : ¬ (pre.length + 1 + seg.length
        > (pre ++ seg.length :: (seg ++ (labelBytes segs ++ 0 :: post))).length) := by
      simp; omega
    have h3 : ((pre ++ seg.length :: (seg ++ (labelBytes segs ++ 0 :: post))).drop
        (pre.length + 1)).take seg.length = seg := by
      have e : pre ++ seg.length :: (seg ++ (labelBytes segs ++ 0 :: post))
          = (pre ++ [seg.length]) ++ (seg ++ (labelBytes segs ++ 0 :: post)) := by simp
      rw [e, List.drop_left' (by simp), List.take_left]
    simp only [getD_append_length, if_neg h1, hland, if_true, if_neg (Nat.pos_iff_ne_zero.mp hpos),
      if_neg h2, h3]
    have hlen : pre.length + 1 + seg.length = (pre ++ seg.length :: seg).length := by
      simp; omega
    rw [hB2, hlen, ih hrest _ _ _ _ (by simp at hfuel ⊢; omega)]
    simp [labelBytes, dottedName, hmod]
    omega

theorem length_le_length_dottedName (segs : List (List Nat)) :
    segs.length ≤ (dottedName segs).length := by
  induction segs with
  | nil => simp
  | cons seg segs ih => simp [dottedName]; omega

/-- `decodeDomainName` at `off` in a buffer that holds, from `off` on, the
labels of non-empty segments of at most 63 bytes and a zero byte. -/
theorem decodeDomainName_labels (segs : List (List Nat)) (hne : segs ≠ [])
    (hsegs : ∀ seg ∈ segs, seg ≠ [] ∧ seg.length ≤ 63) (pre post : List Nat) :
    decodeDomainName (pre ++ (labelBytes segs ++ 0 :: post)) pre.length
      = some (dottedName segs, pre.length + (dottedName segs).length + 1, none) := by
  have hfuel : segs.length + 1 ≤ (pre ++ (labelBytes segs ++ 0 :: post)).length + 1 := by
    have := length_le_length_dottedName segs
    simp [length_labelBytes]
    omega
  rw [decodeDomainName, decodeDomainNameLoop_labels segs hsegs pre post [] _ hfuel]
  have h : ¬ (([] ++ dottedName segs).length = 0) := by
    intro h
    exact dottedName_ne_nil segs hne (List.length_eq_zero.mp (by simpa using h))
  rw [if_neg h, length_labelBytes]
  simp

/-- C2 (domain-name round trip).  For every well-formed name (one or more
non-empty dot-free segments of at most 63 bytes, each followed by '.'), every
buffer and every offset with `off + len(name) + 1 ≤ len(buffer)`,
`encodeDomainName` succeeds and returns `off + len(name) + 1`, and
`decodeDomainName` on the resulting buffer at `off` returns exactly the name,
the same end offset and no error. -/
theorem domainName_roundtrip (name buff : List Nat) (off : Nat)
    (hname : WellFormedName name) (hroom : off + name.length + 1 ≤ buff.length) :
    ∃ buff2 : List Nat,
      encodeDomainName name buff off = some ⟨buff2, off + name.length + 1, none⟩
      ∧ decodeDomainName buff2 off = some (name, off + name.length + 1, none) := by
  obtain ⟨segs, hne, hsegs, rfl⟩ := hname
  refine ⟨copyAt buff off (labelBytes segs ++ [0]), ?_, ?_⟩
  · exact encodeDomainName_dotted segs hne (fun x hx => ⟨(hsegs x hx).1, (hsegs x hx).2.2⟩)
      (fun x hx => Nat.lt_of_le_of_lt (hsegs x hx).2.1 (by decide)) buff off hroom
  · rw [copyAt_eq_splice _ _ _ (by simp [length_labelBytes]; omega)]
    have hpre : (buff.take off).length = off := by simp; omega
    have h := decodeDomainName_labels segs hne (fun x hx => ⟨(hsegs x hx).1, (hsegs x hx).2.1⟩)
      (buff.take off) (buff.drop (off + (labelBytes segs ++ [0]).length))
    rw [hpre] at h
    simpa using h

/-- C2 at the name "www.baidu.com.", offset 2 of a 20-byte buffer. -/
theorem domainName_roundtrip_witness :
    ∃ buff2 : List Nat,
      encodeDomainName wwwBaiduCom (List.replicate 20 255) 2 = some ⟨buff2, 17, none⟩
      ∧ decodeDomainName buff2 2 = some (wwwBaiduCom, 17, none) :=
  domainName_roundtrip wwwBaiduCom (List.replicate 20 255) 2
    ⟨[[119, 119, 119], [98, 97, 105, 100, 117], [99, 111, 109]], by decide, by decide, rfl⟩
    (by decide)

/-! ### The name encoder and its reference definition -/

theorem splitOnDot_segment (seg : List Nat) (hseg : 46 ∉ seg) (rest : List Nat) :
    splitOnDot (seg ++ 46 :: rest) = seg :: splitOnDot rest := by
  induction seg with
  | nil => simp [splitOnDot]
  | cons c seg ih =>
    have hc : c ≠ 46 := fun h => hseg (by simp [h])
    have hseg2 : 46 ∉ seg := fun h => hseg (by simp [h])
    simp [splitOnDot, hc, ih hseg2]

theorem splitOnDot_dottedName (segs : List (List Nat)) (hsegs : ∀ seg ∈ segs, 46 ∉ seg) :
    splitOnDot (dottedName segs) = segs ++ [[]] := by
  induction segs with
  | nil => rfl
  | cons seg segs ih =>
    rw [dottedName, splitOnDot_segment seg (hsegs seg (by simp)),
      ih (fun x hx => hsegs x (by simp [hx]))]
    rfl

theorem filter_nonempty_segments (segs : List (List Nat)) (hsegs : ∀ seg ∈ segs, seg ≠ []) :
    (segs ++ [[]]).filter (fun seg => !seg.isEmpty) = segs := by
  induction segs with
  | nil => rfl
  | cons seg segs ih =>
    have h1 : seg ≠ [] := hsegs seg (by simp)
    have h2 : (!seg.isEmpty) = true := by
      cases seg with
      | nil => exact absurd rfl h1
      | cons a l => rfl
    rw [List.cons_append, List.filter_cons, if_pos h2, ih (fun x hx => hsegs x (by simp [hx]))]

/-- A name that ends in '.' is the dotted name of dot-free segments; the
first one is non-empty unless the name starts with '.', and the others are
non-empty unless the name has two consecutive dots. -/
theorem exists_segments_of_dot_terminated (name : List Nat) :
    name.getLast? = some 46 →
    ∃ seg segs, 46 ∉ seg ∧ (∀ x ∈ segs, 46 ∉ x) ∧ name = dottedName (seg :: segs)
      ∧ (name.head? ≠ some 46 → seg ≠ [])
      ∧ (hasTwoDots name = false → ∀ x ∈ segs, x ≠ []) := by
  induction name with
  | nil => intro h; simp at h
  | cons c cs ih =>
    intro hlast
    by_cases hcs : cs = []
    · subst hcs
      have hc : c = 46 := by simpa using hlast
      subst hc
      exact ⟨[], [], by simp, by simp, rfl, by simp, by simp⟩
    · have hlast2 : cs.getLast? = some 46 := by
        obtain ⟨d, ds, rfl⟩ := List.exists_cons_of_ne_nil hcs
        rw [List.getLast?_cons_cons] at hlast
        exact hlast
      obtain ⟨seg, segs, h1, h2, h3, h4, h5⟩ := ih hlast2
      by_cases hc : c = 46
      · subst hc
        refine ⟨[], seg :: segs, by simp, ?_, ?_, by simp, ?_⟩
        · intro x hx
          rcases List.mem_cons.mp hx with rfl | hx
          · exact h1
          · exact h2 x hx
        · rw [h3]; rfl
        · intro htwo x hx
          simp only [hasTwoDots, beq_self_eq_true, Bool.true_and, Bool.or_eq_false_iff] at htwo
          rcases List.mem_cons.mp hx with rfl | hx
          · exact h4 (by simpa using htwo.1)
          · exact h5 htwo.2 x hx
      · refine ⟨c :: seg, segs, ?_, h2, ?_, by simp, ?_⟩
        · intro h
          rcases List.mem_cons.mp h with h | h
          · exact hc h.symm
          · exact h1 h
        · rw [h3]; rfl
        · intro htwo
          have : hasTwoDots cs = false := by
            simp only [hasTwoDots, Bool.or_eq_false_iff] at htwo
            exact htwo.2
          exact h5 this

/-- The reference encoding of the dotted name of non-empty dot-free segments:
their labels and a zero byte. -/
theorem nameLayout_dottedName (segs : List (List Nat)) (hne : segs ≠ [])
    (hsegs : ∀ seg ∈ segs, seg ≠ [] ∧ 46 ∉ seg) :
    nameLayout (dottedName segs) = labelBytes segs ++ [0] := by
  rw [nameLayout, if_neg (dottedName_ne_nil segs hne),
    splitOnDot_dottedName _ (fun x hx => (hsegs x hx).2),
    filter_nonempty_segments _ (fun x hx => (hsegs x hx).1)]

/-- A dot-terminated name that neither starts with a '.' nor has two
consecutive dots is the dotted name of non-empty dot-free segments. -/
theorem nameLayout_of_dot_terminated (name : List Nat) (hlast : name.getLast? = some 46)
    (hhead : name.head? ≠ some 46) (htwo : hasTwoDots name = false) :
    ∃ segs, segs ≠ [] ∧ (∀ seg ∈ segs, seg ≠ [] ∧ 46 ∉ seg) ∧ name = dottedName segs
      ∧ nameLayout name = labelBytes segs ++ [0] := by
  obtain ⟨seg, segs, h1, h2, h3, h4, h5⟩ := exists_segments_of_dot_terminated name hlast
  have hall : ∀ x ∈ seg :: segs, x ≠ [] ∧ 46 ∉ x := by
    intro x hx
    rcases List.mem_cons.mp hx with rfl | hx
    · exact ⟨h4 hhead, h1⟩
    · exact ⟨h5 htwo x hx, h2 x hx⟩
  refine ⟨seg :: segs, by simp, hall, h3, ?_⟩
  rw [h3]
  exact nameLayout_dottedName _ (by simp) hall

/-- `encodeDomainName` on a well-formed name with room: the reference
encoding is written at `off`. -/
theorem encodeDomainName_ok (name buff : List Nat) (off : Nat) (hname : WellFormedName name)
    (hroom : off + (nameLayout name).length ≤ buff.length) :
    encodeDomainName name buff off
      = some ⟨copyAt buff off (nameLayout name), off + (nameLayout name).length, none⟩ := by
  obtain ⟨segs, hne, hsegs, rfl⟩ := hname
  have hs : ∀ seg ∈ segs, seg ≠ [] ∧ 46 ∉ seg := fun x hx => ⟨(hsegs x hx).1, (hsegs x hx).2.2⟩
  rw [nameLayout_dottedName segs hne hs] at hroom ⊢
  have hlen : (labelBytes segs ++ [0]).length = (dottedName segs).length + 1 := by
    simp [length_labelBytes]
  rw [hlen] at hroom ⊢
  exact encodeDomainName_dotted segs hne hs
    (fun x hx => Nat.lt_of_le_of_lt (hsegs x hx).2.1 (by decide)) buff off (by omega)

set_option maxRecDepth 1000000 in
/-- C9 as stated fails.  The name "ab" has no two consecutive dots and its
reference encoding is `02 'a' 'b' 00`, yet `encodeDomainName` in an 8-byte
buffer writes only a zero byte and returns offset 1: a segment that is not
followed by a '.' is dropped.  The name ".a." has no two consecutive dots and
its reference encoding is `01 'a' 00`, yet `encodeDomainName` writes
`00 01 'a' 00`: a leading '.' gives an empty label.  The name made of 256
times 'a' and a closing '.' ends in '.', does not start with '.' and has no
two consecutive dots; its one segment has length 256, which no length byte
holds, and `encodeDomainName` in a 258-byte buffer writes the length byte
`00` (`byte(sectionLen)` cuts the length to its low 8 bits) before the 256
bytes of the segment and the zero byte. -/
theorem encodeDomainName_not_nameLayout :
    (hasTwoDots [97, 98] = false
      ∧ nameLayout [97, 98] = [2, 97, 98, 0]
      ∧ 0 + (nameLayout [97, 98]).length ≤ (List.replicate 8 255).length
      ∧ encodeDomainName [97, 98] (List.replicate 8 255) 0
          = some ⟨[0, 255, 255, 255, 255, 255, 255, 255], 1, none⟩
      ∧ encodeDomainName [97, 98] (List.replicate 8 255) 0
          ≠ some ⟨(List.replicate 8 255).take 0 ++ nameLayout [97, 98]
                ++ (List.replicate 8 255).drop (0 + (nameLayout [97, 98]).length),
              0 + (nameLayout [97, 98]).length, none⟩)
    ∧ (hasTwoDots [46, 97, 46] = false
      ∧ nameLayout [46, 97, 46] = [1, 97, 0]
      ∧ 0 + (nameLayout [46, 97, 46]).length ≤ (List.replicate 8 255).length
      ∧ encodeDomainName [46, 97, 46] (List.replicate 8 255) 0
          = some ⟨[0, 1, 97, 0, 255, 255, 255, 255], 4, none⟩
      ∧ encodeDomainName [46, 97, 46] (List.replicate 8 255) 0
          ≠ some ⟨(List.replicate 8 255).take 0 ++ nameLayout [46, 97, 46]
                ++ (List.replicate 8 255).drop (0 + (nameLayout [46, 97, 46]).length),
              0 + (nameLayout [46, 97, 46]).length, none⟩)
    ∧ ((List.replicate 256 97 ++ [46]).getLast? = some 46
      ∧ (List.replicate 256 97 ++ [46]).head? ≠ some 46
      ∧ hasTwoDots (List.replicate 256 97 ++ [46]) = false
      ∧ nameLayout (List.replicate 256 97 ++ [46]) = 256 :: List.replicate 256 97 ++ [0]
      ∧ 0 + (nameLayout (List.replicate 256 97 ++ [46])).length
          ≤ (List.replicate 258 255).length
      ∧ encodeDomainName (List.replicate 256 97 ++ [46]) (List.replicate 258 255) 0
          = some ⟨0 :: List.replicate 256 97 ++ [0], 258, none⟩
      ∧ encodeDomainName (List.replicate 256 97 ++ [46]) (List.replicate 258 255) 0
          ≠ some ⟨(List.replicate 258 255).take 0 ++ nameLayout (List.replicate 256 97 ++ [46])
                ++ (List.replicate 258 255).drop
                  (0 + (nameLayout (List.replicate 256 97 ++ [46])).length),
              0 + (nameLayout (List.replicate 256 97 ++ [46])).length, none⟩) := by
  decide

/-- C9, amended.  For every buffer and offset `encodeDomainName` writes
nothing for the empty name and returns the offset unchanged.  For every name
that ends in '.', does not start with '.', has no two consecutive dots and
whose segments (obtained by splitting the name on '.') are of at most 255
bytes each, and every buffer and offset with room for the reference encoding,
`encodeDomainName` replaces the bytes at `off` by exactly that encoding (for
each segment one length byte, equal to the length of the segment, and the
bytes of the segment, then one zero byte) and returns the offset just past
the zero byte. -/
theorem encodeDomainName_nameLayout (name buff : List Nat) (off : Nat) :
    encodeDomainName [] buff off = some ⟨buff, off, none⟩
    ∧ (name.getLast? = some 46 → name.head? ≠ some 46 → hasTwoDots name = false →
        (∀ seg ∈ splitOnDot name, seg.length ≤ 255) →
        off + (nameLayout name).length ≤ buff.length →
        encodeDomainName name buff off
          = some ⟨buff.take off ++ nameLayout name
                ++ buff.drop (off + (nameLayout name).length),
              off + (nameLayout name).length, none⟩) := by
  refine ⟨rfl, ?_⟩
  intro hlast hhead htwo hbound hroom
  obtain ⟨segs, hne, hsegs, hname, hlay⟩ := nameLayout_of_dot_terminated name hlast hhead htwo
  have hlens : ∀ seg ∈ segs, seg.length < 256 := by
    intro seg hseg
    have hmem : seg ∈ splitOnDot name := by
      rw [hname, splitOnDot_dottedName segs (fun x hx => (hsegs x hx).2)]
      exact List.mem_append_left _ hseg
    exact Nat.lt_succ_of_le (hbound seg hmem)
  have hlen : (nameLayout name).length = (dottedName segs).length + 1 := by
    rw [hlay]; simp [length_labelBytes]
  rw [hlen] at hroom
  rw [hname, encodeDomainName_dotted segs hne hsegs hlens buff off (by omega),
    copyAt_eq_splice _ _ _ (by simp [length_labelBytes]; omega), ← hname, hlay]
  simp [length_labelBytes, hname, Nat.add_assoc]

/-- C9, amended, at the name "www.baidu.com." and offset 2 of a 20-byte
buffer. -/
theorem encodeDomainName_nameLayout_witness :
    encodeDomainName wwwBaiduCom (List.replicate 20 255) 2
      = some ⟨[255, 255, 3, 119, 119, 119, 5, 98, 97, 105, 100, 117, 3, 99, 111, 109, 0,
          255, 255, 255], 17, none⟩ :=
  (encodeDomainName_nameLayout wwwBaiduCom (List.replicate 20 255) 2).2 (by decide) (by decide)
    (by decide) (by decide) (by decide)

/-! ### Questions, records and whole messages -/

theorem encodeQuestion_ok (q : dnsQuestion) (buff : List Nat) (off : Nat)
    (hname : WellFormedName q.qName) (hroom : off + (questionLayout q).length ≤ buff.length) :
    encodeQuestion q buff off
      = some ⟨copyAt buff off (questionLayout q), off + (questionLayout q).length, none⟩ := by
  simp only [questionLayout, List.length_append, u16be, List.length_cons, List.length_nil]
    at hroom
  rw [encodeQuestion, encodeDomainName_ok _ _ _ hname (by omega)]
  simp only [Option.isSome_none, Bool.false_eq_true, if_false]
  rw [encodeUint16_ok _ _ _ (by simp; omega)]
  simp only [Option.isSome_none, Bool.false_eq_true, if_false]
  rw [encodeUint16_ok _ _ _ (by simp; omega)]
  simp only [Option.isSome_none, Bool.false_eq_true, if_false]
  rw [copyAt_copyAt _ _ _ _ _ (by simp [u16be]),
    copyAt_copyAt _ _ _ _ _ (by simp [u16be])]
  simp [questionLayout, u16be, Nat.add_assoc]

theorem encodeRdataLoop_ok (rdData : List Nat) :
    ∀ (n i : Nat) (buff : List Nat) (off : Nat), i + n ≤ rdData.length →
      off + n ≤ buff.length →
      encodeRdataLoop rdData n i buff off
        = some ⟨copyAt buff off ((rdData.drop i).take n), off + n, none⟩ := by
  intro n
  induction n with
  | zero => intro i buff off _ _; simp [encodeRdataLoop]
  | succ n ih =>
    intro i buff off hi hroom
    have hlt : i < rdData.length := by omega
    rw [encodeRdataLoop, if_pos hlt, encodeUint8_ok _ _ _ (by omega)]
    simp only [Option.isSome_none, Bool.false_eq_true, if_false]
    rw [ih _ _ _ (by omega) (by simp; omega), copyAt_copyAt _ _ _ _ _ (by simp)]
    have hd : rdData.drop i = rdData.getD i 0 :: rdData.drop (i + 1) := by
      rw [List.drop_eq_getElem_cons hlt]
      simp [hlt]
    rw [hd]
    simp [Nat.add_assoc, Nat.add_comm 1 n]

theorem encodeRecord_ok (r : dnsRecord) (buff : List Nat) (off : Nat)
    (hr : WellFormedRecord r) (hroom : off + (recordLayout r).length ≤ buff.length) :
    encodeRecord r buff off
      = some ⟨copyAt buff off (recordLayout r), off + (recordLayout r).length, none⟩ := by
  obtain ⟨hname, htype, hlen⟩ := hr
  simp only [recordLayout, List.length_append, u16be, u32be, List.length_cons, List.length_nil]
    at hroom
  rw [encodeRecord, encodeDomainName_ok _ _ _ hname (by omega)]
  simp only [Option.isSome_none, Bool.false_eq_true, if_false]
  rw [encodeUint16_ok _ _ _ (by simp; omega)]
  simp only [Option.isSome_none, Bool.false_eq_true, if_false]
  rw [encodeUint16_ok _ _ _ (by simp; omega)]
  simp only [Option.isSome_none, Bool.false_eq_true, if_false]
  rw [encodeUint32_ok _ _ _ (by simp; omega)]
  simp only [Option.isSome_none, Bool.false_eq_true, if_false]
  rw [encodeUint16_ok _ _ _ (by simp; omega)]
  simp only [Option.isSome_none, Bool.false_eq_true, if_false]
  have htype2 : r.rdType = RESOURCE_RECORD_A ∨ r.rdType = RESOURCE_RECORD_AAAA
      ∨ r.rdType = RESOURCE_RECORD_TXT := htype
  rw [if_pos htype2, encodeRdataLoop_ok _ _ _ _ _ (by omega) (by simp; omega)]
  rw [copyAt_copyAt _ _ _ _ _ (by simp [u16be, u32be]),
    copyAt_copyAt _ _ _ _ _ (by simp [u16be, u32be]),
    copyAt_copyAt _ _ _ _ _ (by simp [u16be, u32be]),
    copyAt_copyAt _ _ _ _ _ (by simp [u16be, u32be]),
    copyAt_copyAt _ _ _ _ _ (by simp [u16be, u32be])]
  simp [recordLayout, u16be, u32be, hlen, Nat.add_assoc]
  omega

theorem encodeQuestions_ok (qs : List dnsQuestion) :
    (∀ q ∈ qs, WellFormedName q.qName) →
    ∀ (buff : List Nat) (off : Nat), off + (questionsLayout qs).length ≤ buff.length →
      encodeQuestions qs buff off
        = some ⟨copyAt buff off (questionsLayout qs), off + (questionsLayout qs).length,
            none⟩ := by
  induction qs with
  | nil => intro _ buff off _; simp [encodeQuestions, questionsLayout]
  | cons q qs ih =>
    intro hqs buff off hroom
    simp only [questionsLayout, List.length_append] at hroom
    rw [encodeQuestions, encodeQuestion_ok q buff off (hqs q (by simp)) (by omega)]
    simp only [Option.isSome_none, Bool.false_eq_true, if_false]
    rw [ih (fun x hx => hqs x (by simp [hx])) _ _ (by simp; omega),
      copyAt_copyAt _ _ _ _ _ rfl]
    simp [questionsLayout, Nat.add_assoc]

theorem encodeRecords_ok (rs : List dnsRecord) :
    (∀ r ∈ rs, WellFormedRecord r) →
    ∀ (buff : List Nat) (off : Nat), off + (recordsLayout rs).length ≤ buff.length →
      encodeRecords rs buff off
        = some ⟨copyAt buff off (recordsLayout rs), off + (recordsLayout rs).length,
            none⟩ := by
  induction rs with
  | nil => intro _ buff off _; simp [encodeRecords, recordsLayout]
  | cons r rs ih =>
    intro hrs buff off hroom
    simp only [recordsLayout, List.length_append] at hroom
    rw [encodeRecords, encodeRecord_ok r buff off (hrs r (by simp)) (by omega)]
    simp only [Option.isSome_none, Bool.false_eq_true, if_false]
    rw [ih (fun x hx => hrs x (by simp [hx])) _ _ (by simp; omega),
      copyAt_copyAt _ _ _ _ _ rfl]
    simp [recordsLayout, Nat.add_assoc]

theorem length_headerBytes (dns : dnsMsg) : (headerBytes dns).length = 12 := rfl

theorem headerBytes_eq_layout (dns : dnsMsg) (hop : dns.opcode < 16) :
    headerBytes dns = headerLayout dns := by
  rw [headerBytes, headerLayout, flags_eq_layout dns hop]

theorem take_copyAt_zero (bs buff : List Nat) (h : bs.length ≤ buff.length) :
    (copyAt buff 0 bs).take bs.length = bs := by
  rw [copyAt_eq_splice _ _ _ (by omega)]
  simp

/-- `encodeMsg` on a message with well-formed sections whose encoding fits
the 1024-byte scratch buffer. -/
theorem encodeMsg_ok (m : dnsMsg) (hwf : WellFormedSections m)
    (hfits : 12 + (bodyLayout m).length ≤ 1024) :
    encodeMsg m = some (headerBytes m ++ bodyLayout m, none) := by
  obtain ⟨hq, han, hns, har⟩ := hwf
  simp only [bodyLayout, List.length_append] at hfits
  have hbuf : (List.replicate 1024 0).length = 1024 := List.length_replicate _ _
  unfold encodeMsg
  simp only []
  generalize List.replicate 1024 0 = buf at hbuf ⊢
  rw [encodeDnsHdr_ok m _ 0 (by rw [hbuf]; omega)]
  simp only [Option.isSome_none, Bool.false_eq_true, if_false]
  rw [encodeQuestions_ok _ hq _ _ (by rw [length_copyAt, hbuf]; omega)]
  simp only [Option.isSome_none, Bool.false_eq_true, if_false]
  rw [encodeRecords_ok _ han _ _ (by rw [length_copyAt, length_copyAt, hbuf]; omega)]
  simp only [Option.isSome_none, Bool.false_eq_true, if_false]
  rw [encodeRecords_ok _ hns _ _
    (by rw [length_copyAt, length_copyAt, length_copyAt, hbuf]; omega)]
  simp only [Option.isSome_none, Bool.false_eq_true, if_false]
  rw [encodeRecords_ok _ har _ _
    (by rw [length_copyAt, length_copyAt, length_copyAt, length_copyAt, hbuf]; omega)]
  simp only [Option.isSome_none, Bool.false_eq_true, if_false]
  rw [if_pos (by omega)]
  have hb : u16be m.id ++ u16be (encodeDnsHdr.flags m) ++ u16be m.qdCount ++ u16be m.anCount
      ++ u16be m.nsCount ++ u16be m.arCount = headerBytes m := rfl
  rw [hb]
  rw [copyAt_copyAt _ _ _ _ _
      (by simp only [List.length_append, length_headerBytes, Nat.zero_add]),
    copyAt_copyAt _ _ _ _ _
      (by simp only [List.length_append, length_headerBytes, Nat.zero_add]),
    copyAt_copyAt _ _ _ _ _
      (by simp only [List.length_append, length_headerBytes, Nat.zero_add]),
    copyAt_copyAt _ _ _ _ _
      (by simp only [List.length_append, length_headerBytes, Nat.zero_add])]
  simp only [List.append_assoc, bodyLayout]
  have hlen : 0 + 12 + (questionsLayout m.questions).length + (recordsLayout m.answers).length
      + (recordsLayout m.authorities).length + (recordsLayout m.additionals).length
      = (headerBytes m ++ (questionsLayout m.questions ++ (recordsLayout m.answers
          ++ (recordsLayout m.authorities ++ recordsLayout m.additionals)))).length := by
    simp only [List.length_append, length_headerBytes]
    omega
  rw [hlen, take_copyAt_zero _ _ (by rw [← hlen, hbuf]; omega)]

/-- C6 (message layout).  For every message whose question and record names
are well-formed, whose records have type A, AAAA or TXT and a declared length
equal to the length of their data, and whose encoding fits in 1024 bytes,
`encodeMsg` succeeds and returns exactly the 12 header bytes, then every
question (name, type u16, class u16) in sequence order, then every answer,
authority and additional record (name, type u16, class u16, TTL u32, rdLength
u16, rdData) in sequence order, all integers big-endian; the header is id,
flags, qdCount, anCount, nsCount, arCount, and the returned length is the sum
of the lengths of the parts. -/
theorem encodeMsg_layout (m : dnsMsg) (hwf : WellFormedSections m)
    (hfits : 12 + (bodyLayout m).length ≤ 1024) :
    encodeMsg m
      = some (headerBytes m ++ questionsLayout m.questions ++ recordsLayout m.answers
          ++ recordsLayout m.authorities ++ recordsLayout m.additionals, none)
    ∧ (headerBytes m ++ questionsLayout m.questions ++ recordsLayout m.answers
          ++ recordsLayout m.authorities ++ recordsLayout m.additionals).length
        = 12 + (questionsLayout m.questions).length + (recordsLayout m.answers).length
          + (recordsLayout m.authorities).length + (recordsLayout m.additionals).length
    ∧ (encodeDnsHdr m (List.replicate 12 0) 0).buff = headerBytes m
    ∧ (m.opcode < 16 → headerBytes m = headerLayout m) := by
  refine ⟨?_, ?_, ?_, headerBytes_eq_layout m⟩
  · rw [encodeMsg_ok m hwf hfits]
    simp [bodyLayout]
  · simp [length_headerBytes]; omega
  · rw [encodeDnsHdr_ok m _ 0 (by simp)]
    exact take_copyAt_zero (headerBytes m) (List.replicate 12 0) (by simp [length_headerBytes])

theorem wellFormedName_wwwBaiduCom : WellFormedName wwwBaiduCom :=
  ⟨[[119, 119, 119], [98, 97, 105, 100, 117], [99, 111, 109]], by decide, by decide, rfl⟩

theorem wellFormedSections_scenarioResponseMsg (id : Nat) :
    WellFormedSections (scenarioResponseMsg id) := by
  refine ⟨?_, ?_, ?_, ?_⟩
  · intro q hq
    have : q = ⟨wwwBaiduCom, 1, 1⟩ := by simpa [scenarioResponseMsg] using hq
    subst this
    exact wellFormedName_wwwBaiduCom
  · intro r hr
    have : r = scenarioAnswer := by simpa [scenarioResponseMsg] using hr
    subst this
    exact ⟨wellFormedName_wwwBaiduCom, Or.inl rfl, rfl⟩
  · intro r hr; simp [scenarioResponseMsg] at hr
  · intro r hr; simp [scenarioResponseMsg] at hr

/-- C6 at the response of the query scenario with id 1: the 60 bytes are the
header, the question and the answer record. -/
theorem encodeMsg_layout_witness :
    encodeMsg (scenarioResponseMsg 1) = some (scenarioResponse 1, none) :=
  (encodeMsg_layout (scenarioResponseMsg 1) (wellFormedSections_scenarioResponseMsg 1)
    (by decide)).1

/-! ### Decoding what the message encoder wrote -/

theorem getD_append_length_succ (pre : List Nat) (a b : Nat) (rest : List Nat) :
    (pre ++ a :: b :: rest).getD (pre.length + 1) 0 = b := by
  have e : pre ++ a :: b :: rest = (pre ++ [a]) ++ b :: rest := by simp
  have l : pre.length + 1 = (pre ++ [a]).length := by simp
  rw [e, l, getD_append_length]

/-- Reading a 16-bit integer right after `pre`. -/
theorem decodeUint16_at (pre : List Nat) (a b : Nat) (rest : List Nat) :
    decodeUint16 (pre ++ a :: b :: rest) pre.length = (a * 256 + b, pre.length + 2, none) := by
  have h : ¬ (pre.length + 2 > (pre ++ a :: b :: rest).length) := by simp
  rw [decodeUint16, if_neg h, beUint16, getD_append_length, getD_append_length_succ]

theorem u16be_value (v : Nat) : v / 256 % 256 * 256 + v % 256 = v % 65536 := by omega

theorem decodeDnsHdr_headerBytes (m : dnsMsg) (rest : List Nat) :
    decodeDnsHdr (headerBytes m ++ rest) 0
      = (⟨m.id % 65536, encodeDnsHdr.flags m % 65536, m.qdCount % 65536, m.anCount % 65536,
          m.nsCount % 65536, m.arCount % 65536⟩, 12, none) := by
  have h0 := decodeUint16_at [] (m.id / 256 % 256) (m.id % 256)
    (u16be (encodeDnsHdr.flags m) ++ u16be m.qdCount ++ u16be m.anCount ++ u16be m.nsCount
      ++ u16be m.arCount ++ rest)
  have h1 := decodeUint16_at (u16be m.id) (encodeDnsHdr.flags m / 256 % 256)
    (encodeDnsHdr.flags m % 256)
    (u16be m.qdCount ++ u16be m.anCount ++ u16be m.nsCount ++ u16be m.arCount ++ rest)
  have h2 := decodeUint16_at (u16be m.id ++ u16be (encodeDnsHdr.flags m)) (m.qdCount / 256 % 256)
    (m.qdCount % 256) (u16be m.anCount ++ u16be m.nsCount ++ u16be m.arCount ++ rest)
  have h3 := decodeUint16_at (u16be m.id ++ u16be (encodeDnsHdr.flags m) ++ u16be m.qdCount)
    (m.anCount / 256 % 256) (m.anCount % 256) (u16be m.nsCount ++ u16be m.arCount ++ rest)
  have h4 := decodeUint16_at
    (u16be m.id ++ u16be (encodeDnsHdr.flags m) ++ u16be m.qdCount ++ u16be m.anCount)
    (m.nsCount / 256 % 256) (m.nsCount % 256) (u16be m.arCount ++ rest)
  have h5 := decodeUint16_at
    (u16be m.id ++ u16be (encodeDnsHdr.flags m) ++ u16be m.qdCount ++ u16be m.anCount
      ++ u16be m.nsCount)
    (m.arCount / 256 % 256) (m.arCount % 256) rest
  simp only [u16be, List.append_assoc, List.cons_append, List.nil_append, List.length_cons,
    List.length_nil, u16be_value] at h0 h1 h2 h3 h4 h5
  simp only [headerBytes, u16be, List.append_assoc, List.cons_append, List.nil_append]
  unfold decodeDnsHdr
  simp only [h0, h1, h2, h3, h4, h5]

/-- Parsing the flags word that `encodeDnsHdr` packs gives back the five
booleans and the response code; the opcode comes back as 0. -/
theorem parseDnsHdr_encoded (m dns : dnsMsg) (hdr : dnsHeader) (hop : m.opcode < 16)
    (hrc : m.rcode < 16) (hfl : hdr.flags = encodeDnsHdr.flags m % 65536) :
    parseDnsHdr dns hdr
      = { dns with id := hdr.id, qr := m.qr, opcode := 0, aa := m.aa, tc := m.tc, rd := m.rd,
                   ra := m.ra, rcode := m.rcode } := by
  obtain ⟨hlt, h15, h10, h9, h8, h7, hr, _⟩ := flagsLayout_bits m hop
  have hfl2 : hdr.flags = flagsLayout m := by
    rw [hfl, flags_eq_layout m hop, Nat.mod_eq_of_lt hlt]
  have ho := parseDnsHdr_opcode dns hdr
  have e15 : QR_MASK = 2 ^ 15 := rfl
  have e10 : AA_MASK = 2 ^ 10 := rfl
  have e9 : TC_MASK = 2 ^ 9 := rfl
  have e8 : RD_MASK = 2 ^ 8 := rfl
  have e7 : RA_MASK = 2 ^ 7 := rfl
  have er : (hdr.flags &&& RCODE_MASK) &&& 0xff = m.rcode := by
    have a1 : hdr.flags &&& RCODE_MASK = hdr.flags % 16 :=
      Nat.and_pow_two_sub_one_eq_mod hdr.flags 4
    have a2 : (hdr.flags % 16) &&& 0xff = hdr.flags % 16 % 256 :=
      Nat.and_pow_two_sub_one_eq_mod (hdr.flags % 16) 8
    rw [a1, a2, hfl2, hr, Nat.mod_eq_of_lt hrc]
  simp only [parseDnsHdr] at ho ⊢
  rw [ho, er, e15, e10, e9, e8, e7, land_two_pow_bne, land_two_pow_bne, land_two_pow_bne,
    land_two_pow_bne, land_two_pow_bne, hfl2, h15, h10, h9, h8, h7]

/-- Decoding a question that the encoder wrote after `pre`. -/
theorem decodeQuestion_at (q : dnsQuestion) (pre post : List Nat)
    (hname : WellFormedName q.qName) (ht : q.qType < 65536) (hc : q.qClass < 65536) :
    decodeQuestion (pre ++ (questionLayout q ++ post)) pre.length
      = some (q, pre.length + (questionLayout q).length, none) := by
  obtain ⟨name, t, c⟩ := q
  obtain ⟨segs, hne, hsegs, rfl⟩ := hname
  simp only at ht hc
  have hs : ∀ seg ∈ segs, seg ≠ [] ∧ 46 ∉ seg := fun x hx => ⟨(hsegs x hx).1, (hsegs x hx).2.2⟩
  have hs2 : ∀ seg ∈ segs, seg ≠ [] ∧ seg.length ≤ 63 :=
    fun x hx => ⟨(hsegs x hx).1, (hsegs x hx).2.1⟩
  have hB : pre ++ (questionLayout ⟨dottedName segs, t, c⟩ ++ post)
      = pre ++ (labelBytes segs ++ 0 :: (t / 256 % 256 :: t % 256 :: c / 256 % 256 :: c % 256
          :: post)) := by
    simp [questionLayout, nameLayout_dottedName segs hne hs, u16be]
  have hlen : (questionLayout ⟨dottedName segs, t, c⟩).length = (dottedName segs).length + 5 := by
    simp [questionLayout, nameLayout_dottedName segs hne hs, u16be, length_labelBytes]
  rw [hB, hlen]
  generalize hpost : t / 256 % 256 :: t % 256 :: c / 256 % 256 :: c % 256 :: post = tail
  have h1 := decodeDomainName_labels segs hne hs2 pre tail
  have hB2 : pre ++ (labelBytes segs ++ 0 :: tail)
      = (pre ++ labelBytes segs ++ [0]) ++ t / 256 % 256 :: t % 256
          :: (c / 256 % 256 :: c % 256 :: post) := by
    rw [← hpost]; simp
  have hB3 : pre ++ (labelBytes segs ++ 0 :: tail)
      = (pre ++ labelBytes segs ++ [0] ++ [t / 256 % 256, t % 256]) ++ c / 256 % 256 :: c % 256
          :: post := by
    rw [← hpost]; simp
  have h2 := decodeUint16_at (pre ++ labelBytes segs ++ [0]) (t / 256 % 256) (t % 256)
    (c / 256 % 256 :: c % 256 :: post)
  have h3 := decodeUint16_at (pre ++ labelBytes segs ++ [0] ++ [t / 256 % 256, t % 256])
    (c / 256 % 256) (c % 256) post
  rw [← hB2] at h2
  rw [← hB3] at h3
  have hl2 : (pre ++ labelBytes segs ++ [0]).length = pre.length + (dottedName segs).length + 1 := by
    simp [length_labelBytes]; omega
  have hl3 : (pre ++ labelBytes segs ++ [0] ++ [t / 256 % 256, t % 256]).length
      = pre.length + (dottedName segs).length + 1 + 2 := by
    simp [length_labelBytes]; omega
  have ht2 : t / 256 % 256 * 256 + t % 256 = t := by omega
  have hc2 : c / 256 % 256 * 256 + c % 256 = c := by omega
  rw [hl2, ht2] at h2
  rw [hl3, hc2] at h3
  have hBlen : (pre ++ (labelBytes segs ++ 0 :: tail)).length
      = pre.length + (dottedName segs).length + 5 + post.length := by
    rw [← hpost]; simp [length_labelBytes]; omega
  have n1 : ¬ (pre.length + (dottedName segs).length + 1
      = (pre ++ (labelBytes segs ++ 0 :: tail)).length) := by omega
  have n2 : ¬ (pre.length + (dottedName segs).length + 1 + 2
      = (pre ++ (labelBytes segs ++ 0 :: tail)).length) := by omega
  unfold decodeQuestion
  simp only [h1, h2, h3, if_neg n1, if_neg n2]
  simp [Nat.add_assoc]

theorem length_questionLayout_pos (q : dnsQuestion) : 4 ≤ (questionLayout q).length := by
  simp [questionLayout, u16be]

theorem length_le_length_questionsLayout (qs : List dnsQuestion) :
    qs.length ≤ (questionsLayout qs).length := by
  induction qs with
  | nil => simp
  | cons q qs ih =>
    have := length_questionLayout_pos q
    simp [questionsLayout]
    omega

/-- The question loop of `decodeBody` on `n` questions that the encoder wrote
after `pre`: they are appended to the questions of the message in order. -/
theorem decodeBodyLoop_questions (qs : List dnsQuestion) :
    (∀ q ∈ qs, WellFormedName q.qName ∧ q.qType < 65536 ∧ q.qClass < 65536) →
    ∀ (pre post : List Nat) (dns : dnsMsg) (i : Nat),
      decodeBodyLoop (pre ++ (questionsLayout qs ++ post)) qs.length i dns pre.length
        = some ({ dns with questions := dns.questions ++ qs,
                           qdCount := (dns.questions ++ qs).length % 65536 }, none) := by
  induction qs with
  | nil => intro _ pre post dns i; simp [decodeBodyLoop]
  | cons q qs ih =>
    intro hqs pre post dns i
    have hq := hqs q (by simp)
    have hB : pre ++ (questionsLayout (q :: qs) ++ post)
        = pre ++ (questionLayout q ++ (questionsLayout qs ++ post)) := by
      simp [questionsLayout]
    have hB2 : pre ++ (questionLayout q ++ (questionsLayout qs ++ post))
        = (pre ++ questionLayout q) ++ (questionsLayout qs ++ post) := by simp
    have hd := decodeQuestion_at q pre (questionsLayout qs ++ post) hq.1 hq.2.1 hq.2.2
    have hpos := length_questionLayout_pos q
    have hne : ¬ (pre.length = pre.length + (questionLayout q).length) := by omega
    have hlen : pre.length + (questionLayout q).length = (pre ++ questionLayout q).length := by
      simp
    rw [hB, List.length_cons, decodeBodyLoop]
    simp only [hd, if_neg hne]
    rw [hB2, hlen, ih (fun x hx => hqs x (by simp [hx]))]
    simp

/-- `decodeMsg` on a fresh message applied to the encoding of a well-typed
message with well-formed question names. -/
theorem decodeMsg_encoded (m : dnsMsg) (htyped : WellTyped m)
    (hq : ∀ q ∈ m.questions, WellFormedName q.qName) (hlen : m.questions.length < 65536) :
    decodeMsg dnsMsg.fresh (headerBytes m ++ bodyLayout m) = some (decodedView m, none) := by
  obtain ⟨hid, hop, hrc, hqd, hqt⟩ := htyped
  have hparse := parseDnsHdr_encoded m dnsMsg.fresh
    ⟨m.id % 65536, encodeDnsHdr.flags m % 65536, m.qdCount % 65536, m.anCount % 65536,
      m.nsCount % 65536, m.arCount % 65536⟩ hop hrc rfl
  rw [decodeMsg, decodeDnsHdr_headerBytes]
  simp only [hparse]
  rw [decodeBody]
  by_cases hempty : 12 = (headerBytes m ++ bodyLayout m).length
  · have hb : (bodyLayout m).length = 0 := by
      rw [List.length_append, length_headerBytes] at hempty; omega
    have hqs : m.questions = [] := by
      have h1 := length_le_length_questionsLayout m.questions
      have h2 : (questionsLayout m.questions).length = 0 := by
        simp only [bodyLayout, List.length_append] at hb; omega
      exact List.length_eq_zero.mp (by omega)
    rw [if_pos hempty]
    simp [decodedView, dnsMsg.fresh, hqs, Nat.mod_eq_of_lt hid]
  · rw [if_neg hempty]
    have hB : headerBytes m ++ bodyLayout m
        = headerBytes m ++ (questionsLayout m.questions ++ (recordsLayout m.answers
            ++ (recordsLayout m.authorities ++ recordsLayout m.additionals))) := by
      simp [bodyLayout]
    have hn : m.qdCount % 65536 = m.questions.length := by
      rw [hqd, Nat.mod_eq_of_lt hlen]
    have h12 : 12 = (headerBytes m).length := rfl
    simp only [hn]
    rw [hB, h12, decodeBodyLoop_questions m.questions
      (fun q hx => ⟨hq q hx, hqt q hx⟩)]
    simp [decodedView, dnsMsg.fresh, Nat.mod_eq_of_lt hid, Nat.mod_eq_of_lt hlen]

/-! ### The message round trip -/

/-- C1 as stated fails.  The response of the query scenario (id 1, one
question, one A record as answer) is valid and encodes to the 60-byte
response datagram; `decodeMsg` on a fresh message applied to these bytes
succeeds but yields a message without answers: `decodeBody` decodes the
questions only. -/
theorem message_roundtrip_drops_records :
    WellFormedSections (scenarioResponseMsg 1)
    ∧ 12 + (bodyLayout (scenarioResponseMsg 1)).length ≤ 1024
    ∧ encodeMsg (scenarioResponseMsg 1) = some (scenarioResponse 1, none)
    ∧ decodeMsg dnsMsg.fresh (scenarioResponse 1)
        = some (⟨1, true, 0, true, false, true, false, 0, 1, 0, 0, 0, [⟨wwwBaiduCom, 1, 1⟩],
            [], [], []⟩, none)
    ∧ (scenarioResponseMsg 1).answers = [scenarioAnswer]
    ∧ (scenarioResponseMsg 1).answers ≠ [] := by
  refine ⟨wellFormedSections_scenarioResponseMsg 1, by decide, ?_, by decide, rfl, by decide⟩
  rw [encodeMsg_ok (scenarioResponseMsg 1) (wellFormedSections_scenarioResponseMsg 1)
    (by decide)]
  rfl

/-- C1, amended.  For every message with fields in the range of their types
(16-bit id, question types and classes; 4-bit opcode and response code), a
stored question count equal to the number of questions, well-formed names,
records of type A, AAAA or TXT with rdLength equal to the length of rdData,
and an encoding that fits in 1024 bytes, `encodeMsg` succeeds and `decodeMsg`
on a fresh message applied to the returned bytes succeeds and yields a
message equal to the original in id, qr, aa, tc, rd, ra, rcode and questions,
with qdCount the number of questions; its answers, authorities and
additionals are empty and their counts are 0, since records are not decoded. -/
theorem message_roundtrip (m : dnsMsg) (htyped : WellTyped m) (hwf : WellFormedSections m)
    (hfits : 12 + (bodyLayout m).length ≤ 1024) :
    ∃ (bytes : List Nat) (m2 : dnsMsg),
      encodeMsg m = some (bytes, none)
      ∧ decodeMsg dnsMsg.fresh bytes = some (m2, none)
      ∧ m2.id = m.id ∧ m2.qr = m.qr ∧ m2.aa = m.aa ∧ m2.tc = m.tc ∧ m2.rd = m.rd
      ∧ m2.ra = m.ra ∧ m2.rcode = m.rcode
      ∧ m2.questions = m.questions ∧ m2.qdCount = m.questions.length
      ∧ m2.answers = [] ∧ m2.authorities = [] ∧ m2.additionals = []
      ∧ m2.anCount = 0 ∧ m2.nsCount = 0 ∧ m2.arCount = 0 := by
  have hlen : m.questions.length < 65536 := by
    have h1 := length_le_length_questionsLayout m.questions
    simp only [bodyLayout, List.length_append] at hfits
    omega
  exact ⟨headerBytes m ++ bodyLayout m, decodedView m, encodeMsg_ok m hwf hfits,
    decodeMsg_encoded m htyped hwf.1 hlen, rfl, rfl, rfl, rfl, rfl, rfl, rfl, rfl, rfl, rfl, rfl,
    rfl, rfl, rfl, rfl⟩

theorem wellTyped_scenarioResponseMsg (id : Nat) (hid : id < 65536) :
    WellTyped (scenarioResponseMsg id) := by
  refine ⟨hid, Nat.zero_lt_succ 15, Nat.zero_lt_succ 15, rfl, ?_⟩
  intro q hq
  have : q = ⟨wwwBaiduCom, 1, 1⟩ := by simpa [scenarioResponseMsg] using hq
  subst this
  decide

/-- C1, amended, at the response of the query scenario with id 1. -/
theorem message_roundtrip_witness :
    ∃ (bytes : List Nat) (m2 : dnsMsg),
      encodeMsg (scenarioResponseMsg 1) = some (bytes, none)
      ∧ decodeMsg dnsMsg.fresh bytes = some (m2, none)
      ∧ m2.id = 1 ∧ m2.qr = true ∧ m2.aa = true ∧ m2.tc = false ∧ m2.rd = true
      ∧ m2.ra = false ∧ m2.rcode = 0
      ∧ m2.questions = [⟨wwwBaiduCom, 1, 1⟩] ∧ m2.qdCount = 1
      ∧ m2.answers = [] ∧ m2.authorities = [] ∧ m2.additionals = []
      ∧ m2.anCount = 0 ∧ m2.nsCount = 0 ∧ m2.arCount = 0 :=
  message_roundtrip (scenarioResponseMsg 1) (wellTyped_scenarioResponseMsg 1 (by decide))
    (wellFormedSections_scenarioResponseMsg 1) (by decide)

/-! ### The query scenario -/

theorem wellFormedSections_scenarioQueryMsg (id : Nat) :
    WellFormedSections (scenarioQueryMsg id) := by
  refine ⟨?_, ?_, ?_, ?_⟩
  · intro q hq
    have : q = ⟨wwwBaiduCom, 1, 1⟩ := by simpa [scenarioQueryMsg] using hq
    subst this
    exact wellFormedName_wwwBaiduCom
  · intro r hr; simp [scenarioQueryMsg] at hr
  · intro r hr; simp [scenarioQueryMsg] at hr
  · intro r hr; simp [scenarioQueryMsg] at hr

theorem wellTyped_scenarioQueryMsg (id : Nat) (hid : id < 65536) :
    WellTyped (scenarioQueryMsg id) := by
  refine ⟨hid, Nat.zero_lt_succ 15, Nat.zero_lt_succ 15, rfl, ?_⟩
  intro q hq
  have : q = ⟨wwwBaiduCom, 1, 1⟩ := by simpa [scenarioQueryMsg] using hq
  subst this
  decide

/-- The query datagram is the encoding of the query message. -/
theorem scenarioQuery_eq (id : Nat) :
    headerBytes (scenarioQueryMsg id) ++ bodyLayout (scenarioQueryMsg id) = scenarioQuery id := by
  have hf : encodeDnsHdr.flags (scenarioQueryMsg id) = 0x0100 := by
    show encodeDnsHdr.flags (scenarioQueryMsg 0) = 0x0100
    decide
  have hb : bodyLayout (scenarioQueryMsg id) = scenarioQuestionBytes := by
    show bodyLayout (scenarioQueryMsg 0) = scenarioQuestionBytes
    decide
  rw [hb, headerBytes, hf]
  simp [u16be, scenarioQuery, scenarioQueryMsg]

/-- The response datagram is the encoding of the resolved message. -/
theorem scenarioResponse_eq (id : Nat) :
    headerBytes (scenarioResponseMsg id) ++ bodyLayout (scenarioResponseMsg id)
      = scenarioResponse id := by
  have hf : encodeDnsHdr.flags (scenarioResponseMsg id) = 0x8500 := by
    show encodeDnsHdr.flags (scenarioResponseMsg 0) = 0x8500
    decide
  have hb : bodyLayout (scenarioResponseMsg id) = scenarioQuestionBytes ++ scenarioAnswerBytes := by
    show bodyLayout (scenarioResponseMsg 0) = scenarioQuestionBytes ++ scenarioAnswerBytes
    decide
  rw [hb, headerBytes, hf]
  simp [u16be, scenarioResponse, scenarioResponseMsg]

/-- C4 (end-to-end query scenario).  For every 16-bit id, the 31-byte query
datagram for "www.baidu.com." type A class 1 decodes on a fresh message to
qr=false, rd=true, qdCount=1 with that single question; `resolveMsg` then
succeeds and sets qr=true, aa=true, rcode=0 and the single answer record
(TTL 3600, rdLength 4, rdData 10.10.0.1); and `encodeMsg` then returns exactly
the 60-byte response: header with flags 0x8500 and counts 1,1,0,0, the
original 19 question bytes, and the record bytes. -/
theorem query_scenario (id : Nat) (hid : id < 65536) :
    (scenarioQuery id).length = 31
    ∧ decodeMsg dnsMsg.fresh (scenarioQuery id) = some (scenarioQueryMsg id, none)
    ∧ resolveMsg (scenarioQueryMsg id) = (scenarioResponseMsg id, none)
    ∧ encodeMsg (scenarioResponseMsg id) = some (scenarioResponse id, none)
    ∧ (scenarioResponse id).length = 60 := by
  refine ⟨rfl, ?_, rfl, ?_, rfl⟩
  · rw [← scenarioQuery_eq id, decodeMsg_encoded (scenarioQueryMsg id)
      (wellTyped_scenarioQueryMsg id hid) (wellFormedSections_scenarioQueryMsg id).1
      (by simp [scenarioQueryMsg])]
    rfl
  · have hfits : 12 + (bodyLayout (scenarioResponseMsg id)).length ≤ 1024 := by
      show 12 + (bodyLayout (scenarioResponseMsg 0)).length ≤ 1024
      decide
    rw [encodeMsg_ok (scenarioResponseMsg id) (wellFormedSections_scenarioResponseMsg id) hfits,
      scenarioResponse_eq]

/-- C4 at id 1: the query `00 01 01 00 00 01 00 00 00 00 00 00` followed by
the question, as in the specification. -/
theorem query_scenario_witness :
    decodeMsg dnsMsg.fresh (scenarioQuery 1) = some (scenarioQueryMsg 1, none)
    ∧ resolveMsg (scenarioQueryMsg 1) = (scenarioResponseMsg 1, none)
    ∧ encodeMsg (scenarioResponseMsg 1) = some (scenarioResponse 1, none) :=
  ⟨(query_scenario 1 (by decide)).2.1, (query_scenario 1 (by decide)).2.2.1,
    (query_scenario 1 (by decide)).2.2.2.1⟩

/-! ### Records of an unsupported type -/

/-- With room for every character of the name plus one byte, the loop of
`encodeDomainName` on a name without two consecutive dots neither panics nor
fails, and it advances by at most that many bytes. -/
theorem encodeDomainNameLoop_noTwoDots (s : List Nat) :
    ∀ (rest : List Nat) (i : Nat) (isDot : Bool) (ptr : Nat) (buff : List Nat) (off : Nat),
      ptr ≤ i → hasTwoDots rest = false → (isDot = true → rest.head? ≠ some 46) →
      off + (i - ptr) + rest.length + 1 ≤ buff.length →
      ∃ b o, encodeDomainNameLoop s rest i isDot ptr buff off = some ⟨b, o, none⟩
        ∧ b.length = buff.length ∧ o ≤ off + (i - ptr) + rest.length + 1 := by
  intro rest
  induction rest with
  | nil =>
    intro i isDot ptr buff off _ _ _ hroom
    refine ⟨_, _, rfl, ?_, by omega⟩
    split <;> simp
  | cons c rest ih =>
    intro i isDot ptr buff off hptr htwo hdot hroom
    have hl : (c :: rest).length = rest.length + 1 := rfl
    rw [hl] at hroom ⊢
    simp only [hasTwoDots, Bool.or_eq_false_iff, Bool.and_eq_false_iff] at htwo
    by_cases hc : c = 46
    · subst hc
      have hisDot : isDot = false := by
        cases isDot with
        | false => rfl
        | true => exact absurd rfl (hdot rfl)
      have hhead : rest.head? ≠ some 46 := by
        rcases htwo.1 with h | h
        · simp at h
        · simpa using h
      have hlt : off < buff.length := by omega
      obtain ⟨b, o, h1, h2, h3⟩ := ih (i + 1) true (i + 1)
        (copyAt (buff.set off ((i - ptr) % 256)) (off + 1) ((s.drop ptr).take (i - ptr)))
        (off + ((i - ptr) + 1)) (Nat.le_refl _) htwo.2 (fun _ => hhead)
        (by simp; omega)
      refine ⟨b, o, ?_, ?_, by omega⟩
      · rw [encodeDomainNameLoop]
        simp only [if_true, hisDot, Bool.false_eq_true, if_false, hlt]
        exact h1
      · simpa using h2
    · obtain ⟨b, o, h1, h2, h3⟩ := ih (i + 1) false ptr buff off (by omega) htwo.2
        (fun h => by simp at h) (by omega)
      refine ⟨b, o, ?_, h2, by omega⟩
      rw [encodeDomainNameLoop, if_neg hc]
      exact h1

theorem encodeDomainName_noTwoDots (name buff : List Nat) (off : Nat)
    (htwo : hasTwoDots name = false) (hroom : off + name.length + 1 ≤ buff.length) :
    ∃ b o, encodeDomainName name buff off = some ⟨b, o, none⟩
      ∧ b.length = buff.length ∧ o ≤ off + name.length + 1 := by
  rw [encodeDomainName]
  by_cases h : name.length = 0
  · rw [if_pos h]
    exact ⟨buff, off, rfl, rfl, by omega⟩
  · rw [if_neg h]
    obtain ⟨b, o, h1, h2, h3⟩ := encodeDomainNameLoop_noTwoDots name name 0 false 0 buff off
      (Nat.le_refl _) htwo (fun h => by simp at h) (by omega)
    exact ⟨b, o, h1, h2, by omega⟩

/-- `encodeRecord` never returns a nil error for a record of an unsupported
type. -/
theorem encodeRecord_unsupported_err (r : dnsRecord) (hr : ¬ SupportedType r.rdType)
    (buff : List Nat) (off : Nat) (res : EncRes) (h : encodeRecord r buff off = some res) :
    res.err ≠ none := by
  have hr2 : ¬ (r.rdType = RESOURCE_RECORD_A ∨ r.rdType = RESOURCE_RECORD_AAAA
      ∨ r.rdType = RESOURCE_RECORD_TXT) := hr
  unfold encodeRecord at h
  split at h
  · exact absurd h (by simp)
  · rename_i e _
    simp only [if_neg hr2] at h
    split at h
    · rename_i h1
      have := Option.some.inj h
      subst this
      intro h0; rw [h0] at h1; simp at h1
    · split at h
      · rename_i h1
        have := Option.some.inj h
        subst this
        intro h0; rw [h0] at h1; simp at h1
      · split at h
        · rename_i h1
          have := Option.some.inj h
          subst this
          intro h0; rw [h0] at h1; simp at h1
        · split at h
          · rename_i h1
            have := Option.some.inj h
            subst this
            intro h0; rw [h0] at h1; simp at h1
          · split at h
            · rename_i h1
              have := Option.some.inj h
              subst this
              intro h0; rw [h0] at h1; simp at h1
            · have := Option.some.inj h
              subst this
              simp

/-- With room for the name and the ten bytes of the fixed fields, and a name
without two consecutive dots, `encodeRecord` returns the unsupported-type
error for a record of an unsupported type. -/
theorem encodeRecord_unsupported_error (r : dnsRecord) (hr : ¬ SupportedType r.rdType)
    (buff : List Nat) (off : Nat) (htwo : hasTwoDots r.rdName = false)
    (hroom : off + r.rdName.length + 1 + 10 ≤ buff.length) :
    ∃ b o, encodeRecord r buff off = some ⟨b, o, some .unsupportRecordType⟩ := by
  have hr2 : ¬ (r.rdType = RESOURCE_RECORD_A ∨ r.rdType = RESOURCE_RECORD_AAAA
      ∨ r.rdType = RESOURCE_RECORD_TXT) := hr
  obtain ⟨b, o, h1, h2, h3⟩ := encodeDomainName_noTwoDots r.rdName buff off htwo (by omega)
  rw [encodeRecord, h1]
  simp only [Option.isSome_none, Bool.false_eq_true, if_false]
  rw [encodeUint16_ok _ _ _ (by omega)]
  simp only [Option.isSome_none, Bool.false_eq_true, if_false]
  rw [encodeUint16_ok _ _ _ (by simp; omega)]
  simp only [Option.isSome_none, Bool.false_eq_true, if_false]
  rw [encodeUint32_ok _ _ _ (by simp; omega)]
  simp only [Option.isSome_none, Bool.false_eq_true, if_false]
  rw [encodeUint16_ok _ _ _ (by simp; omega)]
  simp only [Option.isSome_none, Bool.false_eq_true, if_false, if_neg hr2]
  exact ⟨_, _, rfl⟩

/-- A record loop of `encodeMsg` that ends with a nil error has met supported
record types only. -/
theorem encodeRecords_supported (rs : List dnsRecord) :
    ∀ (buff : List Nat) (off : Nat) (res : EncRes),
      encodeRecords rs buff off = some res → res.err = none →
      ∀ r ∈ rs, SupportedType r.rdType := by
  induction rs with
  | nil => intro _ _ _ _ _ r hr; simp at hr
  | cons r0 rs ih =>
    intro buff off res h herr r hr
    rw [encodeRecords] at h
    split at h
    · exact absurd h (by simp)
    · rename_i e he
      split at h
      · rename_i h1
        have := Option.some.inj h
        subst this
        rw [herr] at h1; simp at h1
      · rename_i h1
        have he0 : e.err = none := by
          cases hx : e.err with
          | none => rfl
          | some x => rw [hx] at h1; simp at h1
        rcases List.mem_cons.mp hr with rfl | hr
        · by_contra hns
          exact encodeRecord_unsupported_err r hns buff off e he he0
        · exact ih _ _ _ h herr r hr

/-- `encodeMsg` never returns bytes for a message that holds a record of an
unsupported type: whenever it returns, it returns no bytes and an error. -/
theorem encodeMsg_unsupported_no_bytes (m : dnsMsg) (r : dnsRecord)
    (hmem : r ∈ m.answers ∨ r ∈ m.authorities ∨ r ∈ m.additionals)
    (hr : ¬ SupportedType r.rdType) (res : List Nat × Option DnsError)
    (h : encodeMsg m = some res) : res.1 = [] ∧ res.2 ≠ none := by
  have key : ∀ (e : EncRes), e.err.isSome = true → (([] : List Nat), e.err).2 ≠ none := by
    intro e he h0
    simp only at h0
    rw [h0] at he
    simp at he
  have none_of : ∀ (e : EncRes), ¬ (e.err.isSome = true) → e.err = none := by
    intro e he
    cases hx : e.err with
    | none => rfl
    | some x => rw [hx] at he; simp at he
  unfold encodeMsg at h
  simp only [] at h
  split at h
  · rename_i h1
    have := Option.some.inj h; subst this
    exact ⟨rfl, key _ h1⟩
  · split at h
    · exact absurd h (by simp)
    · rename_i rq _
      split at h
      · rename_i h1
        have := Option.some.inj h; subst this
        exact ⟨rfl, key _ h1⟩
      · split at h
        · exact absurd h (by simp)
        · rename_i ran han
          split at h
          · rename_i h1
            have := Option.some.inj h; subst this
            exact ⟨rfl, key _ h1⟩
          · rename_i hn1
            split at h
            · exact absurd h (by simp)
            · rename_i rns hns
              split at h
              · rename_i h1
                have := Option.some.inj h; subst this
                exact ⟨rfl, key _ h1⟩
              · rename_i hn2
                split at h
                · exact absurd h (by simp)
                · rename_i rar har
                  split at h
                  · rename_i h1
                    have := Option.some.inj h; subst this
                    exact ⟨rfl, key _ h1⟩
                  · rename_i hn3
                    exfalso
                    rcases hmem with hm | hm | hm
                    · exact hr (encodeRecords_supported _ _ _ _ han (none_of _ hn1) r hm)
                    · exact hr (encodeRecords_supported _ _ _ _ hns (none_of _ hn2) r hm)
                    · exact hr (encodeRecords_supported _ _ _ _ har (none_of _ hn3) r hm)

/-- `encodeRecord` on a record of an unsupported type with a well-formed name
and room for the name and the fixed fields. -/
theorem encodeRecord_unsupported_wf (r : dnsRecord) (hr : ¬ SupportedType r.rdType)
    (hname : WellFormedName r.rdName) (buff : List Nat) (off : Nat)
    (hroom : off + (nameLayout r.rdName).length + 10 ≤ buff.length) :
    ∃ b o, encodeRecord r buff off = some ⟨b, o, some .unsupportRecordType⟩ := by
  have hr2 : ¬ (r.rdType = RESOURCE_RECORD_A ∨ r.rdType = RESOURCE_RECORD_AAAA
      ∨ r.rdType = RESOURCE_RECORD_TXT) := hr
  rw [encodeRecord, encodeDomainName_ok _ _ _ hname (by omega)]
  simp only [Option.isSome_none, Bool.false_eq_true, if_false]
  rw [encodeUint16_ok _ _ _ (by simp; omega)]
  simp only [Option.isSome_none, Bool.false_eq_true, if_false]
  rw [encodeUint16_ok _ _ _ (by simp; omega)]
  simp only [Option.isSome_none, Bool.false_eq_true, if_false]
  rw [encodeUint32_ok _ _ _ (by simp; omega)]
  simp only [Option.isSome_none, Bool.false_eq_true, if_false]
  rw [encodeUint16_ok _ _ _ (by simp; omega)]
  simp only [Option.isSome_none, Bool.false_eq_true, if_false, if_neg hr2]
  exact ⟨_, _, rfl⟩

theorem length_recordLayout (r : dnsRecord) :
    (recordLayout r).length = (nameLayout r.rdName).length + 10 + r.rdData.length := by
  simp [recordLayout, u16be, u32be]
  omega

/-- A record loop over records with well-formed names and matching lengths,
one of them of an unsupported type, with room for all of them: the loop stops
with the unsupported-type error. -/
theorem encodeRecords_unsupported (rs : List dnsRecord) :
    (∀ r ∈ rs, WellFormedName r.rdName ∧ r.rdLength = r.rdData.length) →
    (∃ r ∈ rs, ¬ SupportedType r.rdType) →
    ∀ (buff : List Nat) (off : Nat), off + (recordsLayout rs).length ≤ buff.length →
      ∃ b o, encodeRecords rs buff off = some ⟨b, o, some .unsupportRecordType⟩ := by
  induction rs with
  | nil => intro _ h; obtain ⟨r, hr, _⟩ := h; simp at hr
  | cons r0 rs ih =>
    intro hwf hbad buff off hroom
    have h0 := hwf r0 (by simp)
    simp only [recordsLayout, List.length_append] at hroom
    have hl := length_recordLayout r0
    by_cases hs : SupportedType r0.rdType
    · have hbad2 : ∃ r ∈ rs, ¬ SupportedType r.rdType := by
        obtain ⟨r, hr, hns⟩ := hbad
        rcases List.mem_cons.mp hr with rfl | hr
        · exact absurd hs hns
        · exact ⟨r, hr, hns⟩
      obtain ⟨b, o, h⟩ := ih (fun x hx => hwf x (by simp [hx])) hbad2
        (copyAt buff off (recordLayout r0)) (off + (recordLayout r0).length)
        (by simp; omega)
      refine ⟨b, o, ?_⟩
      rw [encodeRecords, encodeRecord_ok r0 buff off ⟨h0.1, hs, h0.2⟩ (by omega)]
      simp only [Option.isSome_none, Bool.false_eq_true, if_false]
      exact h
    · obtain ⟨b, o, h⟩ := encodeRecord_unsupported_wf r0 hs h0.1 buff off (by omega)
      refine ⟨b, o, ?_⟩
      rw [encodeRecords, h]
      simp

/-- `encodeMsg` on a message with well-formed entries that fits the scratch
buffer and holds a record of an unsupported type returns the unsupported-type
error and no bytes. -/
theorem encodeMsg_unsupported_error (m : dnsMsg) (r : dnsRecord)
    (hmem : r ∈ m.answers ∨ r ∈ m.authorities ∨ r ∈ m.additionals)
    (hr : ¬ SupportedType r.rdType) (hwf : WellFormedEntries m)
    (hfits : 12 + (bodyLayout m).length ≤ 1024) :
    encodeMsg m = some ([], some .unsupportRecordType) := by
  obtain ⟨hq, han, hns, har⟩ := hwf
  simp only [bodyLayout, List.length_append] at hfits
  have hbuf : (List.replicate 1024 0).length = 1024 := List.length_replicate _ _
  unfold encodeMsg
  simp only []
  generalize List.replicate 1024 0 = buf at hbuf ⊢
  rw [encodeDnsHdr_ok m _ 0 (by rw [hbuf]; omega)]
  simp only [Option.isSome_none, Bool.false_eq_true, if_false]
  rw [encodeQuestions_ok _ hq _ _ (by rw [length_copyAt, hbuf]; omega)]
  simp only [Option.isSome_none, Bool.false_eq_true, if_false]
  by_cases h1 : ∀ x ∈ m.answers, SupportedType x.rdType
  · rw [encodeRecords_ok _ (fun x hx => ⟨(han x hx).1, h1 x hx, (han x hx).2⟩) _ _
      (by rw [length_copyAt, length_copyAt, hbuf]; omega)]
    simp only [Option.isSome_none, Bool.false_eq_true, if_false]
    by_cases h2 : ∀ x ∈ m.authorities, SupportedType x.rdType
    · rw [encodeRecords_ok _ (fun x hx => ⟨(hns x hx).1, h2 x hx, (hns x hx).2⟩) _ _
        (by rw [length_copyAt, length_copyAt, length_copyAt, hbuf]; omega)]
      simp only [Option.isSome_none, Bool.false_eq_true, if_false]
      have hbad : ∃ x ∈ m.additionals, ¬ SupportedType x.rdType := by
        rcases hmem with hm | hm | hm
        · exact absurd (h1 r hm) hr
        · exact absurd (h2 r hm) hr
        · exact ⟨r, hm, hr⟩
      obtain ⟨b, o, h⟩ := encodeRecords_unsupported _ har hbad
        (copyAt (copyAt (copyAt (copyAt buf 0 (u16be m.id ++ u16be (encodeDnsHdr.flags m)
          ++ u16be m.qdCount ++ u16be m.anCount ++ u16be m.nsCount ++ u16be m.arCount))
          (0 + 12) (questionsLayout m.questions))
          (0 + 12 + (questionsLayout m.questions).length) (recordsLayout m.answers))
          (0 + 12 + (questionsLayout m.questions).length + (recordsLayout m.answers).length)
          (recordsLayout m.authorities))
        (0 + 12 + (questionsLayout m.questions).length + (recordsLayout m.answers).length
          + (recordsLayout m.authorities).length)
        (by rw [length_copyAt, length_copyAt, length_copyAt, length_copyAt, hbuf]; omega)
      rw [h]
      simp
    · have hbad : ∃ x ∈ m.authorities, ¬ SupportedType x.rdType := by
        by_contra hc
        exact h2 (fun x hx => by_contra (fun hn => hc ⟨x, hx, hn⟩))
      obtain ⟨b, o, h⟩ := encodeRecords_unsupported _ hns hbad
        (copyAt (copyAt (copyAt buf 0 (u16be m.id ++ u16be (encodeDnsHdr.flags m)
          ++ u16be m.qdCount ++ u16be m.anCount ++ u16be m.nsCount ++ u16be m.arCount))
          (0 + 12) (questionsLayout m.questions))
          (0 + 12 + (questionsLayout m.questions).length) (recordsLayout m.answers))
        (0 + 12 + (questionsLayout m.questions).length + (recordsLayout m.answers).length)
        (by rw [length_copyAt, length_copyAt, length_copyAt, hbuf]; omega)
      rw [h]
      simp
  · have hbad : ∃ x ∈ m.answers, ¬ SupportedType x.rdType := by
      by_contra hc
      exact h1 (fun x hx => by_contra (fun hn => hc ⟨x, hx, hn⟩))
    obtain ⟨b, o, h⟩ := encodeRecords_unsupported _ han hbad
      (copyAt (copyAt buf 0 (u16be m.id ++ u16be (encodeDnsHdr.flags m)
        ++ u16be m.qdCount ++ u16be m.anCount ++ u16be m.nsCount ++ u16be m.arCount))
        (0 + 12) (questionsLayout m.questions))
      (0 + 12 + (questionsLayout m.questions).length)
      (by rw [length_copyAt, length_copyAt, hbuf]; omega)
    rw [h]
    simp

set_option maxRecDepth 1000000 in
/-- C8 as stated fails.  The SOA record named ".." has an unsupported type and
a 32-byte buffer has room for its name and fixed fields, yet `encodeRecord`
returns the invalid-domain-name error, not the unsupported-type error.  And
for the message whose answers are a TXT record with declared length 1 and no
data followed by an SOA record, `encodeMsg` returns neither bytes nor an
error: reading `rdData[0]` of the TXT record is out of range. -/
theorem unsupported_record_other_outcomes :
    (¬ SupportedType 6
      ∧ 0 + ([46, 46] : List Nat).length + 1 + 10 ≤ (List.replicate 32 0).length
      ∧ encodeRecord ⟨[46, 46], 6, 1, 0, 0, []⟩ (List.replicate 32 0) 0
          = some ⟨List.replicate 32 0, 32, some .invalidDomainName⟩)
    ∧ encodeMsg ⟨1, true, 0, true, false, false, false, 0, 0, 2, 0, 0, [],
          [⟨wwwBaiduCom, 16, 1, 0, 1, []⟩, ⟨wwwBaiduCom, 6, 1, 0, 0, []⟩], [], []⟩
        = none := by
  decide

/-- C8, amended.  For every record whose type is not A, AAAA or TXT, whatever
its name, rdLength and rdData: `encodeRecord` never returns success; with a
buffer that has room for the name and the fixed fields and a name without two
consecutive dots it returns the unsupported-type error; and for every message
that holds the record in answers, authorities or additionals, `encodeMsg`
never returns bytes (whenever it returns, it returns no bytes and an error),
and it returns the unsupported-type error when every name of the message is
well-formed, every declared length is the length of the data and the message
fits in 1024 bytes. -/
theorem unsupported_record_type (r : dnsRecord) (hr : ¬ SupportedType r.rdType) :
    (∀ (buff : List Nat) (off : Nat) (res : EncRes),
        encodeRecord r buff off = some res → res.err ≠ none)
    ∧ (∀ (buff : List Nat) (off : Nat), hasTwoDots r.rdName = false →
        off + r.rdName.length + 1 + 10 ≤ buff.length →
        ∃ b o, encodeRecord r buff off = some ⟨b, o, some .unsupportRecordType⟩)
    ∧ (∀ m : dnsMsg, r ∈ m.answers ∨ r ∈ m.authorities ∨ r ∈ m.additionals →
        (∀ res, encodeMsg m = some res → res.1 = [] ∧ res.2 ≠ none)
        ∧ (WellFormedEntries m → 12 + (bodyLayout m).length ≤ 1024 →
            encodeMsg m = some ([], some .unsupportRecordType))) :=
  ⟨fun buff off res h => encodeRecord_unsupported_err r hr buff off res h,
   fun buff off htwo hroom => encodeRecord_unsupported_error r hr buff off htwo hroom,
   fun m hmem => ⟨fun res h => encodeMsg_unsupported_no_bytes m r hmem hr res h,
     fun hwf hfits => encodeMsg_unsupported_error m r hmem hr hwf hfits⟩⟩

/-- C8, amended, at the SOA record for "www.baidu.com." in a 32-byte buffer
and as the only answer of a response. -/
theorem unsupported_record_type_witness :
    (∃ b o, encodeRecord ⟨wwwBaiduCom, 6, 1, 3600, 0, []⟩ (List.replicate 32 0) 0
        = some ⟨b, o, some .unsupportRecordType⟩)
    ∧ encodeMsg ⟨1, true, 0, true, false, false, false, 0, 0, 1, 0, 0, [],
          [⟨wwwBaiduCom, 6, 1, 3600, 0, []⟩], [], []⟩
        = some ([], some .unsupportRecordType) :=
  ⟨(unsupported_record_type ⟨wwwBaiduCom, 6, 1, 3600, 0, []⟩ (by decide)).2.1
      (List.replicate 32 0) 0 (by decide) (by decide),
   ((unsupported_record_type ⟨wwwBaiduCom, 6, 1, 3600, 0, []⟩ (by decide)).2.2
      ⟨1, true, 0, true, false, false, false, 0, 0, 1, 0, 0, [],
        [⟨wwwBaiduCom, 6, 1, 3600, 0, []⟩], [], []⟩ (Or.inl (by simp))).2
      ⟨by simp, by
        intro x hx
        have : x = ⟨wwwBaiduCom, 6, 1, 3600, 0, []⟩ := by simpa using hx
        subst this
        exact ⟨wellFormedName_wwwBaiduCom, rfl⟩, by simp, by simp⟩
      (by decide)⟩

/-! ### The resolution stub -/

/-- The loop of `resolveMsg` on questions of unsupported types only: no
answer is produced and the response code becomes "not implemented". -/
theorem resolveMsgLoop_unsupported (qs : List dnsQuestion) :
    (∀ q ∈ qs, ¬ SupportedType q.qType) →
    ∀ (record : dnsRecord) (dns : dnsMsg),
      resolveMsgLoop qs record dns
        = (if qs = [] then dns else { dns with rcode := RESP_NOT_IMPLEMENTED }, none) := by
  induction qs with
  | nil => intro _ record dns; rfl
  | cons q qs ih =>
    intro hall record dns
    have hq : ¬ (q.qType = RESOURCE_RECORD_A ∨ q.qType = RESOURCE_RECORD_AAAA
        ∨ q.qType = RESOURCE_RECORD_TXT) := hall q (by simp)
    have h1 : ¬ (q.qType = RESOURCE_RECORD_A) := fun h => hq (Or.inl h)
    have h2 : ¬ (q.qType = RESOURCE_RECORD_AAAA) := fun h => hq (Or.inr (Or.inl h))
    have h3 : ¬ (q.qType = RESOURCE_RECORD_TXT) := fun h => hq (Or.inr (Or.inr h))
    rw [resolveMsgLoop]
    simp only [if_neg h1, if_neg h2, if_neg h3]
    rw [ih (fun x hx => hall x (by simp [hx]))]
    by_cases hqs : qs = []
    · simp [hqs]
    · simp [hqs]

/-- C16 (unsupported query types).  For every message with at least one
question in which every question has a type other than A, AAAA and TXT,
whatever the question names, `resolveMsg` returns no error; the resulting
message has no answers, anCount 0, rcode NOT_IMPLEMENTED (4), qr true, aa
true and ra false, and is otherwise the original message with nsCount and
arCount reset to 0. -/
theorem resolveMsg_unsupported_types (m : dnsMsg) (hne : m.questions ≠ [])
    (hall : ∀ q ∈ m.questions, ¬ SupportedType q.qType) :
    resolveMsg m
      = ({ m with qr := true, aa := true, ra := false, rcode := RESP_NOT_IMPLEMENTED,
                  anCount := 0, nsCount := 0, arCount := 0, answers := [] }, none)
    ∧ RESP_NOT_IMPLEMENTED = 4 := by
  refine ⟨?_, rfl⟩
  rw [resolveMsg]
  simp only []
  rw [resolveMsgLoop_unsupported _ hall, if_neg hne]

/-- C16 at a single SOA (type 6) question for "unknown.example.". -/
theorem resolveMsg_unsupported_types_witness :
    resolveMsg ⟨7, false, 0, false, false, true, false, 0, 1, 0, 0, 0,
        [⟨[117, 110, 107, 110, 111, 119, 110, 46, 101, 120, 97, 109, 112, 108, 101, 46], 6, 1⟩],
        [], [], []⟩
      = (⟨7, true, 0, true, false, true, false, 4, 1, 0, 0, 0,
          [⟨[117, 110, 107, 110, 111, 119, 110, 46, 101, 120, 97, 109, 112, 108, 101, 46], 6, 1⟩],
          [], [], []⟩, none) :=
  (resolveMsg_unsupported_types _ (by simp) (by
    intro q hq
    have : q = ⟨[117, 110, 107, 110, 111, 119, 110, 46, 101, 120, 97, 109, 112, 108, 101, 46],
        6, 1⟩ := by simpa using hq
    subst this
    decide)).1

/-- One iteration of the loop of `resolveMsg` on a question of a supported
type named "www.baidu.com.": an answer is appended and the loop goes on. -/
theorem resolveMsgLoop_cons_known (q : dnsQuestion) (qs : List dnsQuestion)
    (record : dnsRecord) (dns : dnsMsg) (hs : SupportedType q.qType)
    (hn : q.qName = wwwBaiduCom) :
    ∃ r : dnsRecord, r.rdName = q.qName ∧ r.rdType = q.qType ∧ r.rdClass = q.qClass
      ∧ r.rdTTL = 3600
      ∧ resolveMsgLoop (q :: qs) record dns
          = resolveMsgLoop qs r
              { dns with answers := dns.answers ++ [r], anCount := (dns.anCount + 1) % 65536 } := by
  rw [resolveMsgLoop]
  simp only []
  by_cases h1 : q.qType = RESOURCE_RECORD_A
  · simp only [if_pos h1, queryARecord, if_pos hn]
    exact ⟨_, rfl, rfl, rfl, rfl, rfl⟩
  · by_cases h2 : q.qType = RESOURCE_RECORD_AAAA
    · simp only [if_neg h1, if_pos h2, queryAAAARecord, if_pos hn]
      exact ⟨_, rfl, rfl, rfl, rfl, rfl⟩
    · have h3 : q.qType = RESOURCE_RECORD_TXT := by
        rcases hs with h | h | h
        · exact absurd h h1
        · exact absurd h h2
        · exact h
      simp only [if_neg h1, if_neg h2, if_pos h3, queryTXTRecord, if_pos hn]
      exact ⟨_, rfl, rfl, rfl, rfl, rfl⟩

/-- One iteration on a question of a supported type with another name: the
loop stops with the unknown-domain error. -/
theorem resolveMsgLoop_cons_unknown (q : dnsQuestion) (qs : List dnsQuestion)
    (record : dnsRecord) (dns : dnsMsg) (hs : SupportedType q.qType)
    (hn : q.qName ≠ wwwBaiduCom) :
    resolveMsgLoop (q :: qs) record dns = (dns, some (.unknownDomain q.qName)) := by
  rw [resolveMsgLoop]
  simp only []
  by_cases h1 : q.qType = RESOURCE_RECORD_A
  · simp only [if_pos h1, queryARecord, if_neg hn]
  · by_cases h2 : q.qType = RESOURCE_RECORD_AAAA
    · simp only [if_neg h1, if_pos h2, queryAAAARecord, if_neg hn]
    · have h3 : q.qType = RESOURCE_RECORD_TXT := by
        rcases hs with h | h | h
        · exact absurd h h1
        · exact absurd h h2
        · exact h
      simp only [if_neg h1, if_neg h2, if_pos h3, queryTXTRecord, if_neg hn]

/-- One iteration on a question of an unsupported type: no answer, response
code "not implemented", and the loop goes on. -/
theorem resolveMsgLoop_cons_unsupported (q : dnsQuestion) (qs : List dnsQuestion)
    (record : dnsRecord) (dns : dnsMsg) (hs : ¬ SupportedType q.qType) :
    resolveMsgLoop (q :: qs) record dns
      = resolveMsgLoop qs
          { record with rdName := q.qName, rdType := q.qType, rdClass := q.qClass,
                        rdTTL := 60 * 60 }
          { dns with rcode := RESP_NOT_IMPLEMENTED } := by
  have hq : ¬ (q.qType = RESOURCE_RECORD_A ∨ q.qType = RESOURCE_RECORD_AAAA
      ∨ q.qType = RESOURCE_RECORD_TXT) := hs
  have h1 : ¬ (q.qType = RESOURCE_RECORD_A) := fun h => hq (Or.inl h)
  have h2 : ¬ (q.qType = RESOURCE_RECORD_AAAA) := fun h => hq (Or.inr (Or.inl h))
  have h3 : ¬ (q.qType = RESOURCE_RECORD_TXT) := fun h => hq (Or.inr (Or.inr h))
  rw [resolveMsgLoop]
  simp only [if_neg h1, if_neg h2, if_neg h3]

theorem resolveMsgLoop_unknown (qs : List dnsQuestion) :
    (∃ q ∈ qs, SupportedType q.qType ∧ q.qName ≠ wwwBaiduCom) →
    ∀ (record : dnsRecord) (dns : dnsMsg),
      ∃ m2 d, d ≠ wwwBaiduCom ∧ resolveMsgLoop qs record dns = (m2, some (.unknownDomain d)) := by
  induction qs with
  | nil => intro h; obtain ⟨q, hq, _⟩ := h; simp at hq
  | cons q qs ih =>
    intro hbad record dns
    by_cases hs : SupportedType q.qType
    · by_cases hn : q.qName = wwwBaiduCom
      · have hbad2 : ∃ x ∈ qs, SupportedType x.qType ∧ x.qName ≠ wwwBaiduCom := by
          obtain ⟨x, hx, h1, h2⟩ := hbad
          rcases List.mem_cons.mp hx with rfl | hx
          · exact absurd hn h2
          · exact ⟨x, hx, h1, h2⟩
        obtain ⟨r, _, _, _, _, hstep⟩ := resolveMsgLoop_cons_known q qs record dns hs hn
        rw [hstep]
        exact ih hbad2 _ _
      · exact ⟨dns, q.qName, hn, resolveMsgLoop_cons_unknown q qs record dns hs hn⟩
    · have hbad2 : ∃ x ∈ qs, SupportedType x.qType ∧ x.qName ≠ wwwBaiduCom := by
        obtain ⟨x, hx, h1, h2⟩ := hbad
        rcases List.mem_cons.mp hx with rfl | hx
        · exact absurd h1 hs
        · exact ⟨x, hx, h1, h2⟩
      rw [resolveMsgLoop_cons_unsupported q qs record dns hs]
      exact ih hbad2 _ _

theorem resolveMsgLoop_known (qs : List dnsQuestion) :
    (∀ q ∈ qs, SupportedType q.qType → q.qName = wwwBaiduCom) →
    ∀ (record : dnsRecord) (dns : dnsMsg), ∃ m2, resolveMsgLoop qs record dns = (m2, none) := by
  induction qs with
  | nil => intro _ record dns; exact ⟨dns, rfl⟩
  | cons q qs ih =>
    intro hall record dns
    have hrest : ∀ x ∈ qs, SupportedType x.qType → x.qName = wwwBaiduCom :=
      fun x hx => hall x (by simp [hx])
    by_cases hs : SupportedType q.qType
    · obtain ⟨r, _, _, _, _, hstep⟩ :=
        resolveMsgLoop_cons_known q qs record dns hs (hall q (by simp) hs)
      rw [hstep]
      exact ih hrest _ _
    · rw [resolveMsgLoop_cons_unsupported q qs record dns hs]
      exact ih hrest _ _

/-- C17 (unknown domain is a hard failure).  For every message that holds at
least one question of type A, AAAA or TXT whose name is not exactly
"www.baidu.com.", wherever it sits and whatever the other questions are,
`resolveMsg` returns an unknown-domain error; conversely `resolveMsg` returns
no error whenever every question of type A, AAAA or TXT is named exactly
"www.baidu.com.". -/
theorem resolveMsg_unknown_domain (m : dnsMsg) :
    ((∃ q ∈ m.questions, SupportedType q.qType ∧ q.qName ≠ wwwBaiduCom) →
        ∃ m2 d, d ≠ wwwBaiduCom ∧ resolveMsg m = (m2, some (.unknownDomain d)))
    ∧ ((∀ q ∈ m.questions, SupportedType q.qType → q.qName = wwwBaiduCom) →
        ∃ m2, resolveMsg m = (m2, none)) := by
  constructor
  · intro h
    rw [resolveMsg]
    exact resolveMsgLoop_unknown _ h _ _
  · intro h
    rw [resolveMsg]
    exact resolveMsgLoop_known _ h _ _

/-- C17 at the question ("unknown.example.", A, 1) placed after a question of
type SOA, and at the query scenario. -/
theorem resolveMsg_unknown_domain_witness :
    (∃ m2 d, d ≠ wwwBaiduCom
      ∧ resolveMsg ⟨7, false, 0, false, false, true, false, 0, 2, 0, 0, 0,
          [⟨wwwBaiduCom, 6, 1⟩,
           ⟨[117, 110, 107, 110, 111, 119, 110, 46, 101, 120, 97, 109, 112, 108, 101, 46], 1, 1⟩],
          [], [], []⟩ = (m2, some (.unknownDomain d)))
    ∧ (∃ m2, resolveMsg (scenarioQueryMsg 1) = (m2, none)) :=
  ⟨(resolveMsg_unknown_domain _).1
      ⟨⟨[117, 110, 107, 110, 111, 119, 110, 46, 101, 120, 97, 109, 112, 108, 101, 46], 1, 1⟩,
        by simp, by decide, by decide⟩,
   (resolveMsg_unknown_domain (scenarioQueryMsg 1)).2 (by
      intro q hq _
      have : q = ⟨wwwBaiduCom, 1, 1⟩ := by simpa [scenarioQueryMsg] using hq
      rw [this])⟩

/-- C15 (resolver output and the record invariant), evaluated on two
messages.  For the single question ("www.baidu.com.", TXT, 1) `resolveMsg`
returns no error and the answer has rdLength 0 with the 11 bytes of
"Hello World" as rdData: `queryTXTRecord` sets rdData only.  When an A
question for the same name comes first, the TXT answer carries the rdLength 4
left in the reused record variable by the A lookup. -/
theorem resolveMsg_txt_rdLength :
    resolveMsg ⟨7, false, 0, false, false, true, false, 0, 1, 0, 0, 0,
        [⟨wwwBaiduCom, 16, 1⟩], [], [], []⟩
      = (⟨7, true, 0, true, false, true, false, 0, 1, 1, 0, 0, [⟨wwwBaiduCom, 16, 1⟩],
          [⟨wwwBaiduCom, 16, 1, 3600, 0, helloWorld⟩], [], []⟩, none)
    ∧ helloWorld.length = 11
    ∧ resolveMsg ⟨7, false, 0, false, false, true, false, 0, 2, 0, 0, 0,
        [⟨wwwBaiduCom, 1, 1⟩, ⟨wwwBaiduCom, 16, 1⟩], [], [], []⟩
      = (⟨7, true, 0, true, false, true, false, 0, 2, 2, 0, 0,
          [⟨wwwBaiduCom, 1, 1⟩, ⟨wwwBaiduCom, 16, 1⟩],
          [⟨wwwBaiduCom, 1, 1, 3600, 4, [10, 10, 0, 1]⟩,
           ⟨wwwBaiduCom, 16, 1, 3600, 4, helloWorld⟩], [], []⟩, none) := by
  decide

/-! ### An over-declared question count -/

/-- C13 (over-declared question count), evaluated at k = 1: the 31-byte
datagram made of a header that declares qdCount 2 (id 1, flags 0x0100) and
the single question ("www.baidu.com.", A, 1).  `decodeMsg` on a fresh message
returns the error "Data is too small": after the first question the loop of
`decodeBody` calls `decodeQuestion` at the end of the buffer, where
`decodeDomainName` fails, and the error is returned before the test
`_off == off` is reached.  The question decoded so far stays in the message
and qdCount stays 0. -/
theorem decodeMsg_overdeclared_count :
    decodeMsg dnsMsg.fresh
        ([0, 1, 0x01, 0x00, 0, 2, 0, 0, 0, 0, 0, 0] ++ scenarioQuestionBytes)
      = some (⟨1, false, 0, false, false, true, false, 0, 0, 0, 0, 0, [⟨wwwBaiduCom, 1, 1⟩],
          [], [], []⟩, some .dataTooSmall) := by
  decide

/-! ### Name encoding without room -/

/-- C18 (name encoding without room), evaluated on a 2-byte buffer at offset
0.  For the name "a." (encoding `01 'a' 00`, three bytes) `encodeDomainName`
writes `01 'a'`, drops the zero byte and returns offset 3, beyond the buffer,
with no error.  For the name "ab." (encoding `02 'a' 'b' 00`) it writes
`02 'a'`, drops 'b' and the zero byte and returns offset 4 with no error.
For the name "a.b." the store `buff[off] = byte(sectionLen)` of the second
label is out of range: the call panics. -/
theorem encodeDomainName_no_room :
    encodeDomainName [97, 46] [255, 255] 0 = some ⟨[1, 97], 3, none⟩
    ∧ encodeDomainName [97, 98, 46] [255, 255] 0 = some ⟨[2, 97], 4, none⟩
    ∧ encodeDomainName [97, 46, 98, 46] [255, 255] 0 = none := by
  decide

/-! ### Query-only messages -/

theorem length_nameLayout (name : List Nat) (h : WellFormedName name) :
    (nameLayout name).length = name.length + 1 := by
  obtain ⟨segs, hne, hsegs, rfl⟩ := h
  rw [nameLayout_dottedName segs hne (fun x hx => ⟨(hsegs x hx).1, (hsegs x hx).2.2⟩)]
  simp [length_labelBytes]

theorem length_questionsLayout (qs : List dnsQuestion)
    (h : ∀ q ∈ qs, WellFormedName q.qName) :
    (questionsLayout qs).length = (qs.map (fun q => q.qName.length + 5)).sum := by
  induction qs with
  | nil => rfl
  | cons q qs ih =>
    have h1 := length_nameLayout q.qName (h q (by simp))
    simp only [questionsLayout, List.length_append, List.map_cons, List.sum_cons,
      ih (fun x hx => h x (by simp [hx])), questionLayout, u16be, List.length_cons,
      List.length_nil, h1]

/-- C19 (query-only round trip).  For every message with a 16-bit id, opcode
0, rcode in 0..15, any boolean flags, qdCount equal to the number of
questions, anCount, nsCount and arCount 0, no answer, authority or additional
records, every question with a well-formed name (non-empty dot-free segments
of at most 63 bytes, each followed by '.') and a 16-bit type and class, and
total encoded size `12 + sum (len(qName) + 5)` at most 1024, `encodeMsg`
succeeds and `decodeMsg` on a fresh message applied to the returned bytes
succeeds and yields a message equal to the original in every field. -/
theorem query_only_roundtrip (m : dnsMsg) (hid : m.id < 65536) (hop : m.opcode = 0)
    (hrc : m.rcode < 16) (hqd : m.qdCount = m.questions.length)
    (han : m.anCount = 0) (hns : m.nsCount = 0) (har : m.arCount = 0)
    (hans : m.answers = []) (hauth : m.authorities = []) (hadd : m.additionals = [])
    (hq : ∀ q ∈ m.questions, WellFormedName q.qName ∧ q.qType < 65536 ∧ q.qClass < 65536)
    (hsize : 12 + (m.questions.map (fun q => q.qName.length + 5)).sum ≤ 1024) :
    ∃ bytes : List Nat,
      encodeMsg m = some (bytes, none) ∧ decodeMsg dnsMsg.fresh bytes = some (m, none) := by
  have hnames : ∀ q ∈ m.questions, WellFormedName q.qName := fun q hx => (hq q hx).1
  have hwf : WellFormedSections m := by
    refine ⟨hnames, ?_, ?_, ?_⟩
    · intro r hr; rw [hans] at hr; simp at hr
    · intro r hr; rw [hauth] at hr; simp at hr
    · intro r hr; rw [hadd] at hr; simp at hr
  have hbody : (bodyLayout m).length = (m.questions.map (fun q => q.qName.length + 5)).sum := by
    simp [bodyLayout, hans, hauth, hadd, recordsLayout, length_questionsLayout _ hnames]
  have hlen : m.questions.length < 65536 := by
    have h1 := length_le_length_questionsLayout m.questions
    rw [length_questionsLayout _ hnames] at h1
    omega
  have htyped : WellTyped m :=
    ⟨hid, by rw [hop]; exact Nat.zero_lt_succ 15, hrc, hqd, fun q hx => (hq q hx).2⟩
  have hview : decodedView m = m := by
    obtain ⟨id, qr, opcode, aa, tc, rd, ra, rcode, qd, an, ns, ar, qs, as, us, ds⟩ := m
    simp only at hop hqd han hns har hans hauth hadd
    subst hop hqd han hns har hans hauth hadd
    rfl
  refine ⟨headerBytes m ++ bodyLayout m, encodeMsg_ok m hwf (by omega), ?_⟩
  rw [decodeMsg_encoded m htyped hnames hlen, hview]

/-- C19 at the query message of the scenario with id 1. -/
theorem query_only_roundtrip_witness :
    ∃ bytes : List Nat,
      encodeMsg (scenarioQueryMsg 1) = some (bytes, none)
      ∧ decodeMsg dnsMsg.fresh bytes = some (scenarioQueryMsg 1, none) :=
  query_only_roundtrip (scenarioQueryMsg 1) (by decide) rfl (by decide) rfl rfl rfl rfl rfl rfl
    rfl
    (by
      intro q hx
      have : q = ⟨wwwBaiduCom, 1, 1⟩ := by simpa [scenarioQueryMsg] using hx
      subst this
      exact ⟨wellFormedName_wwwBaiduCom, by decide, by decide⟩)
    (by decide)

/-! ### Truncated names and questions -/

/-- The loop of `decodeDomainName` walks over complete labels (non-empty, at
most 63 bytes): each one costs an iteration and appends its segment and a
'.'. -/
theorem decodeDomainNameLoop_skip (segs : List (List Nat)) :
    (∀ seg ∈ segs, seg ≠ [] ∧ seg.length ≤ 63) →
    ∀ (pre rest domain : List Nat) (fuel : Nat),
      decodeDomainNameLoop (pre ++ (labelBytes segs ++ rest)) (fuel + segs.length) pre.length
          domain
        = decodeDomainNameLoop (pre ++ (labelBytes segs ++ rest)) fuel
            (pre.length + (labelBytes segs).length) (domain ++ dottedName segs) := by
  induction segs with
  | nil => intro _ pre rest domain fuel; simp [labelBytes, dottedName]
  | cons seg segs ih =>
    intro hsegs pre rest domain fuel
    have hseg := hsegs seg (by simp)
    have hrest : ∀ x ∈ segs, x ≠ [] ∧ x.length ≤ 63 := fun x hx => hsegs x (by simp [hx])
    have hpos : 0 < seg.length := List.length_pos.mpr hseg.1
    have hmod : seg.length % 256 = seg.length := Nat.mod_eq_of_lt (by omega)
    have hland : seg.length &&& 0xC0 = 0 := land_C0_of_le_63 _ (by omega)
    have hB : pre ++ (labelBytes (seg :: segs) ++ rest)
        = pre ++ seg.length :: (seg ++ (labelBytes segs ++ rest)) := by
      simp [labelBytes, hmod]
    have hB2 : pre ++ seg.length :: (seg ++ (labelBytes segs ++ rest))
        = (pre ++ seg.length :: seg) ++ (labelBytes segs ++ rest) := by
      simp
    have hfuel : fuel + (seg :: segs).length = (fuel + segs.length) + 1 := by
      simp; omega
    rw [hB, hfuel, decodeDomainNameLoop]
    have h1 : ¬ (pre.length ≥ (pre ++ seg.length :: (seg ++ (labelBytes segs ++ rest))).length) := by
      simp
    have h2 : ¬ (pre.length + 1 + seg.length
        > (pre ++ seg.length :: (seg ++ (labelBytes segs ++ rest))).length) := by
      simp; omega
    have h3 : ((pre ++ seg.length :: (seg ++ (labelBytes segs ++ rest))).drop
        (pre.length + 1)).take seg.length = seg := by
      have e : pre ++ seg.length :: (seg ++ (labelBytes segs ++ rest))
          = (pre ++ [seg.length]) ++ (seg ++ (labelBytes segs ++ rest)) := by simp
      rw [e, List.drop_left' (by simp), List.take_left]
    simp only [getD_append_length, if_neg h1, hland, if_true, if_neg (Nat.pos_iff_ne_zero.mp hpos),
      if_neg h2, h3]
    have hlen : pre.length + 1 + seg.length = (pre ++ seg.length :: seg).length := by
      simp; omega
    rw [hB2, hlen, ih hrest]
    have e1 : (pre ++ seg.length :: seg).length + (labelBytes segs).length
        = pre.length + (labelBytes (seg :: segs)).length := by
      simp [labelBytes]; omega
    have e2 : domain ++ seg ++ [46] ++ dottedName segs = domain ++ dottedName (seg :: segs) := by
      simp [dottedName]
    rw [e1, e2]

/-- C11 (truncated names are rejected).  For every buffer that holds, from
`off` on, zero or more complete labels (length bytes 1..63) and then ends
before a terminating zero byte, either at a label boundary (`tail` empty) or
after a length byte `L` in 1..63 followed by fewer than `L` bytes,
`decodeDomainName` returns the empty name, the offset `len(buffer)` and the
error "Data is too small". -/
theorem decodeDomainName_truncated (segs : List (List Nat)) (pre tail : List Nat)
    (hsegs : ∀ seg ∈ segs, seg ≠ [] ∧ seg.length ≤ 63)
    (htail : tail = [] ∨ ∃ (L : Nat) (part : List Nat),
      tail = L :: part ∧ 1 ≤ L ∧ L ≤ 63 ∧ part.length < L) :
    decodeDomainName (pre ++ (labelBytes segs ++ tail)) pre.length
      = some ([], (pre ++ (labelBytes segs ++ tail)).length, some .dataTooSmall) := by
  have hsl : segs.length ≤ (labelBytes segs).length := by
    rw [length_labelBytes]; exact length_le_length_dottedName segs
  have hfuel : (pre ++ (labelBytes segs ++ tail)).length + 1
      = ((pre ++ (labelBytes segs ++ tail)).length - segs.length) + 1 + segs.length := by
    simp only [List.length_append]; omega
  rw [decodeDomainName, hfuel, decodeDomainNameLoop_skip segs hsegs, decodeDomainNameLoop]
  rcases htail with rfl | ⟨L, part, rfl, hL1, hL2, hpart⟩
  · have h : pre.length + (labelBytes segs).length ≥ (pre ++ (labelBytes segs ++ [])).length := by
      simp
    rw [if_pos h]
  · have hB : pre ++ (labelBytes segs ++ L :: part) = (pre ++ labelBytes segs) ++ L :: part := by
      simp
    have hlen : pre.length + (labelBytes segs).length = (pre ++ labelBytes segs).length := by
      simp
    rw [hB, hlen]
    have h1 : ¬ ((pre ++ labelBytes segs).length ≥ ((pre ++ labelBytes segs) ++ L :: part).length) := by
      simp
    have h2 : (pre ++ labelBytes segs).length + 1 + L
        > ((pre ++ labelBytes segs) ++ L :: part).length := by
      simp; omega
    have hland : L &&& 0xC0 = 0 := land_C0_of_le_63 _ (by omega)
    simp only [getD_append_length, if_neg h1, hland, if_true, if_neg (show ¬ (L = 0) by omega),
      if_pos h2]

/-- C11 at the buffer `03 'w' 'w' 'w' 05 'b' 'a'`, cut inside the second
label, read from offset 0. -/
theorem decodeDomainName_truncated_witness :
    decodeDomainName [3, 119, 119, 119, 5, 98, 97] 0 = some ([], 7, some .dataTooSmall) :=
  decodeDomainName_truncated [[119, 119, 119]] [] [5, 98, 97] (by decide)
    (Or.inr ⟨5, [98, 97], rfl, by decide, by decide, by decide⟩)

/-- C14 as stated fails.  In the buffer `01 'a' 00 00 01` the name "a." is
followed by two bytes: `decodeQuestion` at offset 0 reads them as the type,
finds the buffer exhausted and returns success with qType 1 and qClass 0, not
an overflow error.  With three bytes after the name (`01 'a' 00 00 01 00`)
the class cannot be read, yet the call also returns success. -/
theorem decodeQuestion_tolerates_short_tail :
    decodeDomainName [1, 97, 0, 0, 1] 0 = some ([97, 46], 3, none)
    ∧ decodeQuestion [1, 97, 0, 0, 1] 0 = some (⟨[97, 46], 1, 0⟩, 5, none)
    ∧ decodeDomainName [1, 97, 0, 0, 1, 0] 0 = some ([97, 46], 3, none)
    ∧ decodeQuestion [1, 97, 0, 0, 1, 0] 0 = some (⟨[97, 46], 1, 0⟩, 6, none) := by
  decide

/-- C14, amended.  For every buffer in which a well-formed name is encoded
at `off` (labels of non-empty segments of at most 63 bytes, then a zero
byte): when no byte remains after the name, `decodeQuestion` returns success
with qType 0, qClass 0 and the offset just past the name; when one byte
remains, it returns the overflow error of the truncated type field; when two
bytes remain, it returns success with the type read from them, qClass 0 and
the offset `len(buffer)`. -/
theorem decodeQuestion_short_tail (segs : List (List Nat)) (pre tail : List Nat)
    (hne : segs ≠ []) (hsegs : ∀ seg ∈ segs, seg ≠ [] ∧ seg.length ≤ 63) :
    (tail = [] →
        decodeQuestion (pre ++ (labelBytes segs ++ 0 :: tail)) pre.length
          = some (⟨dottedName segs, 0, 0⟩, pre.length + (dottedName segs).length + 1, none))
    ∧ (∀ a, tail = [a] →
        decodeQuestion (pre ++ (labelBytes segs ++ 0 :: tail)) pre.length
          = some (⟨dottedName segs, 0, 0⟩, (pre ++ (labelBytes segs ++ 0 :: tail)).length,
              some .overflowDecodingUint16))
    ∧ (∀ a b, tail = [a, b] →
        decodeQuestion (pre ++ (labelBytes segs ++ 0 :: tail)) pre.length
          = some (⟨dottedName segs, a * 256 + b, 0⟩,
              (pre ++ (labelBytes segs ++ 0 :: tail)).length, none)) := by
  have hname := decodeDomainName_labels segs hne hsegs pre tail
  have hlen : (pre ++ (labelBytes segs ++ 0 :: tail)).length
      = pre.length + (dottedName segs).length + 1 + tail.length := by
    simp [length_labelBytes]; omega
  refine ⟨?_, ?_, ?_⟩
  · intro ht
    subst ht
    have h1 : pre.length + (dottedName segs).length + 1
        = (pre ++ (labelBytes segs ++ [0])).length := by rw [hlen]; simp
    unfold decodeQuestion
    simp only [hname, if_pos h1]
  · intro a ht
    subst ht
    have h1 : ¬ (pre.length + (dottedName segs).length + 1
        = (pre ++ (labelBytes segs ++ [0, a])).length) := by rw [hlen]; simp
    have h2 : pre.length + (dottedName segs).length + 1 + 2
        > (pre ++ (labelBytes segs ++ [0, a])).length := by rw [hlen]; simp
    unfold decodeQuestion
    simp only [hname, if_neg h1, decodeUint16, if_pos h2]
  · intro a b ht
    subst ht
    have h1 : ¬ (pre.length + (dottedName segs).length + 1
        = (pre ++ (labelBytes segs ++ [0, a, b])).length) := by rw [hlen]; simp
    have hB : pre ++ (labelBytes segs ++ [0, a, b]) = (pre ++ labelBytes segs ++ [0]) ++ a :: b :: [] := by
      simp
    have hl : (pre ++ labelBytes segs ++ [0]).length = pre.length + (dottedName segs).length + 1 := by
      simp [length_labelBytes]; omega
    have h2 := decodeUint16_at (pre ++ labelBytes segs ++ [0]) a b []
    rw [← hB, hl] at h2
    have h3 : pre.length + (dottedName segs).length + 1 + 2
        = (pre ++ (labelBytes segs ++ [0, a, b])).length := by rw [hlen]; simp
    unfold decodeQuestion
    simp only [hname, if_neg h1, h2, if_pos h3]
    rw [h3]

/-- C14, amended, at the buffer `01 'a' 00 00 01` read from offset 0. -/
theorem decodeQuestion_short_tail_witness :
    decodeQuestion [1, 97, 0, 0, 1] 0 = some (⟨[97, 46], 1, 0⟩, 5, none) :=
  (decodeQuestion_short_tail [[97]] [] [0, 1] (by decide) (by decide)).2.2 0 1 rfl

/-! ### What an encoder leaves untouched -/

theorem take_copyAt_of_le (bs : List Nat) :
    ∀ (buff : List Nat) (off k : Nat), k ≤ off → (copyAt buff off bs).take k = buff.take k := by
  induction bs with
  | nil => intro buff off k _; rfl
  | cons b bs ih =>
    intro buff off k hk
    rw [copyAt, ih _ _ _ (by omega), List.set_take,
      List.set_eq_of_length_le (by simp; omega)]

theorem take_set_of_le (buff : List Nat) (off k v : Nat) (hk : k ≤ off) :
    (buff.set off v).take k = buff.take k := by
  have h := take_copyAt_of_le [v] buff off k hk
  simpa [copyAt] using h

theorem Frame.refl_of (buff : List Nat) (off off2 : Nat) (e : Option DnsError)
    (h : e = none → off ≤ off2) : Frame buff off ⟨buff, off2, e⟩ :=
  ⟨rfl, rfl, h⟩

theorem Frame.trans {buff : List Nat} {off : Nat} {r1 r2 : EncRes}
    (h1 : Frame buff off r1) (hok : off ≤ r1.off) (h2 : Frame r1.buff r1.off r2) :
    Frame buff off r2 := by
  obtain ⟨a1, b1, _⟩ := h1
  obtain ⟨a2, b2, c2⟩ := h2
  refine ⟨a2.trans a1, ?_, fun h => Nat.le_trans hok (c2 h)⟩
  have e : ∀ l : List Nat, l.take off = (l.take r1.off).take off := by
    intro l
    rw [List.take_take, Nat.min_eq_left hok]
  rw [e r2.buff, b2, ← e r1.buff, b1]

theorem frame_copyAt (buff : List Nat) (off off2 : Nat) (bs : List Nat) (h : off ≤ off2) :
    Frame buff off ⟨copyAt buff off bs, off2, none⟩ :=
  ⟨length_copyAt bs buff off, take_copyAt_of_le bs buff off off (Nat.le_refl _), fun _ => h⟩

theorem frame_encodeUint8 (v : Nat) (buff : List Nat) (off : Nat) :
    Frame buff off (encodeUint8 v buff off) := by
  by_cases h : off + 1 ≤ buff.length
  · rw [encodeUint8_ok v buff off h]
    exact frame_copyAt buff off _ _ (by omega)
  · have h2 : off + 1 > buff.length := by omega
    simp only [encodeUint8, if_pos h2]
    exact Frame.refl_of _ _ _ _ (fun h => by simp at h)

theorem frame_encodeUint16 (v : Nat) (buff : List Nat) (off : Nat) :
    Frame buff off (encodeUint16 v buff off) := by
  by_cases h : off + 2 ≤ buff.length
  · rw [encodeUint16_ok v buff off h]
    exact frame_copyAt buff off _ _ (by omega)
  · have h2 : off + 2 > buff.length := by omega
    simp only [encodeUint16, if_pos h2]
    exact Frame.refl_of _ _ _ _ (fun h => by simp at h)

theorem frame_encodeUint32 (v : Nat) (buff : List Nat) (off : Nat) :
    Frame buff off (encodeUint32 v buff off) := by
  by_cases h : off + 4 ≤ buff.length
  · rw [encodeUint32_ok v buff off h]
    exact frame_copyAt buff off _ _ (by omega)
  · have h2 : off + 4 > buff.length := by omega
    simp only [encodeUint32, if_pos h2]
    exact Frame.refl_of _ _ _ _ (fun h => by simp at h)

theorem err_none_of_not_isSome (e : EncRes) (h : ¬ (e.err.isSome = true)) : e.err = none := by
  cases hx : e.err with
  | none => rfl
  | some x => rw [hx] at h; simp at h

theorem frame_encodeDomainNameLoop (s : List Nat) :
    ∀ (rest : List Nat) (i : Nat) (isDot : Bool) (ptr : Nat) (buff : List Nat) (off : Nat)
      (r : EncRes), encodeDomainNameLoop s rest i isDot ptr buff off = some r →
      Frame buff off r := by
  intro rest
  induction rest with
  | nil =>
    intro i isDot ptr buff off r h
    rw [encodeDomainNameLoop] at h
    have := Option.some.inj h
    subst this
    refine ⟨?_, ?_, fun _ => by simp⟩
    · simp only; split <;> simp
    · simp only; split
      · exact take_set_of_le buff off off 0 (Nat.le_refl _)
      · rfl
  | cons c rest ih =>
    intro i isDot ptr buff off r h
    rw [encodeDomainNameLoop] at h
    split at h
    · split at h
      · have := Option.some.inj h
        subst this
        exact Frame.refl_of _ _ _ _ (fun h => by simp at h)
      · split at h
        · have h1 : Frame buff off
              ⟨copyAt (buff.set off ((i - ptr) % 256)) (off + 1) ((s.drop ptr).take (i - ptr)),
                off + ((i - ptr) + 1), none⟩ :=
            frame_copyAt buff off _ ((i - ptr) % 256 :: (s.drop ptr).take (i - ptr)) (by omega)
          exact Frame.trans h1 (by simp) (ih _ _ _ _ _ _ h)
        · exact absurd h (by simp)
    · exact ih _ _ _ _ _ _ h

theorem frame_encodeDomainName (s buff : List Nat) (off : Nat) (r : EncRes)
    (h : encodeDomainName s buff off = some r) : Frame buff off r := by
  rw [encodeDomainName] at h
  split at h
  · have := Option.some.inj h
    subst this
    exact Frame.refl_of _ _ _ _ (fun _ => Nat.le_refl _)
  · exact frame_encodeDomainNameLoop s _ _ _ _ _ _ _ h

theorem frame_encodeQuestion (q : dnsQuestion) (buff : List Nat) (off : Nat) (r : EncRes)
    (h : encodeQuestion q buff off = some r) : Frame buff off r := by
  rw [encodeQuestion] at h
  simp only [] at h
  split at h
  · exact absurd h (by simp)
  · rename_i e he
    have f0 := frame_encodeDomainName _ _ _ _ he
    split at h
    · have := Option.some.inj h; subst this; exact f0
    · rename_i n0
      have f1 := Frame.trans f0 (f0.2.2 (err_none_of_not_isSome _ n0))
        (frame_encodeUint16 q.qType e.buff e.off)
      split at h
      · have := Option.some.inj h; subst this; exact f1
      · rename_i n1
        have f2 := Frame.trans f1 (f1.2.2 (err_none_of_not_isSome _ n1))
          (frame_encodeUint16 q.qClass _ _)
        split at h
        · have := Option.some.inj h; subst this; exact f2
        · rename_i n2
          have := Option.some.inj h; subst this
          exact ⟨f2.1, f2.2.1, fun _ => f2.2.2 (err_none_of_not_isSome _ n2)⟩

theorem frame_encodeRdataLoop (rdData : List Nat) :
    ∀ (n i : Nat) (buff : List Nat) (off : Nat) (r : EncRes),
      encodeRdataLoop rdData n i buff off = some r → Frame buff off r := by
  intro n
  induction n with
  | zero =>
    intro i buff off r h
    rw [encodeRdataLoop] at h
    have := Option.some.inj h; subst this
    exact Frame.refl_of _ _ _ _ (fun _ => Nat.le_refl _)
  | succ n ih =>
    intro i buff off r h
    rw [encodeRdataLoop] at h
    simp only [] at h
    split at h
    · have f0 := frame_encodeUint8 (rdData.getD i 0) buff off
      split at h
      · have := Option.some.inj h; subst this; exact f0
      · rename_i n0
        exact Frame.trans f0 (f0.2.2 (err_none_of_not_isSome _ n0)) (ih _ _ _ _ h)
    · exact absurd h (by simp)

theorem frame_encodeRecord (rec : dnsRecord) (buff : List Nat) (off : Nat) (r : EncRes)
    (h : encodeRecord rec buff off = some r) : Frame buff off r := by
  rw [encodeRecord] at h
  simp only [] at h
  split at h
  · exact absurd h (by simp)
  · rename_i e he
    have f0 := frame_encodeDomainName _ _ _ _ he
    split at h
    · have := Option.some.inj h; subst this; exact f0
    · rename_i n0
      have f1 := Frame.trans f0 (f0.2.2 (err_none_of_not_isSome _ n0))
        (frame_encodeUint16 rec.rdType e.buff e.off)
      split at h
      · have := Option.some.inj h; subst this; exact f1
      · rename_i n1
        have f2 := Frame.trans f1 (f1.2.2 (err_none_of_not_isSome _ n1))
          (frame_encodeUint16 rec.rdClass _ _)
        split at h
        · have := Option.some.inj h; subst this; exact f2
        · rename_i n2
          have f3 := Frame.trans f2 (f2.2.2 (err_none_of_not_isSome _ n2))
            (frame_encodeUint32 rec.rdTTL _ _)
          split at h
          · have := Option.some.inj h; subst this; exact f3
          · rename_i n3
            have f4 := Frame.trans f3 (f3.2.2 (err_none_of_not_isSome _ n3))
              (frame_encodeUint16 rec.rdLength _ _)
            split at h
            · have := Option.some.inj h; subst this; exact f4
            · rename_i n4
              split at h
              · exact Frame.trans f4 (f4.2.2 (err_none_of_not_isSome _ n4))
                  (frame_encodeRdataLoop _ _ _ _ _ _ h)
              · have := Option.some.inj h; subst this
                exact ⟨f4.1, f4.2.1, fun h => by simp at h⟩

theorem frame_encodeQuestions (qs : List dnsQuestion) :
    ∀ (buff : List Nat) (off : Nat) (r : EncRes),
      encodeQuestions qs buff off = some r → Frame buff off r := by
  induction qs with
  | nil =>
    intro buff off r h
    rw [encodeQuestions] at h
    have := Option.some.inj h; subst this
    exact Frame.refl_of _ _ _ _ (fun _ => Nat.le_refl _)
  | cons q qs ih =>
    intro buff off r h
    rw [encodeQuestions] at h
    split at h
    · exact absurd h (by simp)
    · rename_i e he
      have f0 := frame_encodeQuestion _ _ _ _ he
      split at h
      · have := Option.some.inj h; subst this; exact f0
      · rename_i n0
        exact Frame.trans f0 (f0.2.2 (err_none_of_not_isSome _ n0)) (ih _ _ _ h)

theorem frame_encodeRecords (rs : List dnsRecord) :
    ∀ (buff : List Nat) (off : Nat) (r : EncRes),
      encodeRecords rs buff off = some r → Frame buff off r := by
  induction rs with
  | nil =>
    intro buff off r h
    rw [encodeRecords] at h
    have := Option.some.inj h; subst this
    exact Frame.refl_of _ _ _ _ (fun _ => Nat.le_refl _)
  | cons q qs ih =>
    intro buff off r h
    rw [encodeRecords] at h
    split at h
    · exact absurd h (by simp)
    · rename_i e he
      have f0 := frame_encodeRecord _ _ _ _ he
      split at h
      · have := Option.some.inj h; subst this; exact f0
      · rename_i n0
        exact Frame.trans f0 (f0.2.2 (err_none_of_not_isSome _ n0)) (ih _ _ _ h)

/-- The first 12 bytes that a successful `encodeMsg` returns are the header
bytes: no later entry overwrites them. -/
theorem encodeMsg_header_prefix (m : dnsMsg) (bytes : List Nat)
    (h : encodeMsg m = some (bytes, none)) : bytes.take 12 = headerBytes m := by
  have hbuf : (List.replicate 1024 0).length = 1024 := List.length_replicate _ _
  have bad : ∀ (e : EncRes), e.err.isSome = true →
      some (([] : List Nat), e.err) = some (bytes, none) → False := by
    intro e he h0
    have h1 := congrArg Prod.snd (Option.some.inj h0)
    simp only at h1
    rw [h1] at he
    simp at he
  unfold encodeMsg at h
  simp only [] at h
  generalize List.replicate 1024 0 = buf at hbuf h
  rw [encodeDnsHdr_ok m _ 0 (by rw [hbuf]; omega)] at h
  simp only [Option.isSome_none, Bool.false_eq_true, if_false] at h
  have hb : u16be m.id ++ u16be (encodeDnsHdr.flags m) ++ u16be m.qdCount ++ u16be m.anCount
      ++ u16be m.nsCount ++ u16be m.arCount = headerBytes m := rfl
  rw [hb] at h
  have hhdr : (copyAt buf 0 (headerBytes m)).take 12 = headerBytes m :=
    take_copyAt_zero (headerBytes m) buf (by rw [length_headerBytes, hbuf]; omega)
  split at h
  · exact absurd h (by simp)
  · rename_i rq hq
    have fq := frame_encodeQuestions _ _ _ _ hq
    split at h
    · rename_i h1; exact (bad _ h1 h).elim
    · rename_i nq
      split at h
      · exact absurd h (by simp)
      · rename_i ran han
        have fan := Frame.trans fq (fq.2.2 (err_none_of_not_isSome _ nq))
          (frame_encodeRecords _ _ _ _ han)
        split at h
        · rename_i h1; exact (bad _ h1 h).elim
        · rename_i nan
          split at h
          · exact absurd h (by simp)
          · rename_i rns hns
            have fns := Frame.trans fan (fan.2.2 (err_none_of_not_isSome _ nan))
              (frame_encodeRecords _ _ _ _ hns)
            split at h
            · rename_i h1; exact (bad _ h1 h).elim
            · rename_i nns
              split at h
              · exact absurd h (by simp)
              · rename_i rar har
                have far := Frame.trans fns (fns.2.2 (err_none_of_not_isSome _ nns))
                  (frame_encodeRecords _ _ _ _ har)
                split at h
                · rename_i h1; exact (bad _ h1 h).elim
                · rename_i nar
                  split at h
                  · have h1 := congrArg Prod.fst (Option.some.inj h)
                    simp only at h1
                    have hoff : 0 + 12 ≤ rar.off := far.2.2 (err_none_of_not_isSome _ nar)
                    have h12 : (0 : Nat) + 12 = 12 := rfl
                    rw [← h1, List.take_take, Nat.min_eq_left (by omega), ← hhdr]
                    rw [h12] at far
                    exact far.2.1
                  · exact absurd h (by simp)

/-- Bytes 4..11 of a successful encoding are the four stored counts. -/
theorem encodeMsg_count_bytes (m : dnsMsg) (bytes : List Nat)
    (h : encodeMsg m = some (bytes, none)) :
    (bytes.drop 4).take 8
      = u16be m.qdCount ++ u16be m.anCount ++ u16be m.nsCount ++ u16be m.arCount := by
  have h1 := encodeMsg_header_prefix m bytes h
  have h2 : (bytes.drop 4).take 8 = (bytes.take 12).drop 4 := by
    rw [List.drop_take]
  rw [h2, h1]
  rfl

/-- C12 as stated fails.  The message with id 1, stored qdCount 5 and no
questions or records encodes successfully to its 12 header bytes, and bytes
4..5 of the output are `00 05`, the stored count, not the big-endian length
`00 00` of the empty question sequence. -/
theorem encodeMsg_writes_stored_counts :
    encodeMsg ⟨1, false, 0, false, false, false, false, 0, 5, 0, 0, 0, [], [], [], []⟩
      = some ([0, 1, 0, 0, 0, 5, 0, 0, 0, 0, 0, 0], none)
    ∧ (([0, 1, 0, 0, 0, 5, 0, 0, 0, 0, 0, 0] : List Nat).drop 4).take 8
        = [0, 5, 0, 0, 0, 0, 0, 0]
    ∧ (([0, 1, 0, 0, 0, 5, 0, 0, 0, 0, 0, 0] : List Nat).drop 4).take 8
        ≠ u16be ([] : List dnsQuestion).length ++ u16be ([] : List dnsRecord).length
            ++ u16be ([] : List dnsRecord).length ++ u16be ([] : List dnsRecord).length := by
  refine ⟨?_, rfl, by decide⟩
  rw [encodeMsg_ok _ ⟨by simp, by simp, by simp, by simp⟩ (by decide)]
  rfl

/-- C12, amended.  For every message on which `encodeMsg` succeeds, bytes
4..11 of the output are the big-endian 16-bit values of the stored fields
qdCount, anCount, nsCount and arCount; they are the lengths of the
questions, answers, authorities and additionals whenever the stored counts
equal those lengths. -/
theorem encodeMsg_stored_counts (m : dnsMsg) (bytes : List Nat)
    (h : encodeMsg m = some (bytes, none)) :
    (bytes.drop 4).take 8
        = u16be m.qdCount ++ u16be m.anCount ++ u16be m.nsCount ++ u16be m.arCount
    ∧ (m.qdCount = m.questions.length → m.anCount = m.answers.length →
        m.nsCount = m.authorities.length → m.arCount = m.additionals.length →
        (bytes.drop 4).take 8
          = u16be m.questions.length ++ u16be m.answers.length ++ u16be m.authorities.length
              ++ u16be m.additionals.length) := by
  have h1 := encodeMsg_count_bytes m bytes h
  refine ⟨h1, ?_⟩
  intro a b c d
  rw [h1, a, b, c, d]

/-- C12, amended, at the response of the query scenario with id 1: the count
bytes are `00 01 00 01 00 00 00 00`. -/
theorem encodeMsg_stored_counts_witness :
    ((scenarioResponse 1).drop 4).take 8 = [0, 1, 0, 1, 0, 0, 0, 0] :=
  (encodeMsg_stored_counts (scenarioResponseMsg 1) (scenarioResponse 1)
    (by rw [encodeMsg_ok (scenarioResponseMsg 1) (wellFormedSections_scenarioResponseMsg 1)
          (by decide)]; rfl)).1

/-! ### Counts along the serving pipeline -/

theorem getD_lt_256 (buff : List Nat) (hb : ∀ b ∈ buff, b < 256) (i : Nat) :
    buff.getD i 0 < 256 := by
  rw [List.getD_eq_getElem?_getD]
  cases h : buff[i]? with
  | none => simp
  | some b => exact hb b (List.getElem?_mem h)

theorem decodeUint16_lt (buff : List Nat) (hb : ∀ b ∈ buff, b < 256) (off : Nat) :
    (decodeUint16 buff off).1 < 65536 := by
  rw [decodeUint16]
  split
  · simp
  · have h1 := getD_lt_256 buff hb off
    have h2 := getD_lt_256 buff hb (off + 1)
    simp only [beUint16]
    omega

/-- The question count that `decodeDnsHdr` reads from a buffer of bytes is a
16-bit value. -/
theorem decodeDnsHdr_qdCount_lt (buff : List Nat) (hb : ∀ b ∈ buff, b < 256) (off : Nat) :
    (decodeDnsHdr buff off).1.qdCount < 65536 := by
  unfold decodeDnsHdr
  simp only []
  split
  · simp
  · split
    · simp
    · split
      · simp
      · rename_i v off3 heq
        have hv : v < 65536 := by
          have e := congrArg Prod.fst heq
          simp only at e
          rw [← e]
          exact decodeUint16_lt buff hb _
        split
        · exact hv
        · split
          · exact hv
          · split
            · exact hv
            · exact hv

/-- The question loop of `decodeBody`, when it ends without an error: at
most `n` questions were added, the stored count is their number (as a 16-bit
value) and the record sections are untouched. -/
theorem decodeBodyLoop_shape (buff : List Nat) :
    ∀ (n i : Nat) (dns : dnsMsg) (off : Nat) (m : dnsMsg),
      decodeBodyLoop buff n i dns off = some (m, none) →
      m.questions.length ≤ dns.questions.length + n
        ∧ m.qdCount = m.questions.length % 65536
        ∧ m.answers = dns.answers ∧ m.authorities = dns.authorities
        ∧ m.additionals = dns.additionals := by
  intro n
  induction n with
  | zero =>
    intro i dns off m h
    rw [decodeBodyLoop] at h
    have e := congrArg Prod.fst (Option.some.inj h)
    simp only at e
    subst e
    exact ⟨Nat.le_refl _, rfl, rfl, rfl, rfl⟩
  | succ n ih =>
    intro i dns off m h
    rw [decodeBodyLoop] at h
    split at h
    · exact absurd h (by simp)
    · have e := congrArg Prod.snd (Option.some.inj h)
      simp at e
    · split at h
      · have e := congrArg Prod.fst (Option.some.inj h)
        simp only at e
        subst e
        exact ⟨by simp, rfl, rfl, rfl, rfl⟩
      · obtain ⟨h1, h2, h3, h4, h5⟩ := ih _ _ _ _ h
        simp only [List.length_append, List.length_cons, List.length_nil] at h1
        exact ⟨by omega, h2, h3, h4, h5⟩

/-- A message that `decodeMsg` builds on a fresh `dnsMsg` without an error
from a buffer of bytes: the stored question count is the number of questions
and the record sections are empty. -/
theorem decodeMsg_shape (buf : List Nat) (hb : ∀ b ∈ buf, b < 256) (m : dnsMsg)
    (h : decodeMsg dnsMsg.fresh buf = some (m, none)) :
    m.qdCount = m.questions.length ∧ m.questions.length < 65536
      ∧ m.answers = [] ∧ m.authorities = [] ∧ m.additionals = [] := by
  have hqd := decodeDnsHdr_qdCount_lt buf hb 0
  rw [decodeMsg] at h
  split at h
  · have e := congrArg Prod.snd (Option.some.inj h)
    simp at e
  · rename_i hdr off heq
    rw [heq] at hqd
    simp only at hqd
    rw [decodeBody] at h
    split at h
    · have e := congrArg Prod.fst (Option.some.inj h)
      simp only at e
      subst e
      exact ⟨rfl, by simp, rfl, rfl, rfl⟩
    · obtain ⟨h1, h2, h3, h4, h5⟩ := decodeBodyLoop_shape _ _ _ _ _ _ h
      simp only [List.length_nil, Nat.zero_add] at h1
      have hlt : m.questions.length < 65536 := by omega
      rw [Nat.mod_eq_of_lt hlt] at h2
      exact ⟨h2, hlt, h3, h4, h5⟩

theorem answeredQuestions_cons_supported (q : dnsQuestion) (qs : List dnsQuestion)
    (h : SupportedType q.qType) : answeredQuestions (q :: qs) = q :: answeredQuestions qs := by
  simp [answeredQuestions, h]

theorem answeredQuestions_cons_unsupported (q : dnsQuestion) (qs : List dnsQuestion)
    (h : ¬ SupportedType q.qType) : answeredQuestions (q :: qs) = answeredQuestions qs := by
  simp [answeredQuestions, h]

theorem length_answeredQuestions_le (qs : List dnsQuestion) :
    (answeredQuestions qs).length ≤ qs.length :=
  List.length_filter_le _ _

/-- The loop of `resolveMsg`, when it ends without an error: one answer was
appended per question of a supported type, in order, with the name, type and
class of the question and TTL 3600; anCount grew by their number; questions,
the other counts and the other record sections are untouched. -/
theorem resolveMsgLoop_shape (qs : List dnsQuestion) :
    ∀ (record : dnsRecord) (dns m : dnsMsg), resolveMsgLoop qs record dns = (m, none) →
      m.answers.map answerKey
          = dns.answers.map answerKey ++ (answeredQuestions qs).map expectedKey
        ∧ m.anCount % 65536 = (dns.anCount + (answeredQuestions qs).length) % 65536
        ∧ m.questions = dns.questions ∧ m.qdCount = dns.qdCount ∧ m.nsCount = dns.nsCount
        ∧ m.arCount = dns.arCount ∧ m.authorities = dns.authorities
        ∧ m.additionals = dns.additionals := by
  induction qs with
  | nil =>
    intro record dns m h
    rw [resolveMsgLoop] at h
    have e := congrArg Prod.fst h
    simp only at e
    subst e
    simp [answeredQuestions]
  | cons q qs ih =>
    intro record dns m h
    by_cases hs : SupportedType q.qType
    · by_cases hn : q.qName = wwwBaiduCom
      · obtain ⟨r, r1, r2, r3, r4, hstep⟩ := resolveMsgLoop_cons_known q qs record dns hs hn
        rw [hstep] at h
        obtain ⟨h1, h2, h3, h4, h5, h6, h7, h8⟩ := ih _ _ _ h
        have hk : answerKey r = expectedKey q := by
          simp [answerKey, expectedKey, r1, r2, r3, r4]
        rw [answeredQuestions_cons_supported q qs hs]
        refine ⟨?_, ?_, h3, h4, h5, h6, h7, h8⟩
        · rw [h1]
          simp [hk]
        · rw [h2]
          simp only [List.length_cons]
          omega
      · rw [resolveMsgLoop_cons_unknown q qs record dns hs hn] at h
        have e := congrArg Prod.snd h
        simp at e
    · rw [resolveMsgLoop_cons_unsupported q qs record dns hs] at h
      obtain ⟨h1, h2, h3, h4, h5, h6, h7, h8⟩ := ih _ _ _ h
      rw [answeredQuestions_cons_unsupported q qs hs]
      exact ⟨h1, h2, h3, h4, h5, h6, h7, h8⟩

theorem resolveMsgLoop_anCount_lt (qs : List dnsQuestion) :
    ∀ (record : dnsRecord) (dns : dnsMsg), dns.anCount < 65536 →
      (resolveMsgLoop qs record dns).1.anCount < 65536 := by
  induction qs with
  | nil => intro record dns h; exact h
  | cons q qs ih =>
    intro record dns h
    by_cases hs : SupportedType q.qType
    · by_cases hn : q.qName = wwwBaiduCom
      · obtain ⟨r, _, _, _, _, hstep⟩ := resolveMsgLoop_cons_known q qs record dns hs hn
        rw [hstep]
        exact ih _ _ (Nat.mod_lt _ (by decide))
      · rw [resolveMsgLoop_cons_unknown q qs record dns hs hn]
        exact h
    · rw [resolveMsgLoop_cons_unsupported q qs record dns hs]
      exact ih _ _ h

/-- C20 (counts match sections along the serving pipeline).  For every
datagram (a buffer of bytes) on which `decodeMsg`, applied to a fresh
message, and then `resolveMsg` both return no error, the resulting message
has qdCount equal to the number of questions, anCount equal to the number of
answers, nsCount 0, arCount 0 and empty authorities and additionals; its
answers are one record per question of type A, AAAA or TXT, in question
order, each with the name, type and class of that question and TTL 3600; and
whenever `encodeMsg` succeeds on it, the four counts in bytes 4..11 of the
output are the numbers of questions, answers, authorities and additionals. -/
theorem pipeline_counts (buf : List Nat) (hb : ∀ b ∈ buf, b < 256) (m1 m2 : dnsMsg)
    (hdec : decodeMsg dnsMsg.fresh buf = some (m1, none))
    (hres : resolveMsg m1 = (m2, none)) :
    m2.qdCount = m2.questions.length ∧ m2.anCount = m2.answers.length
    ∧ m2.nsCount = 0 ∧ m2.arCount = 0 ∧ m2.authorities = [] ∧ m2.additionals = []
    ∧ m2.answers.map answerKey = (answeredQuestions m2.questions).map expectedKey
    ∧ (∀ bytes, encodeMsg m2 = some (bytes, none) →
        (bytes.drop 4).take 8
          = u16be m2.questions.length ++ u16be m2.answers.length
              ++ u16be m2.authorities.length ++ u16be m2.additionals.length) := by
  obtain ⟨d1, d2, d3, d4, d5⟩ := decodeMsg_shape buf hb m1 hdec
  have hlt := resolveMsgLoop_anCount_lt m1.questions dnsRecord.zero
    { m1 with qr := true, aa := true, ra := false, rcode := RESP_OK, anCount := 0,
              nsCount := 0, arCount := 0, answers := [] } (Nat.zero_lt_succ 65535)
  rw [resolveMsg] at hres
  simp only [] at hres
  rw [hres] at hlt
  simp only at hlt
  obtain ⟨h1, h2, h3, h4, h5, h6, h7, h8⟩ := resolveMsgLoop_shape _ _ _ _ hres
  simp only [List.map_nil, List.nil_append, Nat.zero_add] at h1 h2
  simp only at h3 h4 h5 h6 h7 h8
  have hlen : m2.answers.length = (answeredQuestions m1.questions).length := by
    have := congrArg List.length h1
    simpa using this
  have hle := length_answeredQuestions_le m1.questions
  have han : m2.anCount = m2.answers.length := by
    rw [Nat.mod_eq_of_lt hlt, Nat.mod_eq_of_lt (by omega)] at h2
    rw [h2, hlen]
  have hqd : m2.qdCount = m2.questions.length := by rw [h4, h3, d1]
  have hau : m2.authorities = [] := by rw [h7, d4]
  have had : m2.additionals = [] := by rw [h8, d5]
  refine ⟨hqd, han, h5, h6, hau, had, by rw [h1, h3], ?_⟩
  intro bytes henc
  rw [encodeMsg_count_bytes m2 bytes henc, hqd, han, h5, h6, hau, had]
  rfl

/-- C20 at the query datagram of the scenario with id 1. -/
theorem pipeline_counts_witness :
    (scenarioResponseMsg 1).qdCount = (scenarioResponseMsg 1).questions.length
    ∧ (scenarioResponseMsg 1).anCount = (scenarioResponseMsg 1).answers.length
    ∧ (scenarioResponseMsg 1).answers.map answerKey
        = (answeredQuestions (scenarioResponseMsg 1).questions).map expectedKey :=
  have h := pipeline_counts (scenarioQuery 1) (by decide) (scenarioQueryMsg 1)
    (scenarioResponseMsg 1) (by decide) (by decide)
  ⟨h.1, h.2.1, h.2.2.2.2.2.2.1⟩

end GoDNS
